import Mathlib

/-!
# Flye: overlap detector, overlap container and contig extender

A shallow embedding of `src/src/sequence/overlap.cpp` and
`src/assemble/extender.cpp`, followed by theorems about the embedded code.

Conventions of the embedding.

* `int32_t` values are `Int` (no value of the program leaves the 32-bit
  range on reads of realistic size), container sizes and indices are `Nat`.
* Read identifiers are `Int`; the reverse complement is negation, as in
  `extender.cpp` (`-curRead`).  The sentinel `ID_NONE`, declared in a header
  that is not part of the sources, is a parameter of the embedding.
* Floating point comparisons of `overlap.cpp` are parameters of the detector
  (`hitCountBelow`, `gapCost`, `matchAbove`, `lengthDiverges`): every theorem
  holds whatever these functions are.
* The iteration order of hash containers is a parameter as well
  (`iterTable`, `iterSet`, `ClusterOrder`), constrained to be a permutation
  of the content.
* `std::sort` is embedded as an insertion sort that keeps the input order
  among equivalent elements.
* `while (true)` loops take a fuel argument and answer `none` when it runs
  out; the theorems show that the fuel given is always enough.
* The overlap index of the container is a function to `Option`, so that
  `operator[]` (which creates the key) and `at` (which throws on a missing
  key, `none`) are told apart.  In the extender, whose maps are finite lists
  of entries, `at(k)` is embedded for maps in which `k` is present (a lookup
  of a missing key yields the empty list or length 0 instead of throwing),
  and the `assert` of `stepRight` is taken to hold.
-/

namespace Flye

/-! ## Data model -/

/-- Reverse complement of a read identifier: `Id::rc()` in `overlap.cpp`,
unary minus in `extender.cpp`. -/
def rc (x : Int) : Int := -x

/-- One directed overlap record (`OverlapRange`); the fields are those the
two source files read and write. -/
structure OverlapRange where
  curId : Int
  curBegin : Int
  curEnd : Int
  curLen : Int
  extId : Int
  extBegin : Int
  extEnd : Int
  extLen : Int
  leftShift : Int
  rightShift : Int
  score : Int
  kmerMatches : List (Int × Int)
deriving DecidableEq, Repr

namespace OverlapRange

/-- Modelled from the spec: `OverlapRange::curRange()` of the missing header
`overlap.h`, `curRange() = curEnd − curBegin`. -/
def curRange (o : OverlapRange) : Int := o.curEnd - o.curBegin

/-- Modelled from the spec: `OverlapRange::extRange()` of the missing header
`overlap.h`, analogous to `curRange`. -/
def extRange (o : OverlapRange) : Int := o.extEnd - o.extBegin

/-- Modelled from the spec: `OverlapRange::curIntersect` of the missing header
`overlap.h`, the length of the intersection of the two query intervals,
0 if they are disjoint. -/
def curIntersect (o other : OverlapRange) : Int :=
  max 0 (min o.curEnd other.curEnd - max o.curBegin other.curBegin)

/-- Modelled from the spec: `OverlapRange::extIntersect` of the missing header
`overlap.h`, the length of the intersection of the two target intervals,
0 if they are disjoint. -/
def extIntersect (o other : OverlapRange) : Int :=
  max 0 (min o.extEnd other.extEnd - max o.extBegin other.extBegin)

/-- Modelled from the spec: `OverlapRange::reverse()` of the missing header
`overlap.h`, which swaps cur and ext.  The fields that are neither cur nor
ext are carried over. -/
def reverse (o : OverlapRange) : OverlapRange :=
  { o with
    curId := o.extId, curBegin := o.extBegin, curEnd := o.extEnd, curLen := o.extLen,
    extId := o.curId, extBegin := o.curBegin, extEnd := o.curEnd, extLen := o.curLen }

/-- Modelled from the spec: `OverlapRange::complement()` of the missing header
`overlap.h`, which replaces each id by its rc and mirrors the positions about
the respective read lengths.  The other fields are carried over. -/
def complement (o : OverlapRange) : OverlapRange :=
  { o with
    curId := rc o.curId, curBegin := o.curLen - o.curEnd, curEnd := o.curLen - o.curBegin,
    extId := rc o.extId, extBegin := o.extLen - o.extEnd, extEnd := o.extLen - o.extBegin }

end OverlapRange

/-- The anonymous-namespace struct `KmerMatch` of `overlap.cpp`. -/
structure KmerMatch where
  curPos : Int
  extPos : Int
  extId : Int
deriving DecidableEq, Repr

/-- The query of `getSeqOverlaps`: a `FastaRecord` seen through what the
function reads of it: its id, `sequence.length()` and the k-mers
`IterKmers(sequence)` yields, each with its position. -/
structure FastaRecord where
  id : Int
  seqLength : Int
  kmers : List (Nat × Int)

/-- An `OverlapDetector`: its configuration, the process-wide `kmerSize`, the
collaborators it queries (solid k-mer index, read store, helpers of missing
headers) and the parameters standing for floating point and hash order. -/
structure OverlapDetector where
  minOverlap : Int
  maxJump : Int
  maxOverhang : Int
  checkOverhang : Bool
  maxCurOverlaps : Int
  keepAlignment : Bool
  kmerSize : Int
  /-- the sentinel `FastaRecord::ID_NONE` -/
  ID_NONE : Int
  /-- the method `VertexIndex::isSolid` -/
  isSolid : Nat → Bool
  /-- the method `VertexIndex::iterKmerPos`: the `(readId, position)` hits of a k-mer -/
  iterKmerPos : Nat → List (Int × Int)
  /-- the method `SequenceContainer::seqLen` -/
  seqLen : Int → Int
  /-- the method `Id::rawId` -/
  rawId : Int → Nat
  /-- the helper `median` of `utils.h` -/
  median : List Int → Int
  /-- the test `seqHitCount[..] < MIN_KMER_SURV_RATE * _minOverlap` as a function of the count -/
  hitCountBelow : Nat → Bool
  /-- the value `(int32_t)(0.01f * kmerSize * jumpDiv + log2(jumpDiv))` as a function of `jumpDiv` -/
  gapCost : Int → Int
  /-- the test `totalMatch > MIN_KMER_SURV_RATE * ovlp.curRange()` as a function of
  `totalMatch` and `curRange` -/
  matchAbove : Int → Int → Bool
  /-- the test `lengthDiff > meanLength * OVLP_DIVERGENCE` as a function of
  `lengthDiff` and `curRange + extRange` -/
  lengthDiverges : Int → Int → Bool
  /-- the order in which `seqMatches.lock_table()` yields the per-target buckets -/
  iterTable : List (Int × List KmerMatch) → List (Int × List KmerMatch)
  /-- the table yields every bucket once -/
  iterTable_perm : ∀ t, (iterTable t).Perm t

/-- The constant `MAX_SECONDARY_OVLPS` of `getSeqOverlaps`. -/
def MAX_SECONDARY_OVLPS : Nat := 5

/-- The constant `MAX_LOOK_BACK` of `getSeqOverlaps`. -/
def MAX_LOOK_BACK : Int := 50

/-- The constant `MAX_ENDS_DIFF` of `filterOverlaps`. -/
def MAX_ENDS_DIFF : Int := 100

/-! ## `std::sort` -/

/-- Insertion of `x` into a list sorted by `lt`, before the first element
that is not less than `x`. -/
def sortInsert {α : Type} (lt : α → α → Bool) (x : α) : List α → List α
  | [] => [x]
  | y :: ys => if lt y x then y :: sortInsert lt x ys else x :: y :: ys

/-- The call `std::sort(first, last, lt)`. -/
def stdSort {α : Type} (lt : α → α → Bool) : List α → List α
  | [] => []
  | x :: xs => sortInsert lt x (stdSort lt xs)

/-! ## `OverlapDetector::overlapTest` -/

/-- The method `OverlapDetector::overlapTest`; the result is the verdict
paired with the value of `outSuggestChimeric` after the call. -/
def overlapTest (d : OverlapDetector) (ovlp : OverlapRange)
    (outSuggestChimeric : Bool) : Bool × Bool :=
  if ovlp.curRange < d.minOverlap ∨ ovlp.extRange < d.minOverlap then
    (false, outSuggestChimeric)
  else if d.lengthDiverges |ovlp.curRange - ovlp.extRange|
      (ovlp.curRange + ovlp.extRange) then
    (false, outSuggestChimeric)
  else
    let flag := if ovlp.curId = rc ovlp.extId then true else outSuggestChimeric
    if d.checkOverhang then
      if min ovlp.curBegin ovlp.extBegin > d.maxOverhang then (false, flag)
      else if min (ovlp.curLen - ovlp.curEnd) (ovlp.extLen - ovlp.extEnd) >
          d.maxOverhang then (false, flag)
      else (true, flag)
    else (true, flag)

/-! ## `OverlapDetector::getSeqOverlaps` -/

/-- One saturating increment of `seqHitCount[raw]` (an `unsigned char`). -/
def bumpHitCount (seqHitCount : Nat → Nat) (raw : Nat) : Nat → Nat :=
  fun r => if r = raw then
    (if seqHitCount raw < 255 then seqHitCount raw + 1 else seqHitCount raw)
  else seqHitCount r

/-- The inner loop of seed collection (lines 114-137): the hits of one query
k-mer at position `curPos`. -/
def collectHits (d : OverlapDetector) (recId curPos : Int) :
    List (Int × Int) → Int → (Nat → Nat) → List KmerMatch →
    (Nat → Nat) × List KmerMatch
  | [], _, seqHitCount, vecMatches => (seqHitCount, vecMatches)
  | (readId, position) :: rest, prevSeqId, seqHitCount, vecMatches =>
    if readId = recId ∧ position = curPos then
      collectHits d recId curPos rest prevSeqId seqHitCount vecMatches
    else
      let seqHitCount1 :=
        if prevSeqId ≠ readId ∧ prevSeqId ≠ rc readId then
          bumpHitCount seqHitCount (d.rawId readId)
        else seqHitCount
      collectHits d recId curPos rest readId seqHitCount1
        (vecMatches ++ [⟨curPos, position, readId⟩])

/-- The outer loop of seed collection (lines 109-138). -/
def collectMatches (d : OverlapDetector) (recId : Int) :
    List (Nat × Int) → (Nat → Nat) → List KmerMatch →
    (Nat → Nat) × List KmerMatch
  | [], seqHitCount, vecMatches => (seqHitCount, vecMatches)
  | (kmer, position) :: rest, seqHitCount, vecMatches =>
    if !d.isSolid kmer then collectMatches d recId rest seqHitCount vecMatches
    else
      let r := collectHits d recId position (d.iterKmerPos kmer) d.ID_NONE
        seqHitCount vecMatches
      collectMatches d recId rest r.1 r.2

/-- The call `seqMatches.upsert(match.extId, push_back, match, ..)`. -/
def upsert (m : KmerMatch) :
    List (Int × List KmerMatch) → List (Int × List KmerMatch)
  | [] => [(m.extId, [m])]
  | (k, v) :: rest =>
    if k = m.extId then (k, v ++ [m]) :: rest else (k, v) :: upsert m rest

/-- The grouping loop (lines 144-157). -/
def groupMatches (d : OverlapDetector) (seqHitCount : Nat → Nat) :
    List KmerMatch → List (Int × List KmerMatch) → List (Int × List KmerMatch)
  | [], seqMatches => seqMatches
  | m :: rest, seqMatches =>
    if d.hitCountBelow (seqHitCount (d.rawId m.extId)) then
      groupMatches d seqHitCount rest seqMatches
    else groupMatches d seqHitCount rest (upsert m seqMatches)

/-- The element `v[i]` of a vector of matches. -/
def matchAt (matchesList : List KmerMatch) (i : Nat) : KmerMatch :=
  matchesList.getD i ⟨0, 0, 0⟩

/-- The pre-filter (lines 171-194): `true` when the target is skipped. -/
def preFilterRejects (d : OverlapDetector) (curLen extLen : Int)
    (matchesList : List KmerMatch) : Bool :=
  let minCur := (matchAt matchesList 0).curPos
  let maxCur := (matchAt matchesList (matchesList.length - 1)).curPos
  let minExt := matchesList.foldl (fun a m => min a m.extPos) 2147483647
  let maxExt := matchesList.foldl (fun a m => max a m.extPos) (-2147483648)
  if maxCur - minCur < d.minOverlap ∨ maxExt - minExt < d.minOverlap then true
  else if d.checkOverhang then
    if min minCur minExt > d.maxOverhang then true
    else if min (curLen - maxCur) (extLen - maxExt) > d.maxOverhang then true
    else false
  else false

/-- The value `nextScore` (lines 225-232) of the predecessor `j` for the
anchor `(curNext, extNext)`. -/
def candScore (d : OverlapDetector) (matchesList : List KmerMatch)
    (scoreTable : List Int) (curNext extNext : Int) (j : Nat) : Int :=
  let curPrev := (matchAt matchesList j).curPos
  let extPrev := (matchAt matchesList j).extPos
  let matchScore := min (min (curNext - curPrev) (extNext - extPrev)) d.kmerSize
  let jumpDiv := |(curNext - curPrev) - (extNext - extPrev)|
  let gapCost := if jumpDiv ≠ 0 then d.gapCost jumpDiv else 0
  scoreTable.getD j 0 + matchScore - gapCost

/-- The look-back loop (lines 217-245) for the anchor `(curNext, extNext)`.
The first argument is `j + 1`; the result is `(maxScore, maxId)`. -/
def lookBack (d : OverlapDetector) (matchesList : List KmerMatch)
    (scoreTable : List Int) (curNext extNext : Int) :
    Nat → Int → Int → Int → Int × Int
  | 0, maxScore, maxId, _ => (maxScore, maxId)
  | j + 1, maxScore, maxId, noImprovement =>
    let curPrev := (matchAt matchesList j).curPos
    let extPrev := (matchAt matchesList j).extPos
    if 0 < curNext - curPrev ∧ curNext - curPrev < d.maxJump ∧
        0 < extNext - extPrev ∧ extNext - extPrev < d.maxJump then
      let nextScore := candScore d matchesList scoreTable curNext extNext j
      if nextScore > maxScore then
        if curNext - curPrev > d.maxJump then (nextScore, (j : Int))
        else lookBack d matchesList scoreTable curNext extNext j nextScore j 0
      else if noImprovement + 1 > MAX_LOOK_BACK then (maxScore, maxId)
      else if curNext - curPrev > d.maxJump then (maxScore, maxId)
      else lookBack d matchesList scoreTable curNext extNext j maxScore maxId
        (noImprovement + 1)
    else if curNext - curPrev > d.maxJump then (maxScore, maxId)
    else lookBack d matchesList scoreTable curNext extNext j maxScore maxId
      noImprovement

/-- The state of the chaining loop between two iterations. -/
structure ChainTables where
  scoreTable : List Int
  backtrackTable : List Int
  skipCurPos : Int
  skipCurId : Nat

/-- One iteration of the chaining loop (lines 205-251) for index `i`. -/
def chainStep (d : OverlapDetector) (matchesList : List KmerMatch) (i : Nat)
    (t : ChainTables) : ChainTables :=
  let curNext := (matchAt matchesList i).curPos
  let extNext := (matchAt matchesList i).extPos
  let skipCurPos := if curNext ≠ t.skipCurPos then curNext else t.skipCurPos
  let skipCurId := if curNext ≠ t.skipCurPos then i - 1 else t.skipCurId
  let r := lookBack d matchesList t.scoreTable curNext extNext (skipCurId + 1) 0 0 0
  { scoreTable := t.scoreTable.set i (max r.1 d.kmerSize)
    backtrackTable := if r.1 > 0 then t.backtrackTable.set i r.2 else t.backtrackTable
    skipCurPos := skipCurPos
    skipCurId := skipCurId }

/-- The chaining loop (lines 203-252): `steps` iterations from index `i`. -/
def chainLoop (d : OverlapDetector) (matchesList : List KmerMatch) :
    Nat → Nat → ChainTables → ChainTables
  | 0, _, t => t
  | steps + 1, i, t => chainLoop d matchesList steps (i + 1) (chainStep d matchesList i t)

/-- The chaining DP (lines 199-252) of one target. -/
def chainTables (d : OverlapDetector) (matchesList : List KmerMatch) : ChainTables :=
  chainLoop d matchesList (matchesList.length - 1) 1
    { scoreTable := List.replicate matchesList.length 0
      backtrackTable := List.replicate matchesList.length (-1)
      skipCurPos := 0
      skipCurId := 0 }

/-- The locals of one backtracking walk (lines 259-302). -/
structure ChainWalk where
  firstMatch : KmerMatch
  shifts : List Int
  kmerMatches : List (Int × Int)
  chainLength : Nat
  totalMatch : Int
  backtrackTable : List Int

/-- The loop `while (pos != -1)` (lines 269-302); `none` when the fuel runs out. -/
def walkChain (d : OverlapDetector) (matchesList : List KmerMatch) :
    Nat → Int → ChainWalk → Option ChainWalk
  | 0, pos, w => if pos = -1 then some w else none
  | fuel + 1, pos, w =>
    if pos = -1 then some w
    else
      let m := matchAt matchesList pos.toNat
      let prevPos := w.backtrackTable.getD pos.toNat (-1)
      let totalMatch :=
        if prevPos ≠ -1 then
          w.totalMatch + min (min (m.curPos - (matchAt matchesList prevPos.toNat).curPos)
            (m.extPos - (matchAt matchesList prevPos.toNat).extPos)) d.kmerSize
        else w.totalMatch
      let kmerMatches :=
        if d.keepAlignment then
          match w.kmerMatches.getLast? with
          | none => w.kmerMatches ++ [(m.curPos, m.extPos)]
          | some back =>
            if back.1 - m.curPos > d.kmerSize then
              w.kmerMatches ++ [(m.curPos, m.extPos)]
            else w.kmerMatches
        else w.kmerMatches
      walkChain d matchesList fuel prevPos
        { firstMatch := m
          shifts := w.shifts ++ [m.curPos - m.extPos]
          kmerMatches := kmerMatches
          chainLength := w.chainLength + 1
          totalMatch := totalMatch
          backtrackTable := w.backtrackTable.set pos.toNat (-1) }

/-- The overlap built from a finished walk (lines 303-313). -/
def chainOverlap (d : OverlapDetector) (recId curLen extLen : Int)
    (matchesList : List KmerMatch) (scoreTable : List Int) (chainStart : Nat)
    (w : ChainWalk) : OverlapRange :=
  let lastMatch := matchAt matchesList chainStart
  { curId := recId
    curBegin := w.firstMatch.curPos
    curEnd := lastMatch.curPos + d.kmerSize - 1
    curLen := curLen
    extId := (matchAt matchesList 0).extId
    extBegin := w.firstMatch.extPos
    extEnd := lastMatch.extPos + d.kmerSize - 1
    extLen := extLen
    leftShift := d.median w.shifts
    rightShift := extLen - curLen + d.median w.shifts
    score := scoreTable.getD chainStart 0
    kmerMatches := w.kmerMatches.reverse }

/-- The backtracking loop (lines 256-323) from `chainStart` down to 1; the
result is `extOverlaps` and the flag `outSuggestChimeric`. -/
def backtrackLoop (d : OverlapDetector) (recId curLen extLen : Int)
    (matchesList : List KmerMatch) (scoreTable : List Int) :
    Nat → List Int → Bool → List OverlapRange → Option (List OverlapRange × Bool)
  | 0, _, flag, extOverlaps => some (extOverlaps, flag)
  | c + 1, backtrackTable, flag, extOverlaps =>
    match walkChain d matchesList (c + 2) ((c + 1 : Nat) : Int)
        { firstMatch := matchAt matchesList (c + 1)
          shifts := []
          kmerMatches := []
          chainLength := 0
          totalMatch := d.kmerSize
          backtrackTable := backtrackTable } with
    | none => none
    | some w =>
      let ovlp := chainOverlap d recId curLen extLen matchesList scoreTable (c + 1) w
      if d.matchAbove w.totalMatch ovlp.curRange then
        let r := overlapTest d ovlp flag
        if r.1 then
          backtrackLoop d recId curLen extLen matchesList scoreTable c
            w.backtrackTable r.2 (extOverlaps ++ [ovlp])
        else
          backtrackLoop d recId curLen extLen matchesList scoreTable c
            w.backtrackTable r.2 extOverlaps
      else
        backtrackLoop d recId curLen extLen matchesList scoreTable c
          w.backtrackTable flag extOverlaps

/-- The selection of the best chain (lines 328-336): the value of `maxOvlp`. -/
def maxScoreOverlap : List OverlapRange → Option OverlapRange → Option OverlapRange
  | [], maxOvlp => maxOvlp
  | ovlp :: rest, none => maxScoreOverlap rest (some ovlp)
  | ovlp :: rest, some m =>
    if ovlp.score > m.score then maxScoreOverlap rest (some ovlp)
    else maxScoreOverlap rest (some m)

/-- The loop over `primaryOverlaps` (lines 352-365) for one chain: whether the
chain is contained, and the index of `assignedPrimary`. -/
def scanPrimaries (d : OverlapDetector) (ovlp : OverlapRange) :
    List (OverlapRange × Nat) → Nat → Option Nat → Bool × Option Nat
  | [], _, assignedPrimary => (false, assignedPrimary)
  | prim :: rest, idx, assignedPrimary =>
    let intersect := ovlp.extIntersect prim.1
    if min ovlp.extRange ovlp.extRange - intersect < d.kmerSize then
      (true, assignedPrimary)
    else if intersect > Int.tdiv ovlp.extRange 2 then
      scanPrimaries d ovlp rest (idx + 1) (some idx)
    else scanPrimaries d ovlp rest (idx + 1) assignedPrimary

/-- The increment `++assignedPrimary->second`. -/
def bumpPrimary (primaryOverlaps : List (OverlapRange × Nat)) (idx : Nat) :
    List (OverlapRange × Nat) :=
  match primaryOverlaps.get? idx with
  | none => primaryOverlaps
  | some p => primaryOverlaps.set idx (p.1, p.2 + 1)

/-- The partition into primary and secondary overlaps (lines 348-376). -/
def partitionOverlaps (d : OverlapDetector) :
    List OverlapRange → List (OverlapRange × Nat) → List OverlapRange →
    List (OverlapRange × Nat) × List OverlapRange
  | [], primaryOverlaps, secondaryOverlaps => (primaryOverlaps, secondaryOverlaps)
  | ovlp :: rest, primaryOverlaps, secondaryOverlaps =>
    let r := scanPrimaries d ovlp primaryOverlaps 0 none
    if r.1 then partitionOverlaps d rest primaryOverlaps secondaryOverlaps
    else
      match r.2 with
      | none =>
        partitionOverlaps d rest (primaryOverlaps ++ [(ovlp, 0)]) secondaryOverlaps
      | some idx =>
        if ((primaryOverlaps.getD idx (ovlp, 0)).2) < MAX_SECONDARY_OVLPS then
          partitionOverlaps d rest (bumpPrimary primaryOverlaps idx)
            (secondaryOverlaps ++ [ovlp])
        else partitionOverlaps d rest primaryOverlaps secondaryOverlaps

/-- The per-target reduction (lines 326-385): what one target appends to
`detectedOverlaps`. -/
def selectOverlaps (d : OverlapDetector) (uniqueExtensions : Bool)
    (extOverlaps : List OverlapRange) : List OverlapRange :=
  if uniqueExtensions then
    match maxScoreOverlap extOverlaps none with
    | none => []
    | some m => [m]
  else
    let r := partitionOverlaps d
      (stdSort (fun r1 r2 => decide (r1.score > r2.score)) extOverlaps) [] []
    r.1.map Prod.fst ++ r.2

/-- The chaining and backtracking of one target that passed the pre-filter
(lines 199-323): `extOverlaps` and the flag. -/
def targetChains (d : OverlapDetector) (fastaRec : FastaRecord) (flag : Bool)
    (seqVec : Int × List KmerMatch) : Option (List OverlapRange × Bool) :=
  let matchesList := seqVec.2
  let t := chainTables d matchesList
  backtrackLoop d fastaRec.id fastaRec.seqLength (d.seqLen seqVec.1) matchesList
    t.scoreTable (matchesList.length - 1) t.backtrackTable flag []

/-- The loop over the targets (lines 165-389). -/
def targetLoop (d : OverlapDetector) (fastaRec : FastaRecord) (uniqueExtensions : Bool) :
    List (Int × List KmerMatch) → List OverlapRange → Bool →
    Option (List OverlapRange × Bool)
  | [], detectedOverlaps, flag => some (detectedOverlaps, flag)
  | seqVec :: rest, detectedOverlaps, flag =>
    if preFilterRejects d fastaRec.seqLength (d.seqLen seqVec.1) seqVec.2 then
      targetLoop d fastaRec uniqueExtensions rest detectedOverlaps flag
    else
      match targetChains d fastaRec flag seqVec with
      | none => none
      | some r =>
        let detected := detectedOverlaps ++ selectOverlaps d uniqueExtensions r.1
        if d.maxCurOverlaps > 0 ∧ (detected.length : Int) > d.maxCurOverlaps then
          some (detected, r.2)
        else targetLoop d fastaRec uniqueExtensions rest detected r.2

/-- The method `OverlapDetector::getSeqOverlaps`: the overlaps returned and
the value of `outSuggestChimeric`; `none` if a backtracking walk did not end. -/
def getSeqOverlaps (d : OverlapDetector) (fastaRec : FastaRecord)
    (uniqueExtensions : Bool) : Option (List OverlapRange × Bool) :=
  let r := collectMatches d fastaRec.id fastaRec.kmers (fun _ => 0) []
  let seqMatches := groupMatches d r.1 r.2 []
  targetLoop d fastaRec uniqueExtensions (d.iterTable seqMatches) [] false

/-! ## `OverlapContainer` -/

/-- The order in which the hash map `clusters` of `filterOverlaps` yields its
clusters: a permutation of the clusters listed by first member. -/
structure ClusterOrder where
  iter : List (List OverlapRange) → List (List OverlapRange)
  iter_perm : ∀ t, (iter t).Perm t

/-- One of the orders in which the hash map may yield its clusters: the
cluster inserted last comes first. -/
def reversedOrder : ClusterOrder :=
  { iter := fun t => t.reverse, iter_perm := fun t => List.reverse_perm t }

/-- An `OverlapContainer`: its collaborators, its configuration and its
state.  `detectorCalls` is a ghost counter of the calls of `getSeqOverlaps`
made through `lazySeqOverlaps`. -/
structure OverlapContainer where
  ovlpDetect : OverlapDetector
  /-- the method `_queryContainer.getRecord` -/
  getRecord : Int → FastaRecord
  /-- the ids of `_queryContainer.iterSeqs()` -/
  seqIds : List Int
  onlyMax : Bool
  cached : List Int
  overlapIndex : Int → Option (List OverlapRange)
  suggestedChimeras : List Int
  detectorCalls : Nat

/-- The vector `_overlapIndex[k]` (empty when the key is new). -/
def indexGet (m : Int → Option (List OverlapRange)) (k : Int) : List OverlapRange :=
  (m k).getD []

/-- The access `_overlapIndex[k]`, which creates the key. -/
def indexTouch (m : Int → Option (List OverlapRange)) (k : Int) :
    Int → Option (List OverlapRange) :=
  fun x => if x = k then some (indexGet m k) else m x

/-- The call `_overlapIndex[k].push_back(o)`. -/
def indexPush (m : Int → Option (List OverlapRange)) (k : Int) (o : OverlapRange) :
    Int → Option (List OverlapRange) :=
  fun x => if x = k then some (indexGet m k ++ [o]) else m x

/-- The method `OverlapContainer::seqOverlaps`.  `getSeqOverlaps` always
returns (see `targetLoop_spec`), so the default is never taken. -/
def seqOverlaps (c : OverlapContainer) (seqId : Int) : List OverlapRange × Bool :=
  (getSeqOverlaps c.ovlpDetect (c.getRecord seqId) c.onlyMax).getD ([], false)

/-- The loop of `storeOverlaps` (lines 464-473). -/
def storeLoop (onlyMax : Bool) (extisting : List Int) (seqId : Int) :
    List OverlapRange → (Int → Option (List OverlapRange)) →
    Int → Option (List OverlapRange)
  | [], m => m
  | ovlp :: rest, m =>
    if onlyMax = true ∧ ovlp.extId ∈ extisting then
      storeLoop onlyMax extisting seqId rest m
    else
      let revOvlp := ovlp.reverse
      let m1 := indexPush m seqId ovlp
      let m2 := indexPush m1 (rc seqId) ovlp.complement
      let m3 := indexPush m2 revOvlp.curId revOvlp
      let m4 := indexPush m3 (rc revOvlp.curId) revOvlp.complement
      storeLoop onlyMax extisting seqId rest m4

/-- The method `OverlapContainer::storeOverlaps`. -/
def storeOverlaps (c : OverlapContainer) (overlaps : List OverlapRange) (seqId : Int) :
    OverlapContainer :=
  let m0 := indexTouch (indexTouch c.overlapIndex seqId) (rc seqId)
  let extisting :=
    if c.onlyMax then (indexGet m0 seqId).map (fun o => o.extId) else []
  { c with
    cached := rc seqId :: seqId :: c.cached
    overlapIndex := storeLoop c.onlyMax extisting seqId overlaps m0 }

/-- The method `OverlapContainer::lazySeqOverlaps` run by one thread: the
list returned (`none` when `_overlapIndex.at` throws) and the container
after the call. -/
def lazySeqOverlaps (c : OverlapContainer) (readId : Int) :
    Option (List OverlapRange) × OverlapContainer :=
  let c1 :=
    if readId ∈ c.cached then c
    else
      let r := seqOverlaps c readId
      let c2 := storeOverlaps { c with detectorCalls := c.detectorCalls + 1 } r.1 readId
      if r.2 then
        { c2 with suggestedChimeras := rc readId :: readId :: c2.suggestedChimeras }
      else c2
  (c1.overlapIndex readId, c1)

/-- Successive calls `lazySeqOverlaps(readId)`, `n` of them, with nothing in
between: the lists returned and the container after the last call. -/
def lazyCalls (readId : Int) :
    Nat → OverlapContainer → List (Option (List OverlapRange)) × OverlapContainer
  | 0, c => ([], c)
  | n + 1, c =>
    let r := lazySeqOverlaps c readId
    let rest := lazyCalls readId n r.2
    (r.1 :: rest.1, rest.2)

/-- The test of `filterOverlaps` (lines 548-552) that unites the sets of
`ovlpOne` and `ovlpTwo`. -/
def endsClose (ovlpOne ovlpTwo : OverlapRange) : Bool :=
  if ovlpOne.extId ≠ ovlpTwo.extId then false
  else
    let curDiff := ovlpOne.curRange - ovlpOne.curIntersect ovlpTwo
    let extDiff := ovlpOne.extRange - ovlpOne.extIntersect ovlpTwo
    decide (curDiff < MAX_ENDS_DIFF ∧ extDiff < MAX_ENDS_DIFF)

/-- Modelled from the spec: `findSet` of the missing header `disjoint_set.h`
(union-find).  The disjoint sets over the nodes `0 .. n-1` are kept as the
list of the representative of each node. -/
def findSet (sets : List Nat) (i : Nat) : Nat := sets.getD i i

/-- Modelled from the spec: `unionSet` of the missing header `disjoint_set.h`
(union-find): the set of node `i` is merged into the set of node `j`. -/
def unionSet (sets : List Nat) (i j : Nat) : List Nat :=
  sets.map (fun r => if r = findSet sets i then findSet sets j else r)

/-- The element `overlaps[i]`. -/
def overlapAt (overlaps : List OverlapRange) (i : Nat) : OverlapRange :=
  overlaps.getD i ⟨0, 0, 0, 0, 0, 0, 0, 0, 0, 0, 0, []⟩

/-- The double loop of `filterOverlaps` (lines 541-557): the disjoint sets
at its end. -/
def overlapSets (overlaps : List OverlapRange) : List Nat :=
  (List.range overlaps.length).foldl (fun sets i =>
    (List.range overlaps.length).foldl (fun sets j =>
      if endsClose (overlapAt overlaps i) (overlapAt overlaps j) then unionSet sets i j
      else sets) sets) (List.range overlaps.length)

/-- The call `clusters[root].push_back(ovlp)`. -/
def clusterPush (root : Nat) (ovlp : OverlapRange) :
    List (Nat × List OverlapRange) → List (Nat × List OverlapRange)
  | [] => [(root, [ovlp])]
  | (k, v) :: rest =>
    if k = root then (k, v ++ [ovlp]) :: rest else (k, v) :: clusterPush root ovlp rest

/-- The loop that fills `clusters` (lines 560-563): node `i` holds
`overlaps[i]`. -/
def fillClusters (sets : List Nat) (overlaps : List OverlapRange) :
    List (Nat × List OverlapRange) :=
  (List.range overlaps.length).foldl (fun clusters i =>
    clusterPush (findSet sets i) (overlapAt overlaps i) clusters) []

/-- The clusters of a list of overlaps, listed by first member. -/
def clustersOf (overlaps : List OverlapRange) : List (List OverlapRange) :=
  (fillClusters (overlapSets overlaps) overlaps).map Prod.snd

/-- The body of the lambda `filterParallel` (lines 534-581): the new value
of `_overlapIndex[seqId]`. -/
def filterList (order : ClusterOrder) (overlaps : List OverlapRange) : List OverlapRange :=
  stdSort (fun o1 o2 => decide (o1.curBegin < o2.curBegin))
    ((order.iter (clustersOf overlaps)).filterMap (fun cluster => maxScoreOverlap cluster none))

/-- The method `OverlapContainer::filterOverlaps`, the reads processed one
after the other. -/
def filterOverlaps (order : ClusterOrder) (c : OverlapContainer) : OverlapContainer :=
  { c with
    overlapIndex := c.seqIds.foldl (fun m seqId =>
      fun x => if x = seqId then some (filterList order (indexGet m seqId)) else m x)
      c.overlapIndex }

/-! ## `Extender` -/

/-- A contig path. -/
structure ContigPath where
  reads : List Int
  circular : Bool
deriving DecidableEq, Repr

/-- An `Extender`: the read store (`_seqContainer.getIndex()`: each read id
with its `sequence.length()`, in iteration order), the overlap index
(`_ovlpDetector.getOverlapIndex()`), the chimera detector, the sentinel
`ID_NONE` and the iteration order of the hash set `extensions`. -/
structure Extender where
  seqIndex : List (Int × Int)
  overlapIndex : List (Int × List OverlapRange)
  isChimeric : Int → Bool
  ID_NONE : Int
  iterSet : List Int → List Int
  iterSet_perm : ∀ l, (iterSet l).Perm l

/-- The value `_seqContainer.getIndex().at(id).sequence.length()`. -/
def Extender.seqLength (e : Extender) (id : Int) : Int :=
  (e.seqIndex.lookup id).getD 0

/-- The vector `_ovlpDetector.getOverlapIndex().at(id)`. -/
def Extender.overlapsOf (e : Extender) (id : Int) : List OverlapRange :=
  (e.overlapIndex.lookup id).getD []

/-- The method `Extender::isProperRightExtension`. -/
def isProperRightExtension (e : Extender) (ovlp : OverlapRange) : Bool :=
  decide (e.seqLength ovlp.extId - ovlp.extEnd > e.seqLength ovlp.curId - ovlp.curEnd)

/-- The method `Extender::isProperLeftExtension`. -/
def isProperLeftExtension (ovlp : OverlapRange) : Bool :=
  decide (ovlp.extBegin > ovlp.curBegin)

/-- The call `set.insert(x)` on a hash set kept as the list of its elements. -/
def setInsert (x : Int) (s : List Int) : List Int :=
  if x ∈ s then s else s ++ [x]

/-- The set `extensions` of `stepRight` (lines 163-169). -/
def extensionSet (e : Extender) (readId : Int) : List Int :=
  (e.overlapsOf readId).foldl (fun s ovlp =>
    if isProperRightExtension e ovlp then setInsert ovlp.extId s else s) []

/-- The value `leftSupport` of a candidate (lines 175-183). -/
def leftSupport (e : Extender) (extensions : List Int) (extCandidate : Int) : Int :=
  (((e.overlapsOf extCandidate).filter (fun ovlp =>
    decide (ovlp.extId ∈ extensions) && isProperLeftExtension ovlp)).length : Int)

/-- The value `rightSupport` of a candidate (lines 175-183). -/
def rightSupport (e : Extender) (extensions : List Int) (extCandidate : Int) : Int :=
  (((e.overlapsOf extCandidate).filter (fun ovlp =>
    decide (ovlp.extId ∈ extensions) && isProperRightExtension e ovlp)).length : Int)

/-- The entry `supportIndex[extCandidate]` (line 184). -/
def supportIndex (e : Extender) (extensions : List Int) (extCandidate : Int) : Int :=
  min (leftSupport e extensions extCandidate) (rightSupport e extensions extCandidate)

/-- The selection loop of `stepRight` (lines 194-207) and its `return`. -/
def selectExtension (visitedReads : List Int) (startReadId : Int) (support : Int → Int) :
    List Int → Int → Int → Int
  | [], _, bestExtension => bestExtension
  | extCandidate :: rest, maxSupport, bestExtension =>
    if extCandidate = startReadId then startReadId
    else if extCandidate ∈ visitedReads then
      selectExtension visitedReads startReadId support rest maxSupport bestExtension
    else if support extCandidate > maxSupport then
      selectExtension visitedReads startReadId support rest (support extCandidate)
        extCandidate
    else selectExtension visitedReads startReadId support rest maxSupport bestExtension

/-- The method `Extender::stepRight`.  The debug output after the selection
loop has no effect and is left out. -/
def stepRight (e : Extender) (visitedReads : List Int) (readId startReadId : Int) : Int :=
  let extensions := extensionSet e readId
  selectExtension visitedReads startReadId (supportIndex e extensions)
    (e.iterSet extensions) (-1) e.ID_NONE

/-- The method `Extender::countRightExtensions`. -/
def countRightExtensions (e : Extender) (readId : Int) : Int :=
  (((e.overlapsOf readId).filter (isProperRightExtension e)).length : Int)

/-- The loop `while (true)` of `extendRead` (lines 24-72): the path and
`_visitedReads` at its end; `none` when the fuel runs out. -/
def extendLoop (e : Extender) (startRead : Int) :
    Nat → Int → List Int → List Int → Option (ContigPath × List Int)
  | 0, _, _, _ => none
  | fuel + 1, curRead, reads, visitedReads =>
    let extRead := stepRight e visitedReads curRead startRead
    if extRead = startRead then some (⟨reads, true⟩, visitedReads)
    else if extRead ∈ visitedReads then some (⟨reads, false⟩, visitedReads)
    else if extRead = e.ID_NONE then some (⟨reads, false⟩, visitedReads)
    else extendLoop e startRead fuel extRead (reads ++ [extRead])
      (-extRead :: extRead :: visitedReads)

/-- The method `Extender::extendRead`, `_visitedReads` passed in and out. -/
def extendRead (e : Extender) (fuel : Nat) (visitedReads : List Int) (startRead : Int) :
    Option (ContigPath × List Int) :=
  extendLoop e startRead fuel startRead [startRead]
    (-startRead :: startRead :: visitedReads)

/-- The choice of the start read (lines 85-97): the value of `startRead`
after the loop over the read store. -/
def chooseStart (e : Extender) (visitedReads : List Int) :
    List Int → Int → Int → Int
  | [], _, startRead => startRead
  | readId :: rest, maxExtension, startRead =>
    if readId ∈ visitedReads ∨ e.isChimeric readId = true then
      chooseStart e visitedReads rest maxExtension startRead
    else if countRightExtensions e readId > maxExtension then
      chooseStart e visitedReads rest (countRightExtensions e readId) readId
    else chooseStart e visitedReads rest maxExtension startRead

/-- The inner loop of the absorption (lines 109-116) for one read of the path. -/
def absorbOverlaps : List OverlapRange → List Int → List Int
  | [], visitedReads => visitedReads
  | ovlp :: rest, visitedReads =>
    absorbOverlaps rest (-ovlp.extId :: ovlp.extId :: visitedReads)

/-- The absorption loop (lines 107-117) over the reads of the new path. -/
def absorbReads (e : Extender) : List Int → List Int → List Int
  | [], visitedReads => visitedReads
  | readId :: rest, visitedReads =>
    absorbReads e rest (absorbOverlaps (e.overlapsOf readId) visitedReads)

/-- One round of the loop of `assembleContigs`, as a record: `_visitedReads`
when the start read is chosen, the start read, the path that `extendRead`
returns, and `_visitedReads` after the absorption loop. -/
structure Round where
  visitedAtStart : List Int
  startRead : Int
  path : ContigPath
  visitedAtEnd : List Int

/-- The loop `while (true)` of `assembleContigs` (lines 82-118): the rounds
made; `none` when the fuel runs out.  `fuel` is the fuel of each `extendRead`. -/
def assembleLoop (e : Extender) (fuel : Nat) :
    Nat → List Int → List Round → Option (List Round)
  | 0, _, _ => none
  | n + 1, visitedReads, rounds =>
    let startRead := chooseStart e visitedReads (e.seqIndex.map Prod.fst) 0 e.ID_NONE
    if startRead = e.ID_NONE then some rounds
    else
      match extendRead e fuel visitedReads startRead with
      | none => none
      | some r =>
        let visitedReads2 := absorbReads e r.1.reads r.2
        assembleLoop e fuel n visitedReads2
          (rounds ++ [⟨visitedReads, startRead, r.1, visitedReads2⟩])

/-- The method `Extender::assembleContigs` on an extender without paths:
the rounds it makes. -/
def assembleContigs (e : Extender) (fuel : Nat) : Option (List Round) :=
  assembleLoop e fuel fuel [] []

/-- The member `_contigPaths` after `assembleContigs`. -/
def contigPaths (rounds : List Round) : List ContigPath :=
  rounds.map (fun r => r.path)

/-- The ids that occur as `extId` in the overlap index. -/
def Extender.extIds (e : Extender) : List Int :=
  e.overlapIndex.flatMap (fun kv => kv.2.map (fun o => o.extId))

/-- Fuel that is enough for `assembleContigs`: more than the reads of the
store and more than the ids the overlap index mentions. -/
def Extender.enoughFuel (e : Extender) : Nat :=
  e.seqIndex.length + e.extIds.length + 1

/-- A sequence of calls `storeOverlaps(overlaps, seqId)`, first to last. -/
def storeAll (c : OverlapContainer) (calls : List (List OverlapRange × Int)) :
    OverlapContainer :=
  calls.foldl (fun c1 call => storeOverlaps c1 call.1 call.2) c

/-- Strand symmetry of an overlap index: every `o` of `overlapIndex[x]` has
`o.complement()` in `overlapIndex[rc(x)]` and `o.reverse()` in
`overlapIndex[o.extId]`. -/
def StrandSymmetric (m : Int → Option (List OverlapRange)) : Prop :=
  ∀ (x : Int) (o : OverlapRange), o ∈ indexGet m x →
    o.complement ∈ indexGet m (rc x) ∧ o.reverse ∈ indexGet m o.extId

/-! ## Predicates of the statements -/

/-- The integer bounds `overlapTest` checks. -/
def AcceptanceBounds (d : OverlapDetector) (o : OverlapRange) : Prop :=
  d.minOverlap ≤ o.curRange ∧ d.minOverlap ≤ o.extRange ∧
  (d.checkOverhang = true →
    min o.curBegin o.extBegin ≤ d.maxOverhang ∧
    min (o.curLen - o.curEnd) (o.extLen - o.extEnd) ≤ d.maxOverhang)

/-- Every entry of a backtrack table is `-1` or an index below its own. -/
def BackOK (bt : List Int) : Prop :=
  ∀ p : Nat, bt.getD p (-1) = -1 ∨ (0 ≤ bt.getD p (-1) ∧ bt.getD p (-1) < p)

/-- The number of ids of `ids` that are not in `visitedReads`. -/
def unvisitedCount (ids visitedReads : List Int) : Nat :=
  (ids.toFinset.filter (fun x => x ∉ visitedReads)).card

/-- A set of read ids that holds the reverse complement of each member. -/
def StrandClosed (visitedReads : List Int) : Prop :=
  ∀ x ∈ visitedReads, rc x ∈ visitedReads

/-- What the loop of `extendRead` does from `curRead` with `visited`: the
reads `added` to the path, the set `visited2` at the end and the flag. -/
structure ExtendResult (e : Extender) (start curRead : Int) (visited added visited2 : List Int)
    (circular : Bool) : Prop where
  mem_visited : ∀ x, x ∈ visited2 ↔ x ∈ visited ∨ x ∈ added ∨ rc x ∈ added
  fresh : ∀ x ∈ added, x ∉ visited ∧ x ≠ start ∧ x ≠ e.ID_NONE
  distinct : added.Pairwise (fun a b => a ≠ b ∧ a ≠ rc b)
  steps : List.Chain (fun a b => b ∈ extensionSet e a) curRead added
  closes_of : start ∈ extensionSet e (added.getLastD curRead) → circular = true
  of_closes : start ≠ e.ID_NONE → circular = true →
    start ∈ extensionSet e (added.getLastD curRead)

/-- What holds of one round of `assembleContigs`. -/
structure RoundOK (e : Extender) (r : Round) : Prop where
  start_unvisited : r.startRead ∉ r.visitedAtStart
  start_not_chimeric : e.isChimeric r.startRead = false
  start_in_store : r.startRead ∈ e.seqIndex.map Prod.fst
  start_extends : 0 < countRightExtensions e r.startRead
  start_ne_none : r.startRead ≠ e.ID_NONE
  extended : ∃ added visited2,
    r.path.reads = r.startRead :: added ∧
    ExtendResult e r.startRead r.startRead (-r.startRead :: r.startRead :: r.visitedAtStart)
      added visited2 r.path.circular ∧
    r.visitedAtEnd = absorbReads e r.path.reads visited2
  grows : ∀ x ∈ r.visitedAtStart, x ∈ r.visitedAtEnd
  reads_visited : ∀ x ∈ r.path.reads, x ∈ r.visitedAtEnd
  closed_start : StrandClosed r.visitedAtStart
  closed_end : StrandClosed r.visitedAtEnd

/-- The rounds follow one another: the first starts from `visited0`, each
next one from the set the previous one ended with, and the last ends with
`visited`. -/
def Linked : List Int → List Round → List Int → Prop
  | visited0, [], visited => visited0 = visited
  | visited0, r :: rest, visited =>
    r.visitedAtStart = visited0 ∧ Linked r.visitedAtEnd rest visited

/-- The invariant of the loop of `assembleContigs`. -/
structure TraceOK (e : Extender) (rounds : List Round) (visited : List Int) : Prop where
  rounds_ok : ∀ r ∈ rounds, RoundOK e r
  linked : Linked [] rounds visited
  closed : StrandClosed visited
  below : ∀ r ∈ rounds, ∀ x ∈ r.visitedAtEnd, x ∈ visited
  starts : rounds.Pairwise (fun r1 r2 =>
    ∀ x ∈ r1.visitedAtEnd, r2.startRead ≠ x ∧ r2.startRead ≠ rc x)
  cover : (rounds.flatMap (fun r => r.path.reads)).Pairwise (fun a b => a ≠ b ∧ a ≠ rc b)

/-- The relation of the spec that puts two overlaps of a read into one
cluster: same `extId` and, for one of the two, `curRange − curIntersect < 100`
and `extRange − extIntersect < 100`. -/
def NearlyCoincide (p q : OverlapRange) : Prop :=
  p.extId = q.extId ∧
  ((p.curRange - p.curIntersect q < 100 ∧ p.extRange - p.extIntersect q < 100) ∨
   (q.curRange - q.curIntersect p < 100 ∧ q.extRange - q.extIntersect p < 100))

/-- The clusters of the spec: two overlaps of the list are in the same cluster
when a chain of nearly coinciding overlaps of the list joins them (the
connected components of `NearlyCoincide`). -/
def SameCluster (overlaps : List OverlapRange) : OverlapRange → OverlapRange → Prop :=
  Relation.EqvGen (fun p q => p ∈ overlaps ∧ q ∈ overlaps ∧ NearlyCoincide p q)

/-- A list of overlaps no two of which the test of `filterOverlaps` unites. -/
def Independent (l : List OverlapRange) : Prop :=
  l.Pairwise (fun a b => endsClose a b = false ∧ endsClose b a = false)

/-! ## Examples -/

/-- A detector over an empty k-mer index, for the examples. -/
def exampleDetector : OverlapDetector :=
  { minOverlap := 200, maxJump := 1500, maxOverhang := 500, checkOverhang := true,
    maxCurOverlaps := 0, keepAlignment := false, kmerSize := 15, ID_NONE := 0,
    isSolid := fun _ => false, iterKmerPos := fun _ => [], seqLen := fun _ => 1000,
    rawId := fun x => x.natAbs, median := fun l => l.getD (l.length / 2) 0,
    hitCountBelow := fun n => decide (n < 2), gapCost := fun j => j,
    matchAbove := fun t r => decide (r < 100 * t),
    lengthDiverges := fun a b => decide (b < 8 * a),
    iterTable := fun t => t, iterTable_perm := fun t => List.Perm.refl t }

/-- A container with nothing cached and an empty overlap index. -/
def emptyContainer : OverlapContainer :=
  { ovlpDetect := exampleDetector
    getRecord := fun x => { id := x, seqLength := 1000, kmers := [] }
    seqIds := [1, -1, 2, -2]
    onlyMax := false
    cached := []
    overlapIndex := fun _ => none
    suggestedChimeras := []
    detectorCalls := 0 }

/-- An overlap of the last 500 positions of read 1 with the first 500 of read 2. -/
def overlap12 : OverlapRange :=
  { curId := 1, curBegin := 500, curEnd := 1000, curLen := 1000,
    extId := 2, extBegin := 0, extEnd := 500, extLen := 1000,
    leftShift := 500, rightShift := 500, score := 400, kmerMatches := [] }

/-- Reads 1 and 2 of length 1000 with `overlap12`, posted for both reads and
both strands; read 2 is flagged chimeric. -/
def exampleExtender : Extender :=
  { seqIndex := [(1, 1000), (-1, 1000), (2, 1000), (-2, 1000)]
    overlapIndex :=
      [(1, [overlap12]), (-1, [overlap12.complement]),
       (2, [overlap12.reverse]), (-2, [overlap12.reverse.complement])]
    isChimeric := fun x => decide (x = 2 ∨ x = -2)
    ID_NONE := 0
    iterSet := fun l => l
    iterSet_perm := fun l => List.Perm.refl l }

/-! ## The chains of one target -/

/-- The chains to one target that pass the acceptance test: `extOverlaps`
after the backtracking loop (the flag does not bear on it). -/
def acceptedChains (d : OverlapDetector) (fastaRec : FastaRecord)
    (seqVec : Int × List KmerMatch) : List OverlapRange :=
  match targetChains d fastaRec false seqVec with
  | some r => r.1
  | none => []

/-- The table `seqMatches` of `getSeqOverlaps` (lines 142-157), the buckets
listed by first insertion. -/
def seqMatchesOf (d : OverlapDetector) (fastaRec : FastaRecord) :
    List (Int × List KmerMatch) :=
  groupMatches d (collectMatches d fastaRec.id fastaRec.kmers (fun _ => 0) []).1
    (collectMatches d fastaRec.id fastaRec.kmers (fun _ => 0) []).2 []

/-! ## More examples -/

/-- An overlap of the first 100 positions of read 1 with the first 100 of its
own reverse complement. -/
def shortSelfOverlap : OverlapRange :=
  { curId := 1, curBegin := 0, curEnd := 100, curLen := 1000,
    extId := -1, extBegin := 0, extEnd := 100, extLen := 1000,
    leftShift := 0, rightShift := 0, score := 50, kmerMatches := [] }

/-- A second, shorter overlap of read 1 with read 2. -/
def overlap12b : OverlapRange :=
  { curId := 1, curBegin := 600, curEnd := 1000, curLen := 1000,
    extId := 2, extBegin := 100, extEnd := 500, extLen := 1000,
    leftShift := 500, rightShift := 500, score := 300, kmerMatches := [] }

/-- Reads 1 and 2 with two overlaps between them, `overlap12` and
`overlap12b`, posted for both reads and both strands. -/
def twoChainsExtender : Extender :=
  { seqIndex := [(1, 1000), (-1, 1000), (2, 1000), (-2, 1000)]
    overlapIndex :=
      [(1, [overlap12, overlap12b]),
       (-1, [overlap12.complement, overlap12b.complement]),
       (2, [overlap12.reverse, overlap12b.reverse]),
       (-2, [overlap12.reverse.complement, overlap12b.reverse.complement])]
    isChimeric := fun _ => false
    ID_NONE := 0
    iterSet := fun l => l
    iterSet_perm := fun l => List.Perm.refl l }

/-- An overlap of the last 500 positions of read 1 with the first 500 of its
own reverse complement. -/
def selfOverlap : OverlapRange :=
  { curId := 1, curBegin := 500, curEnd := 1000, curLen := 1000,
    extId := -1, extBegin := 0, extEnd := 500, extLen := 1000,
    leftShift := 500, rightShift := 500, score := 400, kmerMatches := [] }

/-- Read 1 of length 1000 with `selfOverlap`, posted the four ways of
`storeOverlaps`. -/
def selfOverlapExtender : Extender :=
  { seqIndex := [(1, 1000), (-1, 1000)]
    overlapIndex :=
      [(1, [selfOverlap, selfOverlap.reverse.complement]),
       (-1, [selfOverlap.complement, selfOverlap.reverse])]
    isChimeric := fun _ => false
    ID_NONE := 0
    iterSet := fun l => l
    iterSet_perm := fun l => List.Perm.refl l }

/-- Read 1 of length 1000 without any overlap. -/
def loneReadExtender : Extender :=
  { seqIndex := [(1, 1000), (-1, 1000)]
    overlapIndex := [(1, []), (-1, [])]
    isChimeric := fun _ => false
    ID_NONE := 0
    iterSet := fun l => l
    iterSet_perm := fun l => List.Perm.refl l }

/-! ## One chain of the per-target reduction -/

/-- The body of the partition loop (lines 350-375) for one chain: the
primary and the secondary overlaps after it. -/
def partitionStep (d : OverlapDetector) (ovlp : OverlapRange)
    (primaryOverlaps : List (OverlapRange × Nat)) (secondaryOverlaps : List OverlapRange) :
    List (OverlapRange × Nat) × List OverlapRange :=
  if (scanPrimaries d ovlp primaryOverlaps 0 none).1 then
    (primaryOverlaps, secondaryOverlaps)
  else
    match (scanPrimaries d ovlp primaryOverlaps 0 none).2 with
    | none => (primaryOverlaps ++ [(ovlp, 0)], secondaryOverlaps)
    | some idx =>
      if ((primaryOverlaps.getD idx (ovlp, 0)).2) < MAX_SECONDARY_OVLPS then
        (bumpPrimary primaryOverlaps idx, secondaryOverlaps ++ [ovlp])
      else (primaryOverlaps, secondaryOverlaps)

/-- The comparison of the sort by decreasing score (lines 342-344). -/
def scoreGreater (r1 r2 : OverlapRange) : Bool := decide (r1.score > r2.score)

/-! ## The buckets of the match table -/

/-- A table of match buckets as the grouping builds it: no key twice, no
empty bucket, and every match of a bucket has the key as its `extId`. -/
def BucketsOK (tbl : List (Int × List KmerMatch)) : Prop :=
  (tbl.map Prod.fst).Nodup ∧
  ∀ kv ∈ tbl, kv.2 ≠ [] ∧ ∀ m ∈ kv.2, m.extId = kv.1

/-! ## The anchors of the backtracking walks -/

/-- The values that `pos` takes in the loop `while (pos != -1)` (lines 269-302)
and the backtrack table the loop leaves: every visited index is recorded, its
entry is read as the next `pos` and then set to `-1`; `none` when the fuel runs
out. -/
def walkIndices : Nat → Int → List Int → Option (List Nat × List Int)
  | 0, pos, backtrackTable => if pos = -1 then some ([], backtrackTable) else none
  | fuel + 1, pos, backtrackTable =>
    if pos = -1 then some ([], backtrackTable)
    else
      match walkIndices fuel (backtrackTable.getD pos.toNat (-1))
          (backtrackTable.set pos.toNat (-1)) with
      | none => none
      | some r => some (pos.toNat :: r.1, r.2)

/-- The anchor indices of the chains that the backtracking loop (lines 256-323)
walks, in the order of the walks: `chainStart` runs from the first argument
down to 1, and every walk starts on the table the walk before it left. -/
def constructedChains : Nat → List Int → Option (List (List Nat))
  | 0, _ => some []
  | c + 1, backtrackTable =>
    match walkIndices (c + 2) ((c + 1 : Nat) : Int) backtrackTable with
    | none => none
    | some r =>
      match constructedChains c r.2 with
      | none => none
      | some chains => some (r.1 :: chains)

/-- Four anchors of target 2 on one diagonal, 200 positions apart. -/
def fourAnchors : List KmerMatch :=
  [⟨0, 0, 2⟩, ⟨200, 200, 2⟩, ⟨400, 400, 2⟩, ⟨600, 600, 2⟩]

/-! ## The predecessors that the look-back examines -/

/-- The indices `j` for which the look-back loop (lines 217-245) computes
`nextScore`, in the order of the loop; the arguments are those of `lookBack`
without `maxId`. -/
def lookBackExamined (d : OverlapDetector) (matchesList : List KmerMatch)
    (scoreTable : List Int) (curNext extNext : Int) :
    Nat → Int → Int → List Nat
  | 0, _, _ => []
  | j + 1, maxScore, noImprovement =>
    let curPrev := (matchAt matchesList j).curPos
    let extPrev := (matchAt matchesList j).extPos
    if 0 < curNext - curPrev ∧ curNext - curPrev < d.maxJump ∧
        0 < extNext - extPrev ∧ extNext - extPrev < d.maxJump then
      let nextScore := candScore d matchesList scoreTable curNext extNext j
      if nextScore > maxScore then
        if curNext - curPrev > d.maxJump then [j]
        else j :: lookBackExamined d matchesList scoreTable curNext extNext j nextScore 0
      else if noImprovement + 1 > MAX_LOOK_BACK then [j]
      else if curNext - curPrev > d.maxJump then [j]
      else j :: lookBackExamined d matchesList scoreTable curNext extNext j maxScore
        (noImprovement + 1)
    else if curNext - curPrev > d.maxJump then []
    else lookBackExamined d matchesList scoreTable curNext extNext j maxScore noImprovement

/-- The tables and the skip variables at the start of iteration `i` of the
chaining loop (lines 199-252). -/
def tablesBefore (d : OverlapDetector) (matchesList : List KmerMatch) (i : Nat) :
    ChainTables :=
  chainLoop d matchesList (i - 1) 1
    { scoreTable := List.replicate matchesList.length 0
      backtrackTable := List.replicate matchesList.length (-1)
      skipCurPos := 0
      skipCurId := 0 }

/-- The predecessors examined in iteration `i` of the chaining loop. -/
def examinedAt (d : OverlapDetector) (matchesList : List KmerMatch) (i : Nat) : List Nat :=
  lookBackExamined d matchesList (tablesBefore d matchesList i).scoreTable
    (matchAt matchesList i).curPos (matchAt matchesList i).extPos
    ((chainStep d matchesList i (tablesBefore d matchesList i)).skipCurId + 1) 0 0

/-- Two anchors of target 2 that cannot be chained: the second lies before the
first on the target. -/
def crossedAnchors : List KmerMatch :=
  [⟨0, 600, 2⟩, ⟨300, 100, 2⟩]

/-- A chain of read 1 over the first 1000 positions of target 2, of score 900. -/
def primaryChain : OverlapRange :=
  { curId := 1, curBegin := 0, curEnd := 1000, curLen := 2000,
    extId := 2, extBegin := 0, extEnd := 1000, extLen := 2000,
    leftShift := 0, rightShift := 0, score := 900, kmerMatches := [] }

/-- A chain to target 2 inside the ext interval of `primaryChain`. -/
def containedChain : OverlapRange :=
  { curId := 1, curBegin := 100, curEnd := 600, curLen := 2000,
    extId := 2, extBegin := 100, extEnd := 600, extLen := 2000,
    leftShift := 0, rightShift := 0, score := 100, kmerMatches := [] }

/-- A chain to target 2 over the ext interval `[400 + i, 1400 + i)`, of score
`800 - i`. -/
def shiftedChain (i : Int) : OverlapRange :=
  { curId := 1, curBegin := 400 + i, curEnd := 1400 + i, curLen := 2000,
    extId := 2, extBegin := 400 + i, extEnd := 1400 + i, extLen := 2000,
    leftShift := 0, rightShift := 0, score := 800 - i, kmerMatches := [] }

/-- Seven chains that each share more than half of their ext interval with
`primaryChain`, not in the order of their scores. -/
def sevenChains : List OverlapRange :=
  [shiftedChain 4, shiftedChain 1, shiftedChain 7, shiftedChain 2, shiftedChain 6,
    shiftedChain 3, shiftedChain 5]

/-! ## Colinear chains -/

/-- The test of lines 221-222 for the anchor `i` and its predecessor `j`: both
jumps are positive and below `maxJump`. -/
def jumpOK (d : OverlapDetector) (matchesList : List KmerMatch) (i j : Nat) : Prop :=
  0 < (matchAt matchesList i).curPos - (matchAt matchesList j).curPos ∧
  (matchAt matchesList i).curPos - (matchAt matchesList j).curPos < d.maxJump ∧
  0 < (matchAt matchesList i).extPos - (matchAt matchesList j).extPos ∧
  (matchAt matchesList i).extPos - (matchAt matchesList j).extPos < d.maxJump

/-- Every entry of a backtrack table is `-1` or an index below its own that
passes the jump test. -/
def Colinear (d : OverlapDetector) (matchesList : List KmerMatch) (bt : List Int) : Prop :=
  ∀ p : Nat, bt.getD p (-1) = -1 ∨
    (0 ≤ bt.getD p (-1) ∧ bt.getD p (-1) < p ∧
      jumpOK d matchesList p (bt.getD p (-1)).toNat)

/-- The overlaps `ovlp` that the backtracking loop (lines 256-323) builds, one
for each `chainStart` from the first argument down to 1, before the test that
decides whether `ovlp` is pushed to `extOverlaps`. -/
def constructedOverlaps (d : OverlapDetector) (recId curLen extLen : Int)
    (matchesList : List KmerMatch) (scoreTable : List Int) :
    Nat → List Int → Option (List OverlapRange)
  | 0, _ => some []
  | c + 1, backtrackTable =>
    match walkChain d matchesList (c + 2) ((c + 1 : Nat) : Int)
        { firstMatch := matchAt matchesList (c + 1)
          shifts := []
          kmerMatches := []
          chainLength := 0
          totalMatch := d.kmerSize
          backtrackTable := backtrackTable } with
    | none => none
    | some w =>
      match constructedOverlaps d recId curLen extLen matchesList scoreTable c
          w.backtrackTable with
      | none => none
      | some ovlps =>
        some (chainOverlap d recId curLen extLen matchesList scoreTable (c + 1) w :: ovlps)

/-! ## The chaining loop without the two prunings -/

/-- The reference look-back of the refinement statement: the loop of lines
217-245 without the break on the `curPos` gap; it keeps the budget
`MAX_LOOK_BACK` of candidates without improvement.  The first argument is
`j + 1`; the result is `(maxScore, maxId)`. -/
def lookBackFull (d : OverlapDetector) (matchesList : List KmerMatch)
    (scoreTable : List Int) (curNext extNext : Int) :
    Nat → Int → Int → Int → Int × Int
  | 0, maxScore, maxId, _ => (maxScore, maxId)
  | j + 1, maxScore, maxId, noImprovement =>
    let curPrev := (matchAt matchesList j).curPos
    let extPrev := (matchAt matchesList j).extPos
    if 0 < curNext - curPrev ∧ curNext - curPrev < d.maxJump ∧
        0 < extNext - extPrev ∧ extNext - extPrev < d.maxJump then
      let nextScore := candScore d matchesList scoreTable curNext extNext j
      if nextScore > maxScore then
        lookBackFull d matchesList scoreTable curNext extNext j nextScore j 0
      else if noImprovement + 1 > MAX_LOOK_BACK then (maxScore, maxId)
      else lookBackFull d matchesList scoreTable curNext extNext j maxScore maxId
        (noImprovement + 1)
    else lookBackFull d matchesList scoreTable curNext extNext j maxScore maxId
      noImprovement

/-- One iteration of the reference chaining loop for index `i`, on the pair
`(scoreTable, backtrackTable)`: the look-back scans every `j` from `i - 1`
down to 0. -/
def chainStepFull (d : OverlapDetector) (matchesList : List KmerMatch) (i : Nat)
    (t : List Int × List Int) : List Int × List Int :=
  let curNext := (matchAt matchesList i).curPos
  let extNext := (matchAt matchesList i).extPos
  let r := lookBackFull d matchesList t.1 curNext extNext i 0 0 0
  (t.1.set i (max r.1 d.kmerSize), if r.1 > 0 then t.2.set i r.2 else t.2)

/-- The reference chaining loop: `steps` iterations from index `i`. -/
def chainLoopFull (d : OverlapDetector) (matchesList : List KmerMatch) :
    Nat → Nat → List Int × List Int → List Int × List Int
  | 0, _, t => t
  | steps + 1, i, t =>
    chainLoopFull d matchesList steps (i + 1) (chainStepFull d matchesList i t)

/-- The tables `(scoreTable, backtrackTable)` of the reference chaining loop
for one target. -/
def chainTablesFull (d : OverlapDetector) (matchesList : List KmerMatch) :
    List Int × List Int :=
  chainLoopFull d matchesList (matchesList.length - 1) 1
    (List.replicate matchesList.length 0, List.replicate matchesList.length (-1))

/-- The state of the skip variables at the start of iteration `i`: the anchors
between `skipCurId` and `i` all have the `curPos` kept in `skipCurPos`. -/
def SkipOK (matchesList : List KmerMatch) (t : ChainTables) (i : Nat) : Prop :=
  t.skipCurId < i ∧
  ∀ j, t.skipCurId < j → j < i → (matchAt matchesList j).curPos = t.skipCurPos

/-- Anchors that share their `curPos` in runs and lie more than `maxJump`
apart on the read, for the examples. -/
def gappedAnchors : List KmerMatch :=
  [⟨0, 0, 2⟩, ⟨0, 40, 2⟩, ⟨100, 100, 2⟩, ⟨100, 140, 2⟩, ⟨100, 150, 2⟩,
    ⟨2000, 200, 2⟩, ⟨2000, 2100, 2⟩]

/-- An overlap of read 1 with read 2 that begins at position 100 of read 1. -/
def tiedOverlapA : OverlapRange :=
  { curId := 1, curBegin := 100, curEnd := 600, curLen := 1000,
    extId := 2, extBegin := 0, extEnd := 500, extLen := 1000,
    leftShift := 100, rightShift := 100, score := 300, kmerMatches := [] }

/-- An overlap of read 1 with read 3 that begins at position 100 of read 1 as
well. -/
def tiedOverlapB : OverlapRange :=
  { curId := 1, curBegin := 100, curEnd := 700, curLen := 1000,
    extId := 3, extBegin := 0, extEnd := 600, extLen := 1000,
    leftShift := 100, rightShift := 100, score := 400, kmerMatches := [] }

/-- A container whose overlap index holds the two overlaps of read 1 that
begin at the same position. -/
def tiedContainer : OverlapContainer :=
  { emptyContainer with
    seqIds := [1]
    overlapIndex := fun x => if x = 1 then some [tiedOverlapA, tiedOverlapB] else none }

/-! ## Theorems -/

/-! ### Acceptance bounds of the detector -/

theorem overlapTest_bounds (d : OverlapDetector) (o : OverlapRange) (flag : Bool)
    (h : (overlapTest d o flag).1 = true) : AcceptanceBounds d o := by
  unfold overlapTest at h
  unfold AcceptanceBounds
  by_cases h1 : o.curRange < d.minOverlap ∨ o.extRange < d.minOverlap
  · simp [h1] at h
  · rw [if_neg h1] at h
    push_neg at h1
    refine ⟨h1.1, h1.2, fun hc => ?_⟩
    by_cases h2 : d.lengthDiverges |o.curRange - o.extRange| (o.curRange + o.extRange) = true
    · simp [h2] at h
    · rw [if_neg h2] at h
      simp only [hc, if_true] at h
      by_cases h3 : min o.curBegin o.extBegin > d.maxOverhang
      · simp [h3] at h
      · rw [if_neg h3] at h
        by_cases h4 : min (o.curLen - o.curEnd) (o.extLen - o.extEnd) > d.maxOverhang
        · simp [h4] at h
        · exact ⟨not_lt.mp h3, not_lt.mp h4⟩

/-! ### Backtrack pointers point downwards -/

theorem getD_set_eq (l : List Int) (i p : Nat) (v : Int) :
    (l.set i v).getD p (-1) = if i = p ∧ p < l.length then v else l.getD p (-1) := by
  simp only [List.getD_eq_getElem?_getD, List.getElem?_set]
  by_cases hip : i = p
  · subst hip
    by_cases hl : i < l.length
    · simp [hl]
    · simp [hl, List.getElem?_eq_none (not_lt.mp hl)]
  · simp [hip]

theorem BackOK_replicate (n : Nat) : BackOK (List.replicate n (-1)) := by
  intro p
  left
  simp only [List.getD_eq_getElem?_getD, List.getElem?_replicate]
  split_ifs <;> rfl

theorem BackOK_set (bt : List Int) (i : Nat) (v : Int) (h : BackOK bt)
    (hv : v = -1 ∨ (0 ≤ v ∧ v < i)) : BackOK (bt.set i v) := by
  intro p
  rw [getD_set_eq]
  by_cases hc : i = p ∧ p < bt.length
  · rw [if_pos hc]
    rcases hc with ⟨rfl, _⟩
    exact hv
  · rw [if_neg hc]
    exact h p

theorem lookBack_spec (d : OverlapDetector) (ms : List KmerMatch) (st : List Int)
    (curNext extNext : Int) :
    ∀ (k : Nat) (maxScore maxId noImp : Int),
      ((lookBack d ms st curNext extNext k maxScore maxId noImp).1 = maxScore ∧
        (lookBack d ms st curNext extNext k maxScore maxId noImp).2 = maxId) ∨
      (maxScore < (lookBack d ms st curNext extNext k maxScore maxId noImp).1 ∧
        0 ≤ (lookBack d ms st curNext extNext k maxScore maxId noImp).2 ∧
        (lookBack d ms st curNext extNext k maxScore maxId noImp).2 < k) := by
  intro k
  induction k with
  | zero => intro a b c; left; simp [lookBack]
  | succ j ih =>
    intro maxScore maxId noImp
    unfold lookBack
    simp only []
    generalize candScore d ms st curNext extNext j = ns
    split_ifs with h1 h2 h3 h4 h5 h6
    · right; simp; omega
    · right
      rcases ih ns j 0 with h | h
      · rw [h.1, h.2]; refine ⟨h2, ?_, ?_⟩ <;> push_cast <;> omega
      · refine ⟨lt_trans h2 h.1, h.2.1, ?_⟩
        have := h.2.2
        push_cast
        omega
    · left; simp
    · left; simp
    · rcases ih maxScore maxId (noImp + 1) with h | h
      · left; exact h
      · right; refine ⟨h.1, h.2.1, ?_⟩
        have := h.2.2
        push_cast
        omega
    · left; simp
    · rcases ih maxScore maxId noImp with h | h
      · left; exact h
      · right; refine ⟨h.1, h.2.1, ?_⟩
        have := h.2.2
        push_cast
        omega

theorem chainStep_BackOK (d : OverlapDetector) (ms : List KmerMatch) (i : Nat)
    (t : ChainTables) (hi : 1 ≤ i) (hs : t.skipCurId < i) (h : BackOK t.backtrackTable) :
    BackOK (chainStep d ms i t).backtrackTable ∧ (chainStep d ms i t).skipCurId < i + 1 := by
  unfold chainStep
  simp only []
  constructor
  · split_ifs with h1 h2
    · apply BackOK_set _ _ _ h
      rcases lookBack_spec d ms t.scoreTable (matchAt ms i).curPos (matchAt ms i).extPos
        (i - 1 + 1) 0 0 0 with hl | hl
      · omega
      · right
        refine ⟨hl.2.1, ?_⟩
        have := hl.2.2
        push_cast at this
        omega
    · exact h
    · apply BackOK_set _ _ _ h
      rcases lookBack_spec d ms t.scoreTable (matchAt ms i).curPos (matchAt ms i).extPos
        (t.skipCurId + 1) 0 0 0 with hl | hl
      · omega
      · right
        refine ⟨hl.2.1, ?_⟩
        have := hl.2.2
        push_cast at this
        omega
    · exact h
  · split_ifs <;> omega

theorem chainLoop_BackOK (d : OverlapDetector) (ms : List KmerMatch) :
    ∀ (steps i : Nat) (t : ChainTables), 1 ≤ i → t.skipCurId < i →
      BackOK t.backtrackTable → BackOK (chainLoop d ms steps i t).backtrackTable := by
  intro steps
  induction steps with
  | zero => intro i t _ _ h; exact h
  | succ n ih =>
    intro i t hi hs h
    unfold chainLoop
    have hstep := chainStep_BackOK d ms i t hi hs h
    exact ih (i + 1) _ (by omega) hstep.2 hstep.1

theorem chainTables_BackOK (d : OverlapDetector) (ms : List KmerMatch) :
    BackOK (chainTables d ms).backtrackTable := by
  unfold chainTables
  exact chainLoop_BackOK d ms _ 1 _ (le_refl 1) (by simp) (BackOK_replicate _)

theorem walkChain_some (d : OverlapDetector) (ms : List KmerMatch) :
    ∀ (fuel : Nat) (pos : Int) (w : ChainWalk), BackOK w.backtrackTable →
      (pos = -1 ∨ (0 ≤ pos ∧ pos < fuel)) →
      ∃ w1, walkChain d ms fuel pos w = some w1 ∧ BackOK w1.backtrackTable := by
  intro fuel
  induction fuel with
  | zero =>
    intro pos w h hp
    rcases hp with hp | hp
    · exact ⟨w, by simp [walkChain, hp], h⟩
    · exfalso; have := hp.2; simp at this; omega
  | succ n ih =>
    intro pos w h hp
    unfold walkChain
    by_cases hneg : pos = -1
    · exact ⟨w, by simp [hneg], h⟩
    · rw [if_neg hneg]
      simp only []
      have hpos : 0 ≤ pos ∧ pos < (n + 1 : Nat) := by
        rcases hp with hp | hp
        · exact absurd hp hneg
        · exact hp
      apply ih
      · exact BackOK_set _ _ _ h (Or.inl rfl)
      · rcases h pos.toNat with hb | hb
        · left; exact hb
        · right
          refine ⟨hb.1, ?_⟩
          have h1 := hb.2
          have h2 := hpos.2
          have h3 : (pos.toNat : Int) = pos := Int.toNat_of_nonneg hpos.1
          push_cast at h2
          omega

theorem backtrackLoop_spec (d : OverlapDetector) (recId curLen extLen : Int)
    (ms : List KmerMatch) (st : List Int) (P : OverlapRange → Prop)
    (hP : ∀ o flag, (overlapTest d o flag).1 = true → P o) :
    ∀ (c : Nat) (bt : List Int) (flag : Bool) (acc : List OverlapRange),
      BackOK bt → (∀ o ∈ acc, P o) →
      ∃ res, backtrackLoop d recId curLen extLen ms st c bt flag acc = some res ∧
        ∀ o ∈ res.1, P o := by
  intro c
  induction c with
  | zero => intro bt flag acc _ hacc; exact ⟨(acc, flag), rfl, hacc⟩
  | succ n ih =>
    intro bt flag acc hbt hacc
    unfold backtrackLoop
    obtain ⟨w1, hw, hbt1⟩ := walkChain_some d ms (n + 2) ((n + 1 : Nat) : Int)
      { firstMatch := matchAt ms (n + 1), shifts := [], kmerMatches := [],
        chainLength := 0, totalMatch := d.kmerSize, backtrackTable := bt } hbt
      (Or.inr ⟨by positivity, by push_cast; omega⟩)
    rw [hw]
    simp only []
    split_ifs with h1 h2
    · apply ih _ _ _ hbt1
      intro o ho
      rcases List.mem_append.mp ho with ho | ho
      · exact hacc o ho
      · rw [List.mem_singleton] at ho
        rw [ho]
        exact hP _ _ h2
    · exact ih _ _ _ hbt1 hacc
    · exact ih _ _ _ hbt1 hacc

/-! ### The per-target reduction only selects -/

theorem sortInsert_perm {α : Type} (lt : α → α → Bool) (x : α) :
    ∀ l : List α, (sortInsert lt x l).Perm (x :: l) := by
  intro l
  induction l with
  | nil => exact List.Perm.refl _
  | cons y ys ih =>
    unfold sortInsert
    split_ifs
    · exact ((List.Perm.cons y ih).trans (List.Perm.swap x y ys))
    · exact List.Perm.refl _

theorem stdSort_perm {α : Type} (lt : α → α → Bool) :
    ∀ l : List α, (stdSort lt l).Perm l := by
  intro l
  induction l with
  | nil => exact List.Perm.refl _
  | cons x xs ih =>
    unfold stdSort
    exact (sortInsert_perm lt x _).trans (List.Perm.cons x ih)

theorem maxScoreOverlap_mem :
    ∀ (l : List OverlapRange) (init : Option OverlapRange) (m : OverlapRange),
      maxScoreOverlap l init = some m → m ∈ l ∨ init = some m := by
  intro l
  induction l with
  | nil => intro init m h; right; simpa [maxScoreOverlap] using h
  | cons x xs ih =>
    intro init m h
    cases init with
    | none =>
      unfold maxScoreOverlap at h
      rcases ih _ _ h with h1 | h1
      · left; exact List.mem_cons_of_mem _ h1
      · left; simp only [Option.some.injEq] at h1; rw [h1]; exact List.mem_cons_self _ _
    | some b =>
      unfold maxScoreOverlap at h
      split_ifs at h
      · rcases ih _ _ h with h1 | h1
        · left; exact List.mem_cons_of_mem _ h1
        · left; simp only [Option.some.injEq] at h1; rw [h1]; exact List.mem_cons_self _ _
      · rcases ih _ _ h with h1 | h1
        · left; exact List.mem_cons_of_mem _ h1
        · right; exact h1

theorem bumpPrimary_mem (prim : List (OverlapRange × Nat)) (idx : Nat)
    (p : OverlapRange × Nat) (h : p ∈ bumpPrimary prim idx) :
    ∃ q ∈ prim, q.1 = p.1 := by
  unfold bumpPrimary at h
  cases hg : prim.get? idx with
  | none => rw [hg] at h; exact ⟨p, h, rfl⟩
  | some q =>
    rw [hg] at h
    simp only [] at h
    rcases List.mem_or_eq_of_mem_set h with h1 | h1
    · exact ⟨p, h1, rfl⟩
    · refine ⟨q, List.get?_mem hg, ?_⟩
      rw [h1]

theorem partitionOverlaps_mem (d : OverlapDetector) (P : OverlapRange → Prop) :
    ∀ (l : List OverlapRange) (prim : List (OverlapRange × Nat)) (sec : List OverlapRange),
      (∀ o ∈ l, P o) → (∀ p ∈ prim, P p.1) → (∀ o ∈ sec, P o) →
      (∀ p ∈ (partitionOverlaps d l prim sec).1, P p.1) ∧
      (∀ o ∈ (partitionOverlaps d l prim sec).2, P o) := by
  intro l
  induction l with
  | nil => intro prim sec _ hp hs; exact ⟨hp, hs⟩
  | cons x xs ih =>
    intro prim sec hl hp hs
    have hx : P x := hl x (List.mem_cons_self _ _)
    have hxs : ∀ o ∈ xs, P o := fun o ho => hl o (List.mem_cons_of_mem _ ho)
    unfold partitionOverlaps
    simp only []
    split_ifs with h1
    · exact ih prim sec hxs hp hs
    · cases hr : (scanPrimaries d x prim 0 none).2 with
      | none =>
        simp only []
        apply ih _ _ hxs _ hs
        intro p hpm
        rcases List.mem_append.mp hpm with h2 | h2
        · exact hp p h2
        · rw [List.mem_singleton] at h2; rw [h2]; exact hx
      | some idx =>
        simp only []
        split_ifs with h3
        · apply ih _ _ hxs
          · intro p hpm
            obtain ⟨q, hq, hqp⟩ := bumpPrimary_mem prim idx p hpm
            rw [← hqp]; exact hp q hq
          · intro o ho
            rcases List.mem_append.mp ho with h2 | h2
            · exact hs o h2
            · rw [List.mem_singleton] at h2; rw [h2]; exact hx
        · exact ih prim sec hxs hp hs

theorem selectOverlaps_subset (d : OverlapDetector) (u : Bool) (l : List OverlapRange)
    (o : OverlapRange) (h : o ∈ selectOverlaps d u l) : o ∈ l := by
  unfold selectOverlaps at h
  split_ifs at h with hu
  · cases hm : maxScoreOverlap l none with
    | none => rw [hm] at h; simp at h
    | some m =>
      rw [hm] at h
      simp only [List.mem_singleton] at h
      rcases maxScoreOverlap_mem l none m hm with h1 | h1
      · rw [h]; exact h1
      · simp at h1
  · simp only [] at h
    have hall := partitionOverlaps_mem d (fun x => x ∈ l)
      (stdSort (fun r1 r2 => decide (r1.score > r2.score)) l) [] []
      (fun x hx => (stdSort_perm _ l).mem_iff.mp hx) (by simp) (by simp)
    rcases List.mem_append.mp h with h1 | h1
    · obtain ⟨p, hp, hpo⟩ := List.mem_map.mp h1
      rw [← hpo]; exact hall.1 p hp
    · exact hall.2 o h1

theorem targetLoop_spec (d : OverlapDetector) (fastaRec : FastaRecord) (u : Bool) :
    ∀ (tbl : List (Int × List KmerMatch)) (acc : List OverlapRange) (flag : Bool),
      (∀ o ∈ acc, AcceptanceBounds d o) →
      ∃ res, targetLoop d fastaRec u tbl acc flag = some res ∧
        ∀ o ∈ res.1, AcceptanceBounds d o := by
  intro tbl
  induction tbl with
  | nil => intro acc flag h; exact ⟨(acc, flag), rfl, h⟩
  | cons x xs ih =>
    intro acc flag h
    unfold targetLoop
    split_ifs with h1
    · exact ih acc flag h
    · obtain ⟨r, hr, hrP⟩ := backtrackLoop_spec d fastaRec.id fastaRec.seqLength
        (d.seqLen x.1) x.2 (chainTables d x.2).scoreTable (AcceptanceBounds d)
        (overlapTest_bounds d) (x.2.length - 1) (chainTables d x.2).backtrackTable flag []
        (chainTables_BackOK d x.2) (by simp)
      have hr2 : targetChains d fastaRec flag x = some r := hr
      rw [hr2]
      simp only []
      have hnew : ∀ o ∈ acc ++ selectOverlaps d u r.1, AcceptanceBounds d o := by
        intro o ho
        rcases List.mem_append.mp ho with h2 | h2
        · exact h o h2
        · exact hrP o (selectOverlaps_subset d u r.1 o h2)
      split_ifs with h3
      · exact ⟨_, rfl, hnew⟩
      · exact ih _ _ hnew

/-- Claim C1.  `getSeqOverlaps` returns, with `uniqueExtensions` on or off,
and every overlap `o` of the returned list meets the integer bounds of
`overlapTest`: `curRange ≥ minOverlap`, `extRange ≥ minOverlap` and, when
`checkOverhang` is on, `min(curBegin, extBegin) ≤ maxOverhang` and
`min(curLen − curEnd, extLen − extEnd) ≤ maxOverhang`. -/
theorem getSeqOverlaps_acceptance_bounds (d : OverlapDetector) (fastaRec : FastaRecord)
    (uniqueExtensions : Bool) :
    ∃ res, getSeqOverlaps d fastaRec uniqueExtensions = some res ∧
      ∀ o ∈ res.1,
        d.minOverlap ≤ o.curRange ∧ d.minOverlap ≤ o.extRange ∧
        (d.checkOverhang = true →
          min o.curBegin o.extBegin ≤ d.maxOverhang ∧
          min (o.curLen - o.curEnd) (o.extLen - o.extEnd) ≤ d.maxOverhang) := by
  unfold getSeqOverlaps
  exact targetLoop_spec d fastaRec uniqueExtensions _ [] false (by simp)

/-! ### Strand symmetry of `storeOverlaps` -/

theorem reverse_reverse (o : OverlapRange) : o.reverse.reverse = o := by
  cases o; rfl

theorem complement_complement (o : OverlapRange) : o.complement.complement = o := by
  cases o
  simp [OverlapRange.complement, rc]

theorem reverse_complement_comm (o : OverlapRange) :
    o.reverse.complement = o.complement.reverse := by
  cases o; rfl

theorem rc_rc (x : Int) : rc (rc x) = x := by
  simp [rc]

theorem indexGet_indexTouch (m : Int → Option (List OverlapRange)) (k x : Int) :
    indexGet (indexTouch m k) x = indexGet m x := by
  unfold indexTouch
  by_cases h : x = k
  · subst h; simp [indexGet]
  · simp [indexGet, h]

theorem mem_indexPush (m : Int → Option (List OverlapRange)) (k x : Int)
    (o p : OverlapRange) :
    p ∈ indexGet (indexPush m k o) x ↔ p ∈ indexGet m x ∨ (x = k ∧ p = o) := by
  unfold indexPush
  by_cases h : x = k
  · subst h
    simp [indexGet]
  · simp [indexGet, h]

theorem StrandSymmetric_push4 (m : Int → Option (List OverlapRange)) (seqId : Int)
    (o : OverlapRange) (ho : o.curId = seqId) (h : StrandSymmetric m) :
    StrandSymmetric (indexPush (indexPush (indexPush (indexPush m seqId o)
      (rc seqId) o.complement) o.reverse.curId o.reverse)
      (rc o.reverse.curId) o.reverse.complement) := by
  intro x p hp
  have hrc : o.reverse.curId = o.extId := rfl
  simp only [mem_indexPush, hrc] at hp ⊢
  rcases hp with (((hp | hp) | hp) | hp) | hp
  · have := h x p hp
    exact ⟨Or.inl (Or.inl (Or.inl (Or.inl this.1))), Or.inl (Or.inl (Or.inl (Or.inl this.2)))⟩
  · obtain ⟨rfl, rfl⟩ := hp
    constructor
    · exact Or.inl (Or.inl (Or.inr ⟨rfl, rfl⟩))
    · exact Or.inl (Or.inr ⟨rfl, rfl⟩)
  · obtain ⟨rfl, rfl⟩ := hp
    constructor
    · refine Or.inl (Or.inl (Or.inl (Or.inr ⟨rc_rc _, complement_complement _⟩)))
    · refine Or.inr ⟨rfl, (reverse_complement_comm o).symm⟩
  · obtain ⟨rfl, rfl⟩ := hp
    constructor
    · exact Or.inr ⟨rfl, rfl⟩
    · refine Or.inl (Or.inl (Or.inl (Or.inr ⟨ho, reverse_reverse _⟩)))
  · obtain ⟨rfl, rfl⟩ := hp
    constructor
    · refine Or.inl (Or.inr ⟨rc_rc _, complement_complement _⟩)
    · refine Or.inl (Or.inl (Or.inr ⟨?_, ?_⟩))
      · show rc o.curId = rc seqId
        rw [ho]
      · rw [reverse_complement_comm, reverse_reverse]

theorem storeLoop_symmetric (onlyMax : Bool) (extisting : List Int) (seqId : Int) :
    ∀ (overlaps : List OverlapRange) (m : Int → Option (List OverlapRange)),
      (∀ o ∈ overlaps, o.curId = seqId) → StrandSymmetric m →
      StrandSymmetric (storeLoop onlyMax extisting seqId overlaps m) := by
  intro overlaps
  induction overlaps with
  | nil => intro m _ h; exact h
  | cons o rest ih =>
    intro m hcur h
    have hrest : ∀ p ∈ rest, p.curId = seqId := fun p hp => hcur p (List.mem_cons_of_mem _ hp)
    unfold storeLoop
    split_ifs with hskip
    · exact ih m hrest h
    · exact ih _ hrest (StrandSymmetric_push4 m seqId o (hcur o (List.mem_cons_self _ _)) h)

theorem storeOverlaps_symmetric (c : OverlapContainer) (overlaps : List OverlapRange)
    (seqId : Int) (hcur : ∀ o ∈ overlaps, o.curId = seqId)
    (h : StrandSymmetric c.overlapIndex) :
    StrandSymmetric (storeOverlaps c overlaps seqId).overlapIndex := by
  unfold storeOverlaps
  apply storeLoop_symmetric _ _ _ _ _ hcur
  intro x o ho
  simp only [indexGet_indexTouch] at ho ⊢
  exact h x o ho

theorem storeAll_symmetric (calls : List (List OverlapRange × Int)) :
    ∀ c : OverlapContainer, (∀ call ∈ calls, ∀ o ∈ call.1, o.curId = call.2) →
      StrandSymmetric c.overlapIndex → StrandSymmetric (storeAll c calls).overlapIndex := by
  induction calls with
  | nil => intro c _ h; exact h
  | cons call rest ih =>
    intro c hcalls h
    unfold storeAll
    rw [List.foldl_cons]
    exact ih _ (fun k hk => hcalls k (List.mem_cons_of_mem _ hk))
      (storeOverlaps_symmetric c call.1 call.2 (hcalls call (List.mem_cons_self _ _)) h)

theorem StrandSymmetric_empty (m : Int → Option (List OverlapRange))
    (h : ∀ x, m x = none) : StrandSymmetric m := by
  intro x o ho
  simp [indexGet, h] at ho

/-- Claim C2.  `storeOverlaps` preserves strand symmetry of the overlap index,
with `onlyMax` on or off: if every `o` of `overlapIndex[x]` has
`o.complement()` in `overlapIndex[rc(x)]` and `o.reverse()` in
`overlapIndex[o.extId]` before the call, the same holds after
`storeOverlaps(overlaps, seqId)` for every list whose elements have
`curId = seqId`; hence it holds for every index built from the empty index by
such calls.  `reverse` and `complement` are commuting involutions. -/
theorem storeOverlaps_strand_symmetry (c : OverlapContainer) :
    (∀ (overlaps : List OverlapRange) (seqId : Int),
      (∀ o ∈ overlaps, o.curId = seqId) → StrandSymmetric c.overlapIndex →
      StrandSymmetric (storeOverlaps c overlaps seqId).overlapIndex) ∧
    (∀ calls : List (List OverlapRange × Int),
      (∀ call ∈ calls, ∀ o ∈ call.1, o.curId = call.2) → (∀ x, c.overlapIndex x = none) →
      StrandSymmetric (storeAll c calls).overlapIndex) ∧
    (∀ o : OverlapRange, o.reverse.reverse = o ∧ o.complement.complement = o ∧
      o.reverse.complement = o.complement.reverse) :=
  ⟨fun overlaps seqId hcur h => storeOverlaps_symmetric c overlaps seqId hcur h,
   fun calls hcalls hempty =>
    storeAll_symmetric calls c hcalls (StrandSymmetric_empty _ hempty),
   fun o => ⟨reverse_reverse o, complement_complement o, reverse_complement_comm o⟩⟩

/-- Witness of C2: the empty container is strand symmetric, and storing
`overlap12` for read 1 keeps it so. -/
theorem storeOverlaps_strand_symmetry_witness :
    (∀ o ∈ [overlap12], o.curId = 1) ∧ StrandSymmetric emptyContainer.overlapIndex ∧
    StrandSymmetric (storeOverlaps emptyContainer [overlap12] 1).overlapIndex :=
  ⟨by decide, StrandSymmetric_empty _ (fun _ => rfl),
   (storeOverlaps_strand_symmetry emptyContainer).1 [overlap12] 1 (by decide)
    (StrandSymmetric_empty _ (fun _ => rfl))⟩

/-! ### The return contract of `stepRight` -/

theorem mem_setInsert (x y : Int) (s : List Int) :
    y ∈ setInsert x s ↔ y ∈ s ∨ y = x := by
  unfold setInsert
  split_ifs with h
  · constructor
    · intro hy; exact Or.inl hy
    · rintro (hy | hy)
      · exact hy
      · rw [hy]; exact h
  · simp

theorem mem_extension_fold (e : Extender) (x : Int) :
    ∀ (l : List OverlapRange) (s : List Int),
      x ∈ l.foldl (fun s ovlp =>
        if isProperRightExtension e ovlp then setInsert ovlp.extId s else s) s ↔
      x ∈ s ∨ ∃ o ∈ l, isProperRightExtension e o = true ∧ o.extId = x := by
  intro l
  induction l with
  | nil => intro s; simp
  | cons o rest ih =>
    intro s
    rw [List.foldl_cons, ih]
    by_cases hp : isProperRightExtension e o = true
    · simp only [hp, if_true, mem_setInsert]
      constructor
      · rintro ((h | h) | ⟨p, hp1, hp2⟩)
        · exact Or.inl h
        · exact Or.inr ⟨o, List.mem_cons_self _ _, hp, h.symm⟩
        · exact Or.inr ⟨p, List.mem_cons_of_mem _ hp1, hp2⟩
      · rintro (h | ⟨p, hp1, hp2⟩)
        · exact Or.inl (Or.inl h)
        · rcases List.mem_cons.mp hp1 with h1 | h1
          · subst h1; exact Or.inl (Or.inr hp2.2.symm)
          · exact Or.inr ⟨p, h1, hp2⟩
    · simp only [hp]
      constructor
      · rintro (h | ⟨p, hp1, hp2⟩)
        · exact Or.inl h
        · exact Or.inr ⟨p, List.mem_cons_of_mem _ hp1, hp2⟩
      · rintro (h | ⟨p, hp1, hp2⟩)
        · exact Or.inl h
        · rcases List.mem_cons.mp hp1 with h1 | h1
          · subst h1; exact absurd hp2.1 hp
          · exact Or.inr ⟨p, h1, hp2⟩

theorem mem_extensionSet (e : Extender) (readId x : Int) :
    x ∈ extensionSet e readId ↔
      ∃ o ∈ e.overlapsOf readId, isProperRightExtension e o = true ∧ o.extId = x := by
  unfold extensionSet
  rw [mem_extension_fold]
  simp

theorem supportIndex_nonneg (e : Extender) (extensions : List Int) (c : Int) :
    0 ≤ supportIndex e extensions c := by
  unfold supportIndex leftSupport rightSupport
  exact le_min (Int.natCast_nonneg _) (Int.natCast_nonneg _)

theorem selectExtension_start (visited : List Int) (start : Int) (support : Int → Int) :
    ∀ (l : List Int) (maxSupport best : Int), start ∈ l →
      selectExtension visited start support l maxSupport best = start := by
  intro l
  induction l with
  | nil => intro _ _ h; simp at h
  | cons c rest ih =>
    intro maxSupport best h
    unfold selectExtension
    by_cases hc : c = start
    · rw [if_pos hc]
    · rw [if_neg hc]
      have hrest : start ∈ rest := by
        rcases List.mem_cons.mp h with h1 | h1
        · exact absurd h1.symm hc
        · exact h1
      split_ifs
      · exact ih _ _ hrest
      · exact ih _ _ hrest
      · exact ih _ _ hrest

theorem selectExtension_spec (visited : List Int) (start : Int) (support : Int → Int) :
    ∀ (l : List Int) (maxSupport best : Int), start ∉ l →
      (selectExtension visited start support l maxSupport best = best ∧
        ∀ c ∈ l, c ∉ visited → support c ≤ maxSupport) ∨
      (selectExtension visited start support l maxSupport best ∈ l ∧
        selectExtension visited start support l maxSupport best ∉ visited ∧
        maxSupport < support (selectExtension visited start support l maxSupport best) ∧
        ∀ c ∈ l, c ∉ visited →
          support c ≤ support (selectExtension visited start support l maxSupport best)) := by
  intro l
  induction l with
  | nil => intro maxSupport best _; left; simp [selectExtension]
  | cons c rest ih =>
    intro maxSupport best hstart
    have hc : c ≠ start := fun h => hstart (h ▸ List.mem_cons_self _ _)
    have hrest : start ∉ rest := fun h => hstart (List.mem_cons_of_mem _ h)
    unfold selectExtension
    rw [if_neg hc]
    by_cases hv : c ∈ visited
    · rw [if_pos hv]
      rcases ih maxSupport best hrest with h | h
      · left
        refine ⟨h.1, fun x hx hxv => ?_⟩
        rcases List.mem_cons.mp hx with h1 | h1
        · rw [h1] at hxv; exact absurd hv hxv
        · exact h.2 x h1 hxv
      · right
        refine ⟨List.mem_cons_of_mem _ h.1, h.2.1, h.2.2.1, fun x hx hxv => ?_⟩
        rcases List.mem_cons.mp hx with h1 | h1
        · rw [h1] at hxv; exact absurd hv hxv
        · exact h.2.2.2 x h1 hxv
    · rw [if_neg hv]
      by_cases hs : support c > maxSupport
      · rw [if_pos hs]
        right
        rcases ih (support c) c hrest with h | h
        · rw [h.1]
          refine ⟨List.mem_cons_self _ _, hv, hs, fun x hx hxv => ?_⟩
          rcases List.mem_cons.mp hx with h1 | h1
          · rw [h1]
          · exact h.2 x h1 hxv
        · refine ⟨List.mem_cons_of_mem _ h.1, h.2.1, lt_trans hs h.2.2.1, fun x hx hxv => ?_⟩
          rcases List.mem_cons.mp hx with h1 | h1
          · rw [h1]; exact le_of_lt h.2.2.1
          · exact h.2.2.2 x h1 hxv
      · rw [if_neg hs]
        rcases ih maxSupport best hrest with h | h
        · left
          refine ⟨h.1, fun x hx hxv => ?_⟩
          rcases List.mem_cons.mp hx with h1 | h1
          · rw [h1]; exact not_lt.mp hs
          · exact h.2 x h1 hxv
        · right
          refine ⟨List.mem_cons_of_mem _ h.1, h.2.1, h.2.2.1, fun x hx hxv => ?_⟩
          rcases List.mem_cons.mp hx with h1 | h1
          · rw [h1]; exact le_trans (not_lt.mp hs) (le_of_lt h.2.2.1)
          · exact h.2.2.2 x h1 hxv

theorem stepRight_start (e : Extender) (visited : List Int) (readId start : Int)
    (h : start ∈ extensionSet e readId) : stepRight e visited readId start = start := by
  unfold stepRight
  exact selectExtension_start visited start _ _ _ _ ((e.iterSet_perm _).mem_iff.mpr h)

theorem stepRight_cases (e : Extender) (visited : List Int) (readId start : Int)
    (h : start ∉ extensionSet e readId) :
    (stepRight e visited readId start = e.ID_NONE ∧
      ∀ c ∈ extensionSet e readId, c ∈ visited) ∨
    (stepRight e visited readId start ∈ extensionSet e readId ∧
      stepRight e visited readId start ∉ visited ∧
      ∀ c ∈ extensionSet e readId, c ∉ visited →
        supportIndex e (extensionSet e readId) c ≤
          supportIndex e (extensionSet e readId) (stepRight e visited readId start)) := by
  have hperm := e.iterSet_perm (extensionSet e readId)
  have hnot : start ∉ e.iterSet (extensionSet e readId) := fun hm => h (hperm.mem_iff.mp hm)
  rcases selectExtension_spec visited start (supportIndex e (extensionSet e readId))
    (e.iterSet (extensionSet e readId)) (-1) e.ID_NONE hnot with hs | hs
  · left
    refine ⟨hs.1, fun c hc => ?_⟩
    by_contra hcv
    have h1 := hs.2 c (hperm.mem_iff.mpr hc) hcv
    have h2 := supportIndex_nonneg e (extensionSet e readId) c
    omega
  · right
    refine ⟨hperm.mem_iff.mp hs.1, hs.2.1, fun c hc hcv => ?_⟩
    exact hs.2.2.2 c (hperm.mem_iff.mpr hc) hcv

theorem unvisitedCount_le (ids visited : List Int) :
    unvisitedCount ids visited ≤ ids.length := by
  unfold unvisitedCount
  exact le_trans (Finset.card_filter_le _ _) (List.toFinset_card_le ids)

theorem unvisitedCount_lt (ids visited visited2 : List Int) (x : Int)
    (hx : x ∈ ids) (hxv : x ∉ visited) (hx2 : x ∈ visited2)
    (hsub : ∀ y ∈ visited, y ∈ visited2) :
    unvisitedCount ids visited2 < unvisitedCount ids visited := by
  unfold unvisitedCount
  apply Finset.card_lt_card
  rw [Finset.ssubset_iff_of_subset]
  · exact ⟨x, by simp [hx, hxv], by simp [hx2]⟩
  · intro y hy
    simp only [Finset.mem_filter, List.mem_toFinset] at hy ⊢
    exact ⟨hy.1, fun hyv => hy.2 (hsub y hyv)⟩

theorem lookup_mem (l : List (Int × List OverlapRange)) (k : Int)
    (v : List OverlapRange) (h : l.lookup k = some v) : (k, v) ∈ l := by
  induction l with
  | nil => simp at h
  | cons kv rest ih =>
    obtain ⟨k1, v1⟩ := kv
    rw [List.lookup_cons] at h
    by_cases hk : k = k1
    · subst hk
      simp at h
      rw [h]; exact List.mem_cons_self _ _
    · have hb : (k == k1) = false := by simpa using hk
      rw [hb] at h
      exact List.mem_cons_of_mem _ (ih h)

theorem extId_mem_extIds (e : Extender) (readId : Int) (o : OverlapRange)
    (h : o ∈ e.overlapsOf readId) : o.extId ∈ e.extIds := by
  unfold Extender.overlapsOf at h
  cases hl : e.overlapIndex.lookup readId with
  | none => rw [hl] at h; simp at h
  | some v =>
    rw [hl] at h
    simp only [Option.getD_some] at h
    unfold Extender.extIds
    rw [List.mem_flatMap]
    exact ⟨(readId, v), lookup_mem _ _ _ hl, List.mem_map.mpr ⟨o, h, rfl⟩⟩

theorem extensionSet_subset_extIds (e : Extender) (readId x : Int)
    (h : x ∈ extensionSet e readId) : x ∈ e.extIds := by
  obtain ⟨o, ho, _, hx⟩ := (mem_extensionSet e readId x).mp h
  rw [← hx]
  exact extId_mem_extIds e readId o ho

theorem extendLoop_spec (e : Extender) (start : Int) :
    ∀ (fuel : Nat) (curRead : Int) (reads visited : List Int),
      unvisitedCount e.extIds visited < fuel →
      ∃ added visited2 circular,
        extendLoop e start fuel curRead reads visited =
          some (⟨reads ++ added, circular⟩, visited2) ∧
        ExtendResult e start curRead visited added visited2 circular := by
  intro fuel
  induction fuel with
  | zero => intro _ _ _ h; exact absurd h (Nat.not_lt_zero _)
  | succ n ih =>
    intro curRead reads visited hfuel
    unfold extendLoop
    simp only []
    by_cases h1 : stepRight e visited curRead start = start
    · rw [if_pos h1]
      refine ⟨[], visited, true, by simp, ⟨by simp, by simp, List.Pairwise.nil,
        List.Chain.nil, fun _ => rfl, fun hs _ => ?_⟩⟩
      by_contra hE
      rcases stepRight_cases e visited curRead start hE with h | h
      · exact hs (h1 ▸ h.1)
      · rw [h1] at h; exact hE h.1
    · rw [if_neg h1]
      have hE : start ∉ extensionSet e curRead :=
        fun hm => h1 (stepRight_start e visited curRead start hm)
      by_cases h2 : stepRight e visited curRead start ∈ visited
      · rw [if_pos h2]
        exact ⟨[], visited, false, by simp, ⟨by simp, by simp, List.Pairwise.nil,
          List.Chain.nil, fun hs => absurd hs hE, fun _ hc => by simp at hc⟩⟩
      · rw [if_neg h2]
        by_cases h3 : stepRight e visited curRead start = e.ID_NONE
        · rw [if_pos h3]
          exact ⟨[], visited, false, by simp, ⟨by simp, by simp, List.Pairwise.nil,
            List.Chain.nil, fun hs => absurd hs hE, fun _ hc => by simp at hc⟩⟩
        · rw [if_neg h3]
          generalize hr : stepRight e visited curRead start = r at h1 h2 h3
          have hrE : r ∈ extensionSet e curRead := by
            rcases stepRight_cases e visited curRead start hE with h | h
            · rw [hr] at h; exact absurd h.1 h3
            · rw [hr] at h; exact h.1
          have hlt : unvisitedCount e.extIds (-r :: r :: visited) < n := by
            have := unvisitedCount_lt e.extIds visited (-r :: r :: visited) r
              (extensionSet_subset_extIds e curRead r hrE) h2 (by simp)
              (fun y hy => by simp [hy])
            omega
          obtain ⟨added, visited2, circular, hloop, hres⟩ :=
            ih r (reads ++ [r]) (-r :: r :: visited) hlt
          refine ⟨r :: added, visited2, circular, ?_, ⟨?_, ?_, ?_, ?_, ?_, ?_⟩⟩
          · rw [hloop]; simp
          · intro x
            rw [hres.mem_visited]
            simp only [List.mem_cons, rc]
            constructor
            · rintro ((h | h | h) | h | h)
              · right; right; left; rw [h]; simp
              · right; left; left; exact h
              · left; exact h
              · right; left; right; exact h
              · right; right; right; exact h
            · rintro (h | (h | h) | (h | h))
              · left; right; right; exact h
              · left; right; left; exact h
              · right; left; exact h
              · left; left; rw [← h]; simp
              · right; right; exact h
          · intro x hx
            rcases List.mem_cons.mp hx with hx1 | hx1
            · rw [hx1]; exact ⟨h2, h1, h3⟩
            · have := hres.fresh x hx1
              exact ⟨fun hv => this.1 (by simp [hv]), this.2⟩
          · rw [List.pairwise_cons]
            refine ⟨fun b hb => ?_, hres.distinct⟩
            have := (hres.fresh b hb).1
            simp only [List.mem_cons, not_or] at this
            refine ⟨fun hrb => this.2.1 hrb.symm, fun hrb => this.1 ?_⟩
            rw [hrb]; simp [rc]
          · exact List.Chain.cons hrE hres.steps
          · intro hs
            rw [List.getLastD_cons] at hs
            exact hres.closes_of hs
          · intro hs hc
            rw [List.getLastD_cons]
            exact hres.of_closes hs hc

/-! ### The loop of `assembleContigs` -/

theorem mem_absorbOverlaps (x : Int) :
    ∀ (l : List OverlapRange) (v : List Int),
      x ∈ absorbOverlaps l v ↔ x ∈ v ∨ ∃ o ∈ l, x = o.extId ∨ x = rc o.extId := by
  intro l
  induction l with
  | nil => intro v; simp [absorbOverlaps]
  | cons o rest ih =>
    intro v
    unfold absorbOverlaps
    rw [ih]
    simp only [List.mem_cons, rc]
    constructor
    · rintro ((h | h | h) | ⟨p, hp, hx⟩)
      · exact Or.inr ⟨o, Or.inl rfl, Or.inr h⟩
      · exact Or.inr ⟨o, Or.inl rfl, Or.inl h⟩
      · exact Or.inl h
      · exact Or.inr ⟨p, Or.inr hp, hx⟩
    · rintro (h | ⟨p, hp | hp, hx⟩)
      · exact Or.inl (Or.inr (Or.inr h))
      · subst hp
        rcases hx with hx | hx
        · exact Or.inl (Or.inr (Or.inl hx))
        · exact Or.inl (Or.inl hx)
      · exact Or.inr ⟨p, hp, hx⟩

theorem mem_absorbReads (e : Extender) (x : Int) :
    ∀ (l : List Int) (v : List Int),
      x ∈ absorbReads e l v ↔
        x ∈ v ∨ ∃ r ∈ l, ∃ o ∈ e.overlapsOf r, x = o.extId ∨ x = rc o.extId := by
  intro l
  induction l with
  | nil => intro v; simp [absorbReads]
  | cons r rest ih =>
    intro v
    unfold absorbReads
    rw [ih, mem_absorbOverlaps]
    simp only [List.mem_cons]
    constructor
    · rintro ((h | ⟨o, ho, hx⟩) | ⟨q, hq, hx⟩)
      · exact Or.inl h
      · exact Or.inr ⟨r, Or.inl rfl, o, ho, hx⟩
      · exact Or.inr ⟨q, Or.inr hq, hx⟩
    · rintro (h | ⟨q, hq | hq, o, ho, hx⟩)
      · exact Or.inl (Or.inl h)
      · subst hq; exact Or.inl (Or.inr ⟨o, ho, hx⟩)
      · exact Or.inr ⟨q, hq, o, ho, hx⟩

theorem absorbReads_closed (e : Extender) (l v : List Int) (h : StrandClosed v) :
    StrandClosed (absorbReads e l v) := by
  intro x hx
  rw [mem_absorbReads] at hx ⊢
  rcases hx with hx | ⟨r, hr, o, ho, hx⟩
  · exact Or.inl (h x hx)
  · refine Or.inr ⟨r, hr, o, ho, ?_⟩
    rcases hx with hx | hx
    · right; rw [hx]
    · left; rw [hx]; simp [rc]

theorem chooseStart_spec (e : Extender) (visited : List Int) :
    ∀ (l : List Int) (maxExtension startRead : Int),
      chooseStart e visited l maxExtension startRead = startRead ∨
      (chooseStart e visited l maxExtension startRead ∈ l ∧
        chooseStart e visited l maxExtension startRead ∉ visited ∧
        e.isChimeric (chooseStart e visited l maxExtension startRead) = false ∧
        maxExtension <
          countRightExtensions e (chooseStart e visited l maxExtension startRead)) := by
  intro l
  induction l with
  | nil => intro _ _; left; rfl
  | cons r rest ih =>
    intro maxExtension startRead
    unfold chooseStart
    by_cases h1 : r ∈ visited ∨ e.isChimeric r = true
    · rw [if_pos h1]
      rcases ih maxExtension startRead with h | h
      · exact Or.inl h
      · exact Or.inr ⟨List.mem_cons_of_mem _ h.1, h.2⟩
    · rw [if_neg h1]
      push_neg at h1
      by_cases h2 : countRightExtensions e r > maxExtension
      · rw [if_pos h2]
        right
        rcases ih (countRightExtensions e r) r with h | h
        · rw [h]
          exact ⟨List.mem_cons_self _ _, h1.1, by simpa using h1.2, h2⟩
        · exact ⟨List.mem_cons_of_mem _ h.1, h.2.1, h.2.2.1, lt_trans h2 h.2.2.2⟩
      · rw [if_neg h2]
        rcases ih maxExtension startRead with h | h
        · exact Or.inl h
        · exact Or.inr ⟨List.mem_cons_of_mem _ h.1, h.2⟩

theorem Linked_append (r : Round) :
    ∀ (rounds : List Round) (v : List Int), Linked v rounds r.visitedAtStart →
      Linked v (rounds ++ [r]) r.visitedAtEnd := by
  intro rounds
  induction rounds with
  | nil =>
    intro v h
    exact ⟨h.symm, rfl⟩
  | cons q rest ih =>
    intro v h
    exact ⟨h.1, ih _ h.2⟩

theorem ExtendResult_closed (e : Extender) (start curRead : Int)
    (visited added visited2 : List Int) (circular : Bool)
    (h : ExtendResult e start curRead visited added visited2 circular)
    (hc : StrandClosed visited) : StrandClosed visited2 := by
  intro x hx
  rw [h.mem_visited] at hx ⊢
  rcases hx with hx | hx | hx
  · exact Or.inl (hc x hx)
  · right; right; rw [rc_rc]; exact hx
  · right; left; exact hx

theorem closed_cons (visited : List Int) (s : Int) (h : StrandClosed visited) :
    StrandClosed (-s :: s :: visited) := by
  intro x hx
  simp only [List.mem_cons, rc] at hx ⊢
  rcases hx with hx | hx | hx
  · right; left; rw [hx]; simp
  · left; rw [hx]
  · right; right; exact h x hx

theorem assembleLoop_spec (e : Extender) (fuel : Nat) (hfuel : e.extIds.length < fuel) :
    ∀ (n : Nat) (visited : List Int) (rounds : List Round),
      unvisitedCount (e.seqIndex.map Prod.fst) visited < n → TraceOK e rounds visited →
      ∃ rounds2 visited2, assembleLoop e fuel n visited rounds = some rounds2 ∧
        TraceOK e rounds2 visited2 ∧
        chooseStart e visited2 (e.seqIndex.map Prod.fst) 0 e.ID_NONE = e.ID_NONE := by
  intro n
  induction n with
  | zero => intro _ _ h; exact absurd h (Nat.not_lt_zero _)
  | succ m ih =>
    intro visited rounds hm hinv
    unfold assembleLoop
    simp only []
    by_cases hs : chooseStart e visited (e.seqIndex.map Prod.fst) 0 e.ID_NONE = e.ID_NONE
    · rw [if_pos hs]; exact ⟨rounds, visited, rfl, hinv, hs⟩
    · rw [if_neg hs]
      have hsp := chooseStart_spec e visited (e.seqIndex.map Prod.fst) 0 e.ID_NONE
      generalize chooseStart e visited (e.seqIndex.map Prod.fst) 0 e.ID_NONE = s at hs hsp
      rcases hsp with hsp | hsp
      · exact absurd hsp hs
      obtain ⟨hskeys, hsv, hschim, hscount⟩ := hsp
      obtain ⟨added, v2, circ, hloop, hres⟩ := extendLoop_spec e s fuel s [s]
        (-s :: s :: visited) (lt_of_le_of_lt (unvisitedCount_le _ _) hfuel)
      have hext : extendRead e fuel visited s = some (⟨[s] ++ added, circ⟩, v2) := hloop
      rw [hext]
      simp only []
      have hsub2 : ∀ x ∈ visited, x ∈ v2 :=
        fun x hx => (hres.mem_visited x).mpr (Or.inl (by simp [hx]))
      have hsub3 : ∀ x ∈ v2, x ∈ absorbReads e ([s] ++ added) v2 :=
        fun x hx => (mem_absorbReads e x _ _).mpr (Or.inl hx)
      have hs2 : s ∈ v2 := (hres.mem_visited s).mpr (Or.inl (by simp))
      have hreads : ∀ x ∈ [s] ++ added, x ∈ v2 := by
        intro x hx
        rcases List.mem_append.mp hx with h | h
        · rw [List.mem_singleton] at h; rw [h]; exact hs2
        · exact (hres.mem_visited x).mpr (Or.inr (Or.inl h))
      have hclosed3 : StrandClosed (absorbReads e ([s] ++ added) v2) :=
        absorbReads_closed e _ _
          (ExtendResult_closed e s s _ added v2 circ hres (closed_cons visited s hinv.closed))
      have hfresh : ∀ x ∈ [s] ++ added, x ∉ visited := by
        intro x hx
        rcases List.mem_append.mp hx with h | h
        · rw [List.mem_singleton] at h; rw [h]; exact hsv
        · exact fun hv => (hres.fresh x h).1 (by simp [hv])
      have hround : RoundOK e ⟨visited, s, ⟨[s] ++ added, circ⟩,
          absorbReads e ([s] ++ added) v2⟩ :=
        { start_unvisited := hsv
          start_not_chimeric := hschim
          start_in_store := hskeys
          start_extends := hscount
          start_ne_none := hs
          extended := ⟨added, v2, rfl, hres, rfl⟩
          grows := fun x hx => hsub3 x (hsub2 x hx)
          reads_visited := fun x hx => hsub3 x (hreads x hx)
          closed_start := hinv.closed
          closed_end := hclosed3 }
      apply ih
      · have := unvisitedCount_lt (e.seqIndex.map Prod.fst) visited
          (absorbReads e ([s] ++ added) v2) s hskeys hsv (hsub3 s hs2)
          (fun y hy => hsub3 y (hsub2 y hy))
        omega
      · refine
          { rounds_ok := ?_, linked := ?_, closed := hclosed3, below := ?_, starts := ?_,
            cover := ?_ }
        · intro r hr
          rcases List.mem_append.mp hr with h | h
          · exact hinv.rounds_ok r h
          · rw [List.mem_singleton] at h; rw [h]; exact hround
        · exact Linked_append ⟨visited, s, ⟨[s] ++ added, circ⟩,
            absorbReads e ([s] ++ added) v2⟩ rounds [] hinv.linked
        · intro r hr x hx
          rcases List.mem_append.mp hr with h | h
          · exact hsub3 x (hsub2 x (hinv.below r h x hx))
          · rw [List.mem_singleton] at h; rw [h] at hx; exact hx
        · rw [List.pairwise_append]
          refine ⟨hinv.starts, List.pairwise_singleton _ _, ?_⟩
          intro r1 hr1 r2 hr2 x hx
          rw [List.mem_singleton] at hr2
          rw [hr2]
          have hxv : x ∈ visited := hinv.below r1 hr1 x hx
          refine ⟨fun h => hsv ?_, fun h => hsv ?_⟩
          · have h1 : s = x := h
            rw [h1]; exact hxv
          · have h1 : s = rc x := h
            rw [h1]; exact hinv.closed x hxv
        · rw [List.flatMap_append, List.pairwise_append]
          refine ⟨hinv.cover, ?_, ?_⟩
          · simp only [List.flatMap_cons, List.flatMap_nil, List.append_nil,
              List.singleton_append, List.pairwise_cons]
            refine ⟨fun b hb => ?_, hres.distinct⟩
            have := (hres.fresh b hb).1
            simp only [List.mem_cons, not_or] at this
            refine ⟨fun h => this.2.1 h.symm, fun h => this.1 ?_⟩
            rw [h]; simp [rc]
          · intro a ha b hb
            simp only [List.flatMap_cons, List.flatMap_nil, List.append_nil] at hb
            obtain ⟨r1, hr1, har1⟩ := List.mem_flatMap.mp ha
            have hav : a ∈ visited :=
              hinv.below r1 hr1 a ((hinv.rounds_ok r1 hr1).reads_visited a har1)
            have hbv := hfresh b hb
            refine ⟨fun h => hbv (h ▸ hav), fun h => hbv ?_⟩
            have := hinv.closed a hav
            rw [h, rc_rc] at this
            exact this

theorem TraceOK_nil (e : Extender) : TraceOK e [] [] :=
  { rounds_ok := fun r hr => by simp at hr
    linked := rfl
    closed := fun x hx => by simp at hx
    below := fun r hr => by simp at hr
    starts := List.Pairwise.nil
    cover := List.Pairwise.nil }

theorem assembleContigs_spec (e : Extender) (n : Nat) :
    ∃ rounds visited, assembleContigs e (e.enoughFuel + n) = some rounds ∧
      TraceOK e rounds visited ∧
      chooseStart e visited (e.seqIndex.map Prod.fst) 0 e.ID_NONE = e.ID_NONE := by
  unfold assembleContigs
  apply assembleLoop_spec e _ (by unfold Extender.enoughFuel; omega) _ [] [] _ (TraceOK_nil e)
  have := unvisitedCount_le (e.seqIndex.map Prod.fst) []
  rw [List.length_map] at this
  unfold Extender.enoughFuel
  omega

theorem contigPaths_reads (rounds : List Round) :
    (contigPaths rounds).flatMap (fun p => p.reads) =
      rounds.flatMap (fun r => r.path.reads) := by
  unfold contigPaths
  induction rounds with
  | nil => rfl
  | cons r rest ih => simp only [List.map_cons, List.flatMap_cons, ih]

/-- Claim C4.  Single cover: `assembleContigs` returns, and among the reads of
all the contig paths it produced, taken together in order, no read id occurs
twice (within one path or across paths) and no two occurrences are `x` and
`rc(x)`. -/
theorem assembleContigs_single_cover (e : Extender) (n : Nat) :
    ∃ rounds, assembleContigs e (e.enoughFuel + n) = some rounds ∧
      ((contigPaths rounds).flatMap (fun p => p.reads)).Nodup ∧
      ((contigPaths rounds).flatMap (fun p => p.reads)).Pairwise
        (fun a b => a ≠ rc b ∧ b ≠ rc a) := by
  obtain ⟨rounds, visited, hrun, hinv, _⟩ := assembleContigs_spec e n
  refine ⟨rounds, hrun, ?_, ?_⟩
  · rw [contigPaths_reads]
    exact hinv.cover.imp (fun h => h.1)
  · rw [contigPaths_reads]
    refine hinv.cover.imp (fun {a b} h => ⟨h.2, fun hb => h.2 ?_⟩)
    rw [hb, rc_rc]

/-- Counterexample to C5 as stated: in `exampleExtender` read 2 is chimeric,
and `assembleContigs` produces the path `[1, 2]`, where read 2 was appended
as the extension of read 1. -/
theorem chimeric_read_appended :
    exampleExtender.isChimeric 2 = true ∧
    (assembleContigs exampleExtender exampleExtender.enoughFuel).map contigPaths =
      some [⟨[1, 2], false⟩] := by
  decide

/-- Claim C5, amended.  For every read `X` with `isChimeric(X) = true`,
`assembleContigs` returns and never chooses `X` as a start read: no round
starts from `X` and no contig path begins with `X`. -/
theorem assembleContigs_no_chimeric_start (e : Extender) (n : Nat) (X : Int)
    (hX : e.isChimeric X = true) :
    ∃ rounds, assembleContigs e (e.enoughFuel + n) = some rounds ∧
      (∀ r ∈ rounds, r.startRead ≠ X) ∧
      (∀ p ∈ contigPaths rounds, p.reads.head? ≠ some X) := by
  obtain ⟨rounds, visited, hrun, hinv, _⟩ := assembleContigs_spec e n
  have hstart : ∀ r ∈ rounds, r.startRead ≠ X := by
    intro r hr h
    have := (hinv.rounds_ok r hr).start_not_chimeric
    rw [h, hX] at this
    exact Bool.noConfusion this
  refine ⟨rounds, hrun, hstart, ?_⟩
  intro p hp h
  unfold contigPaths at hp
  obtain ⟨r, hr, hrp⟩ := List.mem_map.mp hp
  obtain ⟨added, v2, hreads, _, _⟩ := (hinv.rounds_ok r hr).extended
  rw [← hrp, hreads] at h
  simp only [List.head?_cons, Option.some.injEq] at h
  exact hstart r hr h

/-- Witness of C5, amended: read 2 is chimeric in `exampleExtender` and no
contig path begins with it. -/
theorem assembleContigs_no_chimeric_start_witness :
    exampleExtender.isChimeric 2 = true ∧
    ∃ rounds, assembleContigs exampleExtender (exampleExtender.enoughFuel + 0) = some rounds ∧
      (∀ r ∈ rounds, r.startRead ≠ 2) ∧
      (∀ p ∈ contigPaths rounds, p.reads.head? ≠ some 2) :=
  ⟨by decide, assembleContigs_no_chimeric_start exampleExtender 0 2 (by decide)⟩

/-- Claim C6.  Visited monotonicity: `assembleContigs` returns, and over its
rounds, which follow one another from the empty set, `_visitedReads` only
grows and holds `rc(x)` iff it holds `x`; every start read is unvisited when
it is chosen and visited, with its reverse complement, afterwards; hence a
read `x` that is in `_visitedReads` at the end of a round is never the start
read of a later round, and neither is `rc(x)`. -/
theorem assembleContigs_visited_monotone (e : Extender) (n : Nat) :
    ∃ rounds visited, assembleContigs e (e.enoughFuel + n) = some rounds ∧
      Linked [] rounds visited ∧
      (∀ r ∈ rounds,
        (∀ x ∈ r.visitedAtStart, x ∈ r.visitedAtEnd) ∧
        (∀ x, x ∈ r.visitedAtStart ↔ rc x ∈ r.visitedAtStart) ∧
        (∀ x, x ∈ r.visitedAtEnd ↔ rc x ∈ r.visitedAtEnd) ∧
        r.startRead ∉ r.visitedAtStart ∧ rc r.startRead ∉ r.visitedAtStart ∧
        r.startRead ∈ r.visitedAtEnd ∧ rc r.startRead ∈ r.visitedAtEnd) ∧
      rounds.Pairwise (fun r1 r2 =>
        ∀ x ∈ r1.visitedAtEnd, r2.startRead ≠ x ∧ r2.startRead ≠ rc x) := by
  obtain ⟨rounds, visited, hrun, hinv, _⟩ := assembleContigs_spec e n
  refine ⟨rounds, visited, hrun, hinv.linked, fun r hr => ?_, hinv.starts⟩
  have hok := hinv.rounds_ok r hr
  have hiff : ∀ v : List Int, StrandClosed v → ∀ x, x ∈ v ↔ rc x ∈ v := by
    intro v hv x
    refine ⟨fun h => hv x h, fun h => ?_⟩
    have := hv (rc x) h
    rwa [rc_rc] at this
  obtain ⟨added, v2, hreads, _, _⟩ := hok.extended
  have hsend : r.startRead ∈ r.visitedAtEnd :=
    hok.reads_visited _ (by rw [hreads]; exact List.mem_cons_self _ _)
  refine ⟨hok.grows, hiff _ hok.closed_start, hiff _ hok.closed_end, hok.start_unvisited,
    fun h => hok.start_unvisited ?_, hsend, hok.closed_end _ hsend⟩
  have := hok.closed_start _ h
  rwa [rc_rc] at this

/-- Claim C7.  `extendRead(startRead)`, for a start read that is a read (not
`ID_NONE`), returns, and the path has `circular = true` iff the last read of
the path has an overlap whose `extId` is `startRead` and that is a proper
right extension; `startRead` is the first read of the path and occurs in it
once, so it is not appended a second time. -/
theorem extendRead_circular_iff (e : Extender) (visitedReads : List Int) (startRead : Int)
    (n : Nat) (hstart : startRead ≠ e.ID_NONE) :
    ∃ path visited2,
      extendRead e (e.enoughFuel + n) visitedReads startRead = some (path, visited2) ∧
      (path.circular = true ↔
        ∃ o ∈ e.overlapsOf (path.reads.getLastD startRead),
          o.extId = startRead ∧ isProperRightExtension e o = true) ∧
      path.reads.head? = some startRead ∧ path.reads.count startRead = 1 := by
  obtain ⟨added, v2, circ, hloop, hres⟩ := extendLoop_spec e startRead (e.enoughFuel + n)
    startRead [startRead] (-startRead :: startRead :: visitedReads)
    (lt_of_le_of_lt (unvisitedCount_le _ _) (by unfold Extender.enoughFuel; omega))
  refine ⟨⟨[startRead] ++ added, circ⟩, v2, hloop, ?_, rfl, ?_⟩
  · have hlast : ([startRead] ++ added).getLastD startRead = added.getLastD startRead := by
      show (startRead :: added).getLastD startRead = added.getLastD startRead
      rw [List.getLastD_cons]
    simp only [hlast]
    constructor
    · intro hc
      obtain ⟨o, ho, hp, hx⟩ := (mem_extensionSet e _ _).mp (hres.of_closes hstart hc)
      exact ⟨o, ho, hx, hp⟩
    · rintro ⟨o, ho, hx, hp⟩
      exact hres.closes_of ((mem_extensionSet e _ _).mpr ⟨o, ho, hp, hx⟩)
  · have hnot : startRead ∉ added := fun h => (hres.fresh _ h).2.1 rfl
    simp [List.count_cons, List.count_eq_zero_of_not_mem hnot]

/-- Witness of C7: `extendRead(1)` in `exampleExtender`. -/
theorem extendRead_circular_iff_witness :
    (1 : Int) ≠ exampleExtender.ID_NONE ∧
    ∃ path visited2,
      extendRead exampleExtender (exampleExtender.enoughFuel + 0) [] 1 =
        some (path, visited2) ∧
      (path.circular = true ↔
        ∃ o ∈ exampleExtender.overlapsOf (path.reads.getLastD 1),
          o.extId = 1 ∧ isProperRightExtension exampleExtender o = true) ∧
      path.reads.head? = some 1 ∧ path.reads.count 1 = 1 :=
  ⟨by decide, extendRead_circular_iff exampleExtender [] 1 0 (by decide)⟩

/-! ### The cache of `lazySeqOverlaps` -/

theorem lazySeqOverlaps_cached (c : OverlapContainer) (readId : Int)
    (h : readId ∈ c.cached) : lazySeqOverlaps c readId = (c.overlapIndex readId, c) := by
  unfold lazySeqOverlaps
  simp only [h, if_true]

theorem lazySeqOverlaps_result (c : OverlapContainer) (readId : Int) :
    (lazySeqOverlaps c readId).1 = (lazySeqOverlaps c readId).2.overlapIndex readId := rfl

theorem lazySeqOverlaps_caches (c : OverlapContainer) (readId : Int) :
    readId ∈ (lazySeqOverlaps c readId).2.cached := by
  unfold lazySeqOverlaps
  simp only []
  by_cases h : readId ∈ c.cached
  · simp only [h, if_true]
  · simp only [h, if_false]
    split_ifs <;> simp [storeOverlaps]

theorem lazySeqOverlaps_calls (c : OverlapContainer) (readId : Int) :
    (lazySeqOverlaps c readId).2.detectorCalls =
      if readId ∈ c.cached then c.detectorCalls else c.detectorCalls + 1 := by
  unfold lazySeqOverlaps
  simp only []
  by_cases h : readId ∈ c.cached
  · simp only [h, if_true]
  · simp only [h, if_false]
    split_ifs <;> simp [storeOverlaps]

theorem lazyCalls_cached (readId : Int) :
    ∀ (n : Nat) (c : OverlapContainer), readId ∈ c.cached →
      lazyCalls readId n c = (List.replicate n (c.overlapIndex readId), c) := by
  intro n
  induction n with
  | zero => intro c _; rfl
  | succ k ih =>
    intro c h
    unfold lazyCalls
    simp only [lazySeqOverlaps_cached c readId h, ih c h, List.replicate_succ]

theorem lazyCalls_succ (readId : Int) (n : Nat) (c : OverlapContainer) :
    lazyCalls readId (n + 1) c =
      (List.replicate (n + 1) (lazySeqOverlaps c readId).1, (lazySeqOverlaps c readId).2) := by
  unfold lazyCalls
  simp only [lazyCalls_cached readId n _ (lazySeqOverlaps_caches c readId),
    List.replicate_succ, ← lazySeqOverlaps_result]

theorem indexPush_isSome (m : Int → Option (List OverlapRange)) (k x : Int)
    (o : OverlapRange) (h : (m x).isSome = true) : (indexPush m k o x).isSome = true := by
  unfold indexPush
  split_ifs
  · rfl
  · exact h

theorem storeLoop_isSome (onlyMax : Bool) (extisting : List Int) (seqId x : Int) :
    ∀ (overlaps : List OverlapRange) (m : Int → Option (List OverlapRange)),
      (m x).isSome = true → (storeLoop onlyMax extisting seqId overlaps m x).isSome = true := by
  intro overlaps
  induction overlaps with
  | nil => intro m h; exact h
  | cons o rest ih =>
    intro m h
    unfold storeLoop
    split_ifs
    · exact ih m h
    · exact ih _ (indexPush_isSome _ _ _ _ (indexPush_isSome _ _ _ _
        (indexPush_isSome _ _ _ _ (indexPush_isSome _ _ _ _ h))))

theorem storeOverlaps_isSome (c : OverlapContainer) (overlaps : List OverlapRange)
    (seqId : Int) : ((storeOverlaps c overlaps seqId).overlapIndex seqId).isSome = true := by
  unfold storeOverlaps
  apply storeLoop_isSome
  by_cases h1 : seqId = rc seqId
  · simp only [indexTouch, if_pos h1, Option.isSome_some]
  · simp only [indexTouch, if_neg h1, if_true, Option.isSome_some]

theorem lazySeqOverlaps_returns (c : OverlapContainer) (readId : Int)
    (h : readId ∉ c.cached ∨ (c.overlapIndex readId).isSome = true) :
    ∃ l, (lazySeqOverlaps c readId).1 = some l := by
  rw [← Option.isSome_iff_exists]
  by_cases hc : readId ∈ c.cached
  · rw [lazySeqOverlaps_cached c readId hc]
    rcases h with h | h
    · exact absurd hc h
    · exact h
  · unfold lazySeqOverlaps
    simp only [hc, if_false]
    split_ifs
    · exact storeOverlaps_isSome _ _ _
    · exact storeOverlaps_isSome _ _ _

/-- Claim C8.  Cache idempotence, one thread: `n + 1` successive calls
`lazySeqOverlaps(readId)` all return what the first one returns, and the
detector is invoked at most once in total: not at all if `readId` was already
cached, also when it was cached only because `storeOverlaps` ran for
`rc(readId)`.  What is returned is a list whenever `readId` is not cached or
has an entry in the overlap index. -/
theorem lazySeqOverlaps_idempotent (c : OverlapContainer) (readId : Int) (n : Nat) :
    (lazyCalls readId (n + 1) c).1 = List.replicate (n + 1) (lazySeqOverlaps c readId).1 ∧
    (lazyCalls readId (n + 1) c).2.detectorCalls ≤ c.detectorCalls + 1 ∧
    (readId ∈ c.cached → (lazyCalls readId (n + 1) c).2.detectorCalls = c.detectorCalls) ∧
    (∀ overlaps : List OverlapRange,
      (lazyCalls readId (n + 1) (storeOverlaps c overlaps (rc readId))).2.detectorCalls =
        c.detectorCalls) ∧
    ((readId ∉ c.cached ∨ (c.overlapIndex readId).isSome = true) →
      ∃ l, (lazySeqOverlaps c readId).1 = some l) := by
  refine ⟨?_, ?_, ?_, ?_, lazySeqOverlaps_returns c readId⟩
  · rw [lazyCalls_succ]
  · rw [lazyCalls_succ, lazySeqOverlaps_calls]
    split_ifs <;> omega
  · intro h
    rw [lazyCalls_succ, lazySeqOverlaps_calls, if_pos h]
  · intro overlaps
    have h : readId ∈ (storeOverlaps c overlaps (rc readId)).cached := by
      simp [storeOverlaps, rc]
    rw [lazyCalls_succ, lazySeqOverlaps_calls, if_pos h]
    rfl

/-! ### `std::sort` sorts -/

theorem sortInsert_sorted {α : Type} (lt : α → α → Bool) (key : α → Int)
    (hlt : ∀ a b, lt a b = decide (key a < key b)) (x : α) :
    ∀ l : List α, l.Pairwise (fun a b => key a ≤ key b) →
      (sortInsert lt x l).Pairwise (fun a b => key a ≤ key b) := by
  intro l
  induction l with
  | nil => intro _; simp [sortInsert]
  | cons y ys ih =>
    intro h
    rw [List.pairwise_cons] at h
    unfold sortInsert
    by_cases hyx : lt y x = true
    · rw [if_pos hyx]
      rw [List.pairwise_cons]
      refine ⟨fun b hb => ?_, ih h.2⟩
      rcases List.mem_cons.mp ((sortInsert_perm lt x ys).mem_iff.mp hb) with hb1 | hb1
      · rw [hb1]
        rw [hlt] at hyx
        exact le_of_lt (of_decide_eq_true hyx)
      · exact h.1 b hb1
    · rw [if_neg hyx]
      have hxy : key x ≤ key y := by
        rw [hlt] at hyx
        simpa using hyx
      rw [List.pairwise_cons]
      refine ⟨fun b hb => ?_, List.pairwise_cons.mpr h⟩
      rcases List.mem_cons.mp hb with hb1 | hb1
      · rw [hb1]; exact hxy
      · exact le_trans hxy (h.1 b hb1)

theorem stdSort_sorted {α : Type} (lt : α → α → Bool) (key : α → Int)
    (hlt : ∀ a b, lt a b = decide (key a < key b)) :
    ∀ l : List α, (stdSort lt l).Pairwise (fun a b => key a ≤ key b) := by
  intro l
  induction l with
  | nil => exact List.Pairwise.nil
  | cons x xs ih =>
    unfold stdSort
    exact sortInsert_sorted lt key hlt x _ ih

theorem stdSort_of_sorted {α : Type} (lt : α → α → Bool) (key : α → Int)
    (hlt : ∀ a b, lt a b = decide (key a < key b)) :
    ∀ l : List α, l.Pairwise (fun a b => key a ≤ key b) → stdSort lt l = l := by
  intro l
  induction l with
  | nil => intro _; rfl
  | cons x xs ih =>
    intro h
    rw [List.pairwise_cons] at h
    unfold stdSort
    rw [ih h.2]
    cases xs with
    | nil => rfl
    | cons y ys =>
      unfold sortInsert
      have : lt y x = false := by
        rw [hlt]
        have := h.1 y (List.mem_cons_self _ _)
        simpa using this
      rw [this]
      simp

/-! ### The maximum of a cluster -/

theorem maxScoreOverlap_some (l : List OverlapRange) (b : OverlapRange) :
    ∃ m, maxScoreOverlap l (some b) = some m := by
  induction l generalizing b with
  | nil => exact ⟨b, rfl⟩
  | cons x xs ih =>
    unfold maxScoreOverlap
    split_ifs
    · exact ih x
    · exact ih b

theorem maxScoreOverlap_ne_nil (l : List OverlapRange) (h : l ≠ []) :
    ∃ m, maxScoreOverlap l none = some m := by
  cases l with
  | nil => exact absurd rfl h
  | cons x xs =>
    unfold maxScoreOverlap
    exact maxScoreOverlap_some xs x

theorem maxScoreOverlap_max :
    ∀ (l : List OverlapRange) (init : Option OverlapRange) (m : OverlapRange),
      maxScoreOverlap l init = some m →
      (∀ x ∈ l, x.score ≤ m.score) ∧ (∀ b, init = some b → b.score ≤ m.score) := by
  intro l
  induction l with
  | nil =>
    intro init m h
    unfold maxScoreOverlap at h
    exact ⟨fun x hx => by simp at hx, fun b hb => by rw [hb] at h; simp at h; rw [h]⟩
  | cons x xs ih =>
    intro init m h
    cases init with
    | none =>
      unfold maxScoreOverlap at h
      have := ih _ _ h
      refine ⟨fun y hy => ?_, fun b hb => by simp at hb⟩
      rcases List.mem_cons.mp hy with hy1 | hy1
      · rw [hy1]; exact this.2 x rfl
      · exact this.1 y hy1
    | some b =>
      unfold maxScoreOverlap at h
      split_ifs at h with hs
      · have := ih _ _ h
        refine ⟨fun y hy => ?_, fun c hc => ?_⟩
        · rcases List.mem_cons.mp hy with hy1 | hy1
          · rw [hy1]; exact this.2 x rfl
          · exact this.1 y hy1
        · simp only [Option.some.injEq] at hc
          rw [← hc]
          exact le_trans (le_of_lt hs) (this.2 x rfl)
      · have := ih _ _ h
        refine ⟨fun y hy => ?_, fun c hc => ?_⟩
        · rcases List.mem_cons.mp hy with hy1 | hy1
          · rw [hy1]; exact le_trans (not_lt.mp hs) (this.2 b rfl)
          · exact this.1 y hy1
        · simp only [Option.some.injEq] at hc
          rw [← hc]
          exact this.2 b rfl

/-! ### The disjoint sets of `filterOverlaps` -/

theorem length_unionSet (sets : List Nat) (i j : Nat) :
    (unionSet sets i j).length = sets.length := by
  unfold unionSet
  exact List.length_map _ _

theorem findSet_of_lt (sets : List Nat) (a : Nat) (h : a < sets.length) :
    findSet sets a = sets[a] := by
  unfold findSet
  rw [List.getD_eq_getElem _ _ h]

theorem findSet_unionSet (sets : List Nat) (i j a : Nat) (h : a < sets.length) :
    findSet (unionSet sets i j) a =
      if findSet sets a = findSet sets i then findSet sets j else findSet sets a := by
  have h2 : a < (unionSet sets i j).length := by rw [length_unionSet]; exact h
  rw [findSet_of_lt _ _ h2, findSet_of_lt _ _ h]
  unfold unionSet
  rw [List.getElem_map]

theorem unionSet_self (sets : List Nat) (i : Nat) : unionSet sets i i = sets := by
  unfold unionSet
  conv_rhs => rw [← List.map_id sets]
  apply List.map_congr_left
  intro r _
  split_ifs with h
  · rw [h]; rfl
  · rfl

theorem foldl_nested {σ : Type} (g : σ → Nat → Nat → σ) (ys : List Nat) :
    ∀ (xs : List Nat) (init : σ),
      xs.foldl (fun a i => ys.foldl (fun a j => g a i j) a) init =
        (xs.flatMap (fun i => ys.map (fun j => (i, j)))).foldl
          (fun a p => g a p.1 p.2) init := by
  intro xs
  induction xs with
  | nil => intro init; rfl
  | cons x rest ih =>
    intro init
    rw [List.foldl_cons, List.flatMap_cons, List.foldl_append, List.foldl_map, ih]

theorem mem_pairs (n i j : Nat) :
    (i, j) ∈ (List.range n).flatMap (fun i => (List.range n).map (fun j => (i, j))) ↔
      i < n ∧ j < n := by
  simp [List.mem_flatMap, List.mem_map]

theorem overlapSets_eq (overlaps : List OverlapRange) :
    overlapSets overlaps =
      ((List.range overlaps.length).flatMap
        (fun i => (List.range overlaps.length).map (fun j => (i, j)))).foldl
        (fun sets p =>
          if endsClose (overlapAt overlaps p.1) (overlapAt overlaps p.2) then
            unionSet sets p.1 p.2
          else sets) (List.range overlaps.length) := by
  unfold overlapSets
  exact foldl_nested (fun sets i j =>
    if endsClose (overlapAt overlaps i) (overlapAt overlaps j) then unionSet sets i j
    else sets) _ _ _

theorem foldl_union_length (R : Nat → Nat → Bool) :
    ∀ (ps : List (Nat × Nat)) (sets : List Nat),
      (ps.foldl (fun sets p => if R p.1 p.2 then unionSet sets p.1 p.2 else sets)
        sets).length = sets.length := by
  intro ps
  induction ps with
  | nil => intro sets; rfl
  | cons p rest ih =>
    intro sets
    rw [List.foldl_cons, ih]
    split_ifs
    · exact length_unionSet _ _ _
    · rfl

theorem foldl_union_same (R : Nat → Nat → Bool) :
    ∀ (ps : List (Nat × Nat)) (sets : List Nat) (a b : Nat),
      a < sets.length → b < sets.length → findSet sets a = findSet sets b →
      findSet (ps.foldl (fun sets p => if R p.1 p.2 then unionSet sets p.1 p.2 else sets)
        sets) a =
      findSet (ps.foldl (fun sets p => if R p.1 p.2 then unionSet sets p.1 p.2 else sets)
        sets) b := by
  intro ps
  induction ps with
  | nil => intro sets a b _ _ h; exact h
  | cons p rest ih =>
    intro sets a b ha hb h
    rw [List.foldl_cons]
    by_cases hR : R p.1 p.2 = true
    · rw [if_pos hR]
      apply ih
      · rw [length_unionSet]; exact ha
      · rw [length_unionSet]; exact hb
      · rw [findSet_unionSet _ _ _ _ ha, findSet_unionSet _ _ _ _ hb, h]
    · rw [if_neg hR]
      exact ih sets a b ha hb h

theorem foldl_union_complete (R : Nat → Nat → Bool) :
    ∀ (ps : List (Nat × Nat)) (sets : List Nat) (p : Nat × Nat),
      p ∈ ps → R p.1 p.2 = true → p.1 < sets.length → p.2 < sets.length →
      findSet (ps.foldl (fun sets p => if R p.1 p.2 then unionSet sets p.1 p.2 else sets)
        sets) p.1 =
      findSet (ps.foldl (fun sets p => if R p.1 p.2 then unionSet sets p.1 p.2 else sets)
        sets) p.2 := by
  intro ps
  induction ps with
  | nil => intro _ p hp; simp at hp
  | cons q rest ih =>
    intro sets p hp hR h1 h2
    rw [List.foldl_cons]
    rcases List.mem_cons.mp hp with hpq | hpq
    · subst hpq
      rw [if_pos hR]
      apply foldl_union_same
      · rw [length_unionSet]; exact h1
      · rw [length_unionSet]; exact h2
      · rw [findSet_unionSet _ _ _ _ h1, findSet_unionSet _ _ _ _ h2]
        simp
    · apply ih _ p hpq hR
      · split_ifs
        · rw [length_unionSet]; exact h1
        · exact h1
      · split_ifs
        · rw [length_unionSet]; exact h2
        · exact h2

theorem foldl_union_sound (R : Nat → Nat → Bool) (C : Nat → Nat → Prop)
    (hsymm : ∀ a b, C a b → C b a) (htrans : ∀ a b c, C a b → C b c → C a c) (n : Nat) :
    ∀ (ps : List (Nat × Nat)) (sets : List Nat), sets.length = n →
      (∀ p ∈ ps, p.1 < n ∧ p.2 < n ∧ (R p.1 p.2 = true → C p.1 p.2)) →
      (∀ a b, a < n → b < n → findSet sets a = findSet sets b → C a b) →
      ∀ a b, a < n → b < n →
        findSet (ps.foldl (fun sets p => if R p.1 p.2 then unionSet sets p.1 p.2 else sets)
          sets) a =
        findSet (ps.foldl (fun sets p => if R p.1 p.2 then unionSet sets p.1 p.2 else sets)
          sets) b → C a b := by
  intro ps
  induction ps with
  | nil => intro sets _ _ h; exact h
  | cons q rest ih =>
    intro sets hlen hps hinv
    rw [List.foldl_cons]
    have hq := hps q (List.mem_cons_self _ _)
    have hrest : ∀ p ∈ rest, p.1 < n ∧ p.2 < n ∧ (R p.1 p.2 = true → C p.1 p.2) :=
      fun p hp => hps p (List.mem_cons_of_mem _ hp)
    by_cases hR : R q.1 q.2 = true
    · rw [if_pos hR]
      apply ih _ (by rw [length_unionSet]; exact hlen) hrest
      intro a b ha hb hab
      rw [findSet_unionSet _ _ _ _ (hlen ▸ ha), findSet_unionSet _ _ _ _ (hlen ▸ hb)] at hab
      have hC := hq.2.2 hR
      by_cases h1 : findSet sets a = findSet sets q.1
      · by_cases h2 : findSet sets b = findSet sets q.1
        · exact hinv a b ha hb (h1.trans h2.symm)
        · rw [if_pos h1, if_neg h2] at hab
          exact htrans _ _ _ (htrans _ _ _ (hinv a q.1 ha hq.1 h1) hC)
            (hinv q.2 b hq.2.1 hb hab)
      · by_cases h2 : findSet sets b = findSet sets q.1
        · rw [if_neg h1, if_pos h2] at hab
          exact htrans _ _ _ (hinv a q.2 ha hq.2.1 hab)
            (htrans _ _ _ (hsymm _ _ hC) (hsymm _ _ (hinv b q.1 hb hq.1 h2)))
        · rw [if_neg h1, if_neg h2] at hab
          exact hinv a b ha hb hab
    · rw [if_neg hR]
      exact ih sets hlen hrest hinv

theorem length_overlapSets (overlaps : List OverlapRange) :
    (overlapSets overlaps).length = overlaps.length := by
  rw [overlapSets_eq, foldl_union_length (fun i j =>
    endsClose (overlapAt overlaps i) (overlapAt overlaps j))]
  exact List.length_range _

theorem findSet_range (n a : Nat) (h : a < n) : findSet (List.range n) a = a := by
  rw [findSet_of_lt _ _ (by rw [List.length_range]; exact h)]
  exact List.getElem_range _ _

theorem overlapAt_mem (overlaps : List OverlapRange) (i : Nat) (h : i < overlaps.length) :
    overlapAt overlaps i ∈ overlaps := by
  unfold overlapAt
  rw [List.getD_eq_getElem _ _ h]
  exact List.getElem_mem _

theorem exists_overlapAt (overlaps : List OverlapRange) (p : OverlapRange)
    (h : p ∈ overlaps) : ∃ i, i < overlaps.length ∧ overlapAt overlaps i = p := by
  obtain ⟨i, hi, hp⟩ := List.getElem_of_mem h
  refine ⟨i, hi, ?_⟩
  unfold overlapAt
  rw [List.getD_eq_getElem _ _ hi]
  exact hp

theorem endsClose_iff (p q : OverlapRange) :
    endsClose p q = true ↔
      p.extId = q.extId ∧ p.curRange - p.curIntersect q < 100 ∧
        p.extRange - p.extIntersect q < 100 := by
  unfold endsClose MAX_ENDS_DIFF
  by_cases h : p.extId = q.extId
  · simp [h]
  · simp [h]

theorem endsClose_self (p : OverlapRange) : endsClose p p = true := by
  rw [endsClose_iff]
  refine ⟨rfl, ?_, ?_⟩
  · unfold OverlapRange.curIntersect OverlapRange.curRange
    simp only [min_self, max_self]
    rcases le_total 0 (p.curEnd - p.curBegin) with h | h
    · rw [max_eq_right h]; omega
    · rw [max_eq_left h]; omega
  · unfold OverlapRange.extIntersect OverlapRange.extRange
    simp only [min_self, max_self]
    rcases le_total 0 (p.extEnd - p.extBegin) with h | h
    · rw [max_eq_right h]; omega
    · rw [max_eq_left h]; omega

theorem nearlyCoincide_iff (p q : OverlapRange) :
    NearlyCoincide p q ↔ endsClose p q = true ∨ endsClose q p = true := by
  unfold NearlyCoincide
  rw [endsClose_iff, endsClose_iff]
  constructor
  · rintro ⟨h, h1 | h1⟩
    · exact Or.inl ⟨h, h1⟩
    · exact Or.inr ⟨h.symm, h1⟩
  · rintro (h | h)
    · exact ⟨h.1, Or.inl h.2⟩
    · exact ⟨h.1.symm, Or.inr h.2⟩

theorem SameCluster_extId (overlaps : List OverlapRange) (p q : OverlapRange)
    (h : SameCluster overlaps p q) : p.extId = q.extId := by
  induction h with
  | rel a b hab => exact hab.2.2.1
  | refl a => rfl
  | symm a b _ ih => exact ih.symm
  | trans a b c _ _ ih1 ih2 => exact ih1.trans ih2

theorem overlapSets_complete (overlaps : List OverlapRange) (i j : Nat)
    (hi : i < overlaps.length) (hj : j < overlaps.length)
    (h : endsClose (overlapAt overlaps i) (overlapAt overlaps j) = true) :
    findSet (overlapSets overlaps) i = findSet (overlapSets overlaps) j := by
  rw [overlapSets_eq]
  exact foldl_union_complete (fun i j => endsClose (overlapAt overlaps i) (overlapAt overlaps j))
    _ _ (i, j) ((mem_pairs _ _ _).mpr ⟨hi, hj⟩) h
    (by rw [List.length_range]; exact hi) (by rw [List.length_range]; exact hj)

theorem overlapSets_sound (overlaps : List OverlapRange) (i j : Nat)
    (hi : i < overlaps.length) (hj : j < overlaps.length)
    (h : findSet (overlapSets overlaps) i = findSet (overlapSets overlaps) j) :
    SameCluster overlaps (overlapAt overlaps i) (overlapAt overlaps j) := by
  rw [overlapSets_eq] at h
  refine foldl_union_sound
    (fun i j => endsClose (overlapAt overlaps i) (overlapAt overlaps j))
    (fun a b => SameCluster overlaps (overlapAt overlaps a) (overlapAt overlaps b))
    (fun a b hab => Relation.EqvGen.symm _ _ hab)
    (fun a b c hab hbc => Relation.EqvGen.trans _ _ _ hab hbc)
    overlaps.length _ _ (List.length_range _) ?_ ?_ i j hi hj h
  · intro p hp
    obtain ⟨p1, p2⟩ := p
    have hlt := (mem_pairs _ _ _).mp hp
    refine ⟨hlt.1, hlt.2, fun hR => ?_⟩
    exact Relation.EqvGen.rel _ _ ⟨overlapAt_mem _ _ hlt.1, overlapAt_mem _ _ hlt.2,
      (nearlyCoincide_iff _ _).mpr (Or.inl hR)⟩
  · intro a b ha hb hab
    rw [findSet_range _ _ ha, findSet_range _ _ hb] at hab
    rw [hab]
    exact Relation.EqvGen.refl _

theorem sameCluster_findSet_aux (overlaps : List OverlapRange) (p q : OverlapRange)
    (h : SameCluster overlaps p q) :
    p = q ∨ (p ∈ overlaps ∧ q ∈ overlaps ∧
      ∀ a b, a < overlaps.length → b < overlaps.length →
        overlapAt overlaps a = p → overlapAt overlaps b = q →
        findSet (overlapSets overlaps) a = findSet (overlapSets overlaps) b) := by
  have hself : ∀ a b, a < overlaps.length → b < overlaps.length →
      overlapAt overlaps a = overlapAt overlaps b →
      findSet (overlapSets overlaps) a = findSet (overlapSets overlaps) b := by
    intro a b ha hb hab
    apply overlapSets_complete overlaps a b ha hb
    rw [hab]
    exact endsClose_self _
  induction h with
  | rel x y hxy =>
    right
    refine ⟨hxy.1, hxy.2.1, fun a b ha hb hax hby => ?_⟩
    rcases (nearlyCoincide_iff _ _).mp hxy.2.2 with h1 | h1
    · exact overlapSets_complete overlaps a b ha hb (by rw [hax, hby]; exact h1)
    · exact (overlapSets_complete overlaps b a hb ha (by rw [hax, hby]; exact h1)).symm
  | refl x => left; rfl
  | symm x y _ ih =>
    rcases ih with h1 | h1
    · left; exact h1.symm
    · right
      exact ⟨h1.2.1, h1.1, fun a b ha hb hax hby => (h1.2.2 b a hb ha hby hax).symm⟩
  | trans x y z _ _ ih1 ih2 =>
    rcases ih1 with h1 | h1
    · rw [h1]; exact ih2
    · rcases ih2 with h2 | h2
      · rw [← h2]; exact Or.inr h1
      · right
        refine ⟨h1.1, h2.2.1, fun a b ha hb hax hbz => ?_⟩
        obtain ⟨c, hc, hcy⟩ := exists_overlapAt overlaps y h1.2.1
        exact (h1.2.2 a c ha hc hax hcy).trans (h2.2.2 c b hc hb hcy hbz)

theorem sameCluster_findSet (overlaps : List OverlapRange) (i j : Nat)
    (hi : i < overlaps.length) (hj : j < overlaps.length)
    (h : SameCluster overlaps (overlapAt overlaps i) (overlapAt overlaps j)) :
    findSet (overlapSets overlaps) i = findSet (overlapSets overlaps) j := by
  rcases sameCluster_findSet_aux overlaps _ _ h with h1 | h1
  · apply overlapSets_complete overlaps i j hi hj
    rw [h1]
    exact endsClose_self _
  · exact h1.2.2 i j hi hj rfl rfl

/-! ### The clusters of `filterOverlaps` -/

theorem clusterPush_map (k : Nat) (x : OverlapRange) (f : Nat → List OverlapRange) :
    ∀ ks : List Nat, ks.Nodup → (k ∉ ks → f k = []) →
      clusterPush k x (ks.map (fun k1 => (k1, f k1))) =
        (if k ∈ ks then ks else ks ++ [k]).map
          (fun k1 => (k1, if k1 = k then f k ++ [x] else f k1)) := by
  intro ks
  induction ks with
  | nil =>
    intro _ hk
    simp [clusterPush, hk]
  | cons k1 rest ih =>
    intro hnd hk
    rw [List.nodup_cons] at hnd
    by_cases h : k1 = k
    · subst h
      simp only [List.map_cons, clusterPush, if_true, List.mem_cons, true_or]
      congr 1
      apply List.map_congr_left
      intro k2 hk2
      have : k2 ≠ k1 := fun h2 => hnd.1 (h2 ▸ hk2)
      simp [this]
    · have hk1 : ¬ (k = k1) := fun h2 => h h2.symm
      have hrest := ih hnd.2 (fun hn => hk (fun hm => by
        rcases List.mem_cons.mp hm with h2 | h2
        · exact hk1 h2
        · exact hn h2))
      simp only [List.map_cons, clusterPush, if_neg h, List.mem_cons, hk1, false_or]
      rw [hrest]
      by_cases hm : k ∈ rest
      · simp [hm, h]
      · simp [hm, h]

theorem pushAll_spec :
    ∀ (tagged : List (Nat × OverlapRange)) (ks : List Nat) (f : Nat → List OverlapRange),
      ks.Nodup → (∀ k, k ∉ ks → f k = []) →
      ∃ (ks2 : List Nat) (f2 : Nat → List OverlapRange),
        tagged.foldl (fun acc t => clusterPush t.1 t.2 acc) (ks.map (fun k => (k, f k))) =
          ks2.map (fun k => (k, f2 k)) ∧
        ks2.Nodup ∧ (∀ k, k ∉ ks2 → f2 k = []) ∧
        (∀ k, k ∈ ks2 ↔ k ∈ ks ∨ ∃ y, (k, y) ∈ tagged) ∧
        (∀ k y, y ∈ f2 k ↔ y ∈ f k ∨ (k, y) ∈ tagged) := by
  intro tagged
  induction tagged with
  | nil =>
    intro ks f hnd hf
    exact ⟨ks, f, rfl, hnd, hf, by simp, by simp⟩
  | cons t rest ih =>
    intro ks f hnd hf
    obtain ⟨k, x⟩ := t
    rw [List.foldl_cons, clusterPush_map k x f ks hnd (hf k)]
    have hnd1 : (if k ∈ ks then ks else ks ++ [k]).Nodup := by
      split_ifs with hk
      · exact hnd
      · exact List.Nodup.append hnd (List.nodup_singleton k) (by simpa using hk)
    have hmem1 : ∀ k1, k1 ∈ (if k ∈ ks then ks else ks ++ [k]) ↔ k1 ∈ ks ∨ k1 = k := by
      intro k1
      split_ifs with hk
      · constructor
        · intro h; exact Or.inl h
        · rintro (h | h)
          · exact h
          · rw [h]; exact hk
      · simp
    have hf1 : ∀ k1, k1 ∉ (if k ∈ ks then ks else ks ++ [k]) →
        (if k1 = k then f k ++ [x] else f k1) = [] := by
      intro k1 hk1
      rw [hmem1] at hk1
      push_neg at hk1
      rw [if_neg hk1.2]
      exact hf k1 hk1.1
    obtain ⟨ks2, f2, hfold, hnd2, hf2, hks2, hmem2⟩ :=
      ih (if k ∈ ks then ks else ks ++ [k]) (fun k1 => if k1 = k then f k ++ [x] else f k1)
        hnd1 hf1
    refine ⟨ks2, f2, hfold, hnd2, hf2, ?_, ?_⟩
    · intro k1
      rw [hks2, hmem1]
      constructor
      · rintro ((h | h) | ⟨y, hy⟩)
        · exact Or.inl h
        · exact Or.inr ⟨x, by rw [h]; exact List.mem_cons_self _ _⟩
        · exact Or.inr ⟨y, List.mem_cons_of_mem _ hy⟩
      · rintro (h | ⟨y, hy⟩)
        · exact Or.inl (Or.inl h)
        · rcases List.mem_cons.mp hy with h1 | h1
          · simp only [Prod.mk.injEq] at h1
            exact Or.inl (Or.inr h1.1)
          · exact Or.inr ⟨y, h1⟩
    · intro k1 y
      rw [hmem2]
      by_cases hk1 : k1 = k
      · subst hk1
        simp only [if_true, List.mem_append, List.mem_singleton, List.mem_cons, Prod.mk.injEq,
          true_and]
        tauto
      · simp only [if_neg hk1, List.mem_cons, Prod.mk.injEq, hk1, false_and, false_or,
          if_false]

theorem fillClusters_spec (sets : List Nat) (overlaps : List OverlapRange) :
    ∃ (ks : List Nat) (f : Nat → List OverlapRange),
      fillClusters sets overlaps = ks.map (fun k => (k, f k)) ∧ ks.Nodup ∧
      (∀ k, k ∈ ks ↔ ∃ i, i < overlaps.length ∧ findSet sets i = k) ∧
      (∀ k y, y ∈ f k ↔
        ∃ i, i < overlaps.length ∧ findSet sets i = k ∧ overlapAt overlaps i = y) := by
  obtain ⟨ks, f, hfold, hnd, _, hks, hmem⟩ := pushAll_spec
    ((List.range overlaps.length).map (fun i => (findSet sets i, overlapAt overlaps i)))
    [] (fun _ => []) List.nodup_nil (fun _ _ => rfl)
  refine ⟨ks, f, ?_, hnd, ?_, ?_⟩
  · unfold fillClusters
    rw [List.foldl_map] at hfold
    exact hfold
  · intro k
    rw [hks]
    simp only [List.not_mem_nil, false_or, List.mem_map, List.mem_range, Prod.mk.injEq]
    constructor
    · rintro ⟨y, i, hi, h1, _⟩
      exact ⟨i, hi, h1⟩
    · rintro ⟨i, hi, h1⟩
      exact ⟨overlapAt overlaps i, i, hi, h1, rfl⟩
  · intro k y
    rw [hmem]
    simp only [List.not_mem_nil, false_or, List.mem_map, List.mem_range, Prod.mk.injEq]

theorem clusterPush_new (k : Nat) (x : OverlapRange) :
    ∀ acc : List (Nat × List OverlapRange), k ∉ acc.map Prod.fst →
      clusterPush k x acc = acc ++ [(k, [x])] := by
  intro acc
  induction acc with
  | nil => intro _; rfl
  | cons kv rest ih =>
    intro h
    obtain ⟨k1, v1⟩ := kv
    simp only [List.map_cons, List.mem_cons, not_or] at h
    unfold clusterPush
    rw [if_neg (fun h2 => h.1 h2.symm), ih h.2]
    rfl

theorem fillClusters_range_aux (n : Nat) (overlaps : List OverlapRange) :
    ∀ m, m ≤ n →
      (List.range m).foldl (fun clusters i =>
        clusterPush (findSet (List.range n) i) (overlapAt overlaps i) clusters) [] =
      (List.range m).map (fun i => (i, [overlapAt overlaps i])) := by
  intro m
  induction m with
  | zero => intro _; rfl
  | succ k ih =>
    intro hk
    rw [List.range_succ, List.foldl_append, ih (by omega), List.map_append]
    simp only [List.foldl_cons, List.foldl_nil, List.map_cons, List.map_nil]
    rw [findSet_range n k (by omega)]
    apply clusterPush_new
    simp [List.map_map]

theorem map_overlapAt_range (overlaps : List OverlapRange) :
    (List.range overlaps.length).map (overlapAt overlaps) = overlaps := by
  apply List.ext_getElem
  · simp
  · intro i h1 h2
    simp only [List.getElem_map, List.getElem_range]
    unfold overlapAt
    rw [List.getD_eq_getElem _ _ h2]

theorem clusterReps_spec (overlaps : List OverlapRange) :
    ∃ (ks : List Nat) (f : Nat → List OverlapRange),
      (clustersOf overlaps).filterMap (fun c => maxScoreOverlap c none) =
        ks.filterMap (fun k => maxScoreOverlap (f k) none) ∧
      ks.Nodup ∧
      (∀ k, k ∈ ks ↔ ∃ i, i < overlaps.length ∧ findSet (overlapSets overlaps) i = k) ∧
      (∀ k y, y ∈ f k ↔ ∃ i, i < overlaps.length ∧
        findSet (overlapSets overlaps) i = k ∧ overlapAt overlaps i = y) := by
  obtain ⟨ks, f, hfill, hnd, hks, hmem⟩ := fillClusters_spec (overlapSets overlaps) overlaps
  refine ⟨ks, f, ?_, hnd, hks, hmem⟩
  unfold clustersOf
  rw [hfill, List.map_map, List.filterMap_map]
  rfl

theorem filterList_perm (order : ClusterOrder) (overlaps : List OverlapRange) :
    (filterList order overlaps).Perm
      ((clustersOf overlaps).filterMap (fun c => maxScoreOverlap c none)) := by
  unfold filterList
  exact (stdSort_perm _ _).trans ((order.iter_perm _).filterMap _)

theorem filterList_sorted (order : ClusterOrder) (overlaps : List OverlapRange) :
    (filterList order overlaps).Pairwise (fun a b => a.curBegin ≤ b.curBegin) := by
  unfold filterList
  exact stdSort_sorted _ (fun o : OverlapRange => o.curBegin) (fun _ _ => rfl) _

theorem filterList_mem (order : ClusterOrder) (overlaps : List OverlapRange)
    (q : OverlapRange) (hq : q ∈ filterList order overlaps) :
    ∃ i, i < overlaps.length ∧ overlapAt overlaps i = q ∧
      ∀ j, j < overlaps.length →
        findSet (overlapSets overlaps) j = findSet (overlapSets overlaps) i →
        (overlapAt overlaps j).score ≤ q.score := by
  obtain ⟨ks, f, hreps, _, _, hmem⟩ := clusterReps_spec overlaps
  have hq1 := (filterList_perm order overlaps).mem_iff.mp hq
  rw [hreps, List.mem_filterMap] at hq1
  obtain ⟨k, _, hmax⟩ := hq1
  have hqf : q ∈ f k := by
    rcases maxScoreOverlap_mem _ _ _ hmax with h | h
    · exact h
    · simp at h
  obtain ⟨i, hi, hik, hiq⟩ := (hmem k q).mp hqf
  refine ⟨i, hi, hiq, fun j hj hji => ?_⟩
  have : overlapAt overlaps j ∈ f k := (hmem k _).mpr ⟨j, hj, hji.trans hik, rfl⟩
  exact (maxScoreOverlap_max _ _ _ hmax).1 _ this

theorem filterList_covers (order : ClusterOrder) (overlaps : List OverlapRange)
    (j : Nat) (hj : j < overlaps.length) :
    ∃ q ∈ filterList order overlaps, ∃ i, i < overlaps.length ∧ overlapAt overlaps i = q ∧
      findSet (overlapSets overlaps) i = findSet (overlapSets overlaps) j ∧
      (overlapAt overlaps j).score ≤ q.score := by
  obtain ⟨ks, f, hreps, _, hks, hmem⟩ := clusterReps_spec overlaps
  have hk : findSet (overlapSets overlaps) j ∈ ks := (hks _).mpr ⟨j, hj, rfl⟩
  have hjf : overlapAt overlaps j ∈ f (findSet (overlapSets overlaps) j) :=
    (hmem _ _).mpr ⟨j, hj, rfl, rfl⟩
  obtain ⟨q, hmax⟩ := maxScoreOverlap_ne_nil (f (findSet (overlapSets overlaps) j))
    (List.ne_nil_of_mem hjf)
  have hqf : q ∈ f (findSet (overlapSets overlaps) j) := by
    rcases maxScoreOverlap_mem _ _ _ hmax with h | h
    · exact h
    · simp at h
  obtain ⟨i, hi, hik, hiq⟩ := (hmem _ q).mp hqf
  refine ⟨q, ?_, i, hi, hiq, hik, (maxScoreOverlap_max _ _ _ hmax).1 _ hjf⟩
  apply (filterList_perm order overlaps).mem_iff.mpr
  rw [hreps, List.mem_filterMap]
  exact ⟨_, hk, hmax⟩

theorem filterList_separated (order : ClusterOrder) (overlaps : List OverlapRange) :
    (filterList order overlaps).Pairwise (fun a b => ¬ SameCluster overlaps a b) := by
  obtain ⟨ks, f, hreps, hnd, _, hmem⟩ := clusterReps_spec overlaps
  have hsymm : ∀ {a b : OverlapRange},
      ¬ SameCluster overlaps a b → ¬ SameCluster overlaps b a :=
    fun h h2 => h (Relation.EqvGen.symm _ _ h2)
  rw [(filterList_perm order overlaps).pairwise_iff hsymm, hreps, List.pairwise_filterMap]
  refine List.Pairwise.imp ?_ hnd
  intro k1 k2 hne q1 hq1 q2 hq2 hsame
  have hq1f : q1 ∈ f k1 := by
    rcases maxScoreOverlap_mem _ _ _ (Option.mem_def.mp hq1) with h | h
    · exact h
    · simp at h
  have hq2f : q2 ∈ f k2 := by
    rcases maxScoreOverlap_mem _ _ _ (Option.mem_def.mp hq2) with h | h
    · exact h
    · simp at h
  obtain ⟨i1, hi1, hk1, ho1⟩ := (hmem k1 q1).mp hq1f
  obtain ⟨i2, hi2, hk2, ho2⟩ := (hmem k2 q2).mp hq2f
  rw [← ho1, ← ho2] at hsame
  have := sameCluster_findSet overlaps i1 i2 hi1 hi2 hsame
  rw [hk1, hk2] at this
  exact hne this

theorem filterList_subset (order : ClusterOrder) (overlaps : List OverlapRange)
    (q : OverlapRange) (hq : q ∈ filterList order overlaps) : q ∈ overlaps := by
  obtain ⟨i, hi, hiq, _⟩ := filterList_mem order overlaps q hq
  rw [← hiq]
  exact overlapAt_mem overlaps i hi

theorem filterOverlaps_index (g : List OverlapRange → List OverlapRange) :
    ∀ (ids : List Int) (m : Int → Option (List OverlapRange)) (x : Int),
      ids.foldl (fun m seqId =>
        fun x => if x = seqId then some (g (indexGet m seqId)) else m x) m x =
      if x ∈ ids then some (g^[ids.count x] (indexGet m x)) else m x := by
  intro ids
  induction ids with
  | nil => intro m x; simp
  | cons id rest ih =>
    intro m x
    rw [List.foldl_cons, ih]
    by_cases hx : x = id
    · subst hx
      by_cases hr : x ∈ rest
      · simp [hr, indexGet, Function.iterate_succ_apply]
      · simp [hr, indexGet, List.count_eq_zero_of_not_mem hr]
    · have hne : ¬ (id = x) := fun h => hx h.symm
      by_cases hr : x ∈ rest
      · simp [hr, hx, indexGet, List.count_cons, hne]
      · simp [hr, hx]

/-- Claim C10.  For every list of overlaps of a read and every iteration
order of the clusters, the output of `filterOverlaps` is sorted by ascending
`curBegin` and holds exactly one overlap per cluster, the clusters being the
connected components of `NearlyCoincide`: no two output overlaps are in the
same cluster, each output overlap is an element of the input whose score is
the maximum of its cluster, and every input overlap has an output overlap of
its cluster, hence with the same `extId`, with a score at least as large.
For a read that `iterSeqs` yields once, this output is the new entry of the
overlap index. -/
theorem filterOverlaps_one_per_cluster (order : ClusterOrder)
    (overlaps : List OverlapRange) :
    (filterList order overlaps).Pairwise (fun a b => a.curBegin ≤ b.curBegin) ∧
    (filterList order overlaps).Pairwise (fun a b => ¬ SameCluster overlaps a b) ∧
    (∀ q ∈ filterList order overlaps, q ∈ overlaps ∧
      ∀ p ∈ overlaps, SameCluster overlaps p q → p.score ≤ q.score) ∧
    (∀ p ∈ overlaps, ∃ q ∈ filterList order overlaps,
      SameCluster overlaps p q ∧ q.extId = p.extId ∧ p.score ≤ q.score) ∧
    (∀ (c : OverlapContainer) (x : Int), c.seqIds.count x = 1 →
      (filterOverlaps order c).overlapIndex x =
        some (filterList order (indexGet c.overlapIndex x))) := by
  refine ⟨filterList_sorted order overlaps, filterList_separated order overlaps,
    fun q hq => ⟨filterList_subset order overlaps q hq, fun p hp hpq => ?_⟩,
    fun p hp => ?_, fun c x hx => ?_⟩
  · obtain ⟨i, hi, hiq, hmax⟩ := filterList_mem order overlaps q hq
    obtain ⟨j, hj, hjp⟩ := exists_overlapAt overlaps p hp
    rw [← hjp]
    apply hmax j hj
    apply sameCluster_findSet overlaps j i hj hi
    rw [hjp, hiq]
    exact hpq
  · obtain ⟨j, hj, hjp⟩ := exists_overlapAt overlaps p hp
    obtain ⟨q, hq, i, hi, hiq, hroot, hscore⟩ := filterList_covers order overlaps j hj
    have hsame : SameCluster overlaps p q := by
      rw [← hjp, ← hiq]
      exact overlapSets_sound overlaps j i hj hi hroot.symm
    refine ⟨q, hq, hsame, (SameCluster_extId overlaps p q hsame).symm, ?_⟩
    rw [← hjp]
    exact hscore
  · unfold filterOverlaps
    simp only []
    rw [filterOverlaps_index (filterList order) c.seqIds c.overlapIndex x]
    have hmem : x ∈ c.seqIds := List.count_pos_iff.mp (by omega)
    rw [if_pos hmem, hx]
    rfl

/-! ### `filterOverlaps` is idempotent -/

theorem filterList_independent (order : ClusterOrder) (overlaps : List OverlapRange) :
    Independent (filterList order overlaps) := by
  unfold Independent
  refine List.Pairwise.imp_of_mem ?_ (filterList_separated order overlaps)
  intro a b ha hb hab
  have ha1 := filterList_subset order overlaps a ha
  have hb1 := filterList_subset order overlaps b hb
  constructor
  · by_contra h
    rw [Bool.not_eq_false] at h
    exact hab (Relation.EqvGen.rel _ _ ⟨ha1, hb1, (nearlyCoincide_iff a b).mpr (Or.inl h)⟩)
  · by_contra h
    rw [Bool.not_eq_false] at h
    exact hab (Relation.EqvGen.rel _ _ ⟨ha1, hb1, (nearlyCoincide_iff a b).mpr (Or.inr h)⟩)

theorem Independent_perm (l1 l2 : List OverlapRange) (h : l1.Perm l2)
    (hl : Independent l2) : Independent l1 := by
  unfold Independent at hl ⊢
  exact (h.pairwise_iff (fun {a b} hab => ⟨hab.2, hab.1⟩)).mpr hl

theorem foldl_fixed {σ α : Type} (st : σ → α → σ) :
    ∀ (l : List α) (s : σ), (∀ a ∈ l, ∀ s, st s a = s) → l.foldl st s = s := by
  intro l
  induction l with
  | nil => intro s _; rfl
  | cons a rest ih =>
    intro s h
    rw [List.foldl_cons, h a (List.mem_cons_self _ _)]
    exact ih s (fun b hb => h b (List.mem_cons_of_mem _ hb))

theorem Independent_at (l : List OverlapRange) (h : Independent l) (i j : Nat)
    (hi : i < l.length) (hj : j < l.length) (hij : i ≠ j) :
    endsClose (overlapAt l i) (overlapAt l j) = false := by
  unfold Independent at h
  rw [List.pairwise_iff_getElem] at h
  unfold overlapAt
  rw [List.getD_eq_getElem _ _ hi, List.getD_eq_getElem _ _ hj]
  rcases Nat.lt_or_gt_of_ne hij with hlt | hlt
  · exact (h i j hi hj hlt).1
  · exact (h j i hj hi hlt).2

theorem overlapSets_independent (l : List OverlapRange) (h : Independent l) :
    overlapSets l = List.range l.length := by
  rw [overlapSets_eq]
  apply foldl_fixed
  intro p hp sets
  obtain ⟨i, j⟩ := p
  have hlt := (mem_pairs _ _ _).mp hp
  by_cases hij : i = j
  · subst hij
    simp only [unionSet_self, ite_self]
  · simp only [Independent_at l h i j hlt.1 hlt.2 hij]
    rfl

theorem clustersOf_independent (l : List OverlapRange) (h : Independent l) :
    clustersOf l = l.map (fun o => [o]) := by
  unfold clustersOf fillClusters
  rw [overlapSets_independent l h, fillClusters_range_aux l.length l l.length (le_refl _),
    List.map_map]
  conv_rhs => rw [← map_overlapAt_range l]
  rw [List.map_map]
  rfl

theorem filterMap_singletons (l : List OverlapRange) :
    (l.map (fun o => [o])).filterMap (fun c => maxScoreOverlap c none) = l := by
  induction l with
  | nil => rfl
  | cons x xs ih =>
    rw [List.map_cons, List.filterMap_cons]
    simp only [maxScoreOverlap]
    rw [ih]

theorem filterList_independent_perm (order : ClusterOrder) (l : List OverlapRange)
    (h : Independent l) : (filterList order l).Perm l := by
  have := filterList_perm order l
  rw [clustersOf_independent l h, filterMap_singletons] at this
  exact this

theorem iterate_independent (order : ClusterOrder) (l : List OverlapRange) :
    ∀ n : Nat, 0 < n → Independent ((filterList order)^[n] l) := by
  intro n hn
  cases n with
  | zero => exact absurd hn (Nat.lt_irrefl 0)
  | succ k =>
    rw [Function.iterate_succ_apply']
    exact filterList_independent order _

theorem iterate_perm (order : ClusterOrder) :
    ∀ (n : Nat) (y : List OverlapRange), Independent y →
      ((filterList order)^[n] y).Perm y := by
  intro n
  induction n with
  | zero => intro y _; exact List.Perm.refl _
  | succ k ih =>
    intro y hy
    rw [Function.iterate_succ_apply]
    have h1 := filterList_independent_perm order y hy
    exact (ih _ (Independent_perm _ _ h1 hy)).trans h1

theorem filterOverlaps_get (order : ClusterOrder) (c : OverlapContainer) (x : Int) :
    (filterOverlaps order c).overlapIndex x =
      if x ∈ c.seqIds then
        some ((filterList order)^[c.seqIds.count x] (indexGet c.overlapIndex x))
      else c.overlapIndex x :=
  filterOverlaps_index (filterList order) c.seqIds c.overlapIndex x

theorem filterOverlaps_twice_perm (order1 order2 : ClusterOrder) (c : OverlapContainer)
    (x : Int) :
    (indexGet (filterOverlaps order2 (filterOverlaps order1 c)).overlapIndex x).Perm
      (indexGet (filterOverlaps order1 c).overlapIndex x) := by
  unfold indexGet
  rw [filterOverlaps_get order2 (filterOverlaps order1 c) x]
  have hids : (filterOverlaps order1 c).seqIds = c.seqIds := rfl
  rw [hids]
  by_cases hx : x ∈ c.seqIds
  · rw [if_pos hx]
    unfold indexGet
    rw [filterOverlaps_get order1 c x, if_pos hx]
    simp only [Option.getD_some]
    exact iterate_perm order2 _ _
      (iterate_independent order1 _ _ (List.count_pos_iff.mpr hx))
  · rw [if_neg hx]

theorem sorted_perm_curBegin (l1 l2 : List OverlapRange) (hp : l1.Perm l2)
    (h1 : l1.Pairwise (fun a b => a.curBegin ≤ b.curBegin))
    (h2 : l2.Pairwise (fun a b => a.curBegin ≤ b.curBegin)) :
    l1.map (fun o => o.curBegin) = l2.map (fun o => o.curBegin) := by
  have s1 : List.Sorted (fun a b : Int => a ≤ b) (l1.map (fun o => o.curBegin)) :=
    List.pairwise_map.mpr h1
  have s2 : List.Sorted (fun a b : Int => a ≤ b) (l2.map (fun o => o.curBegin)) :=
    List.pairwise_map.mpr h2
  exact List.eq_of_perm_of_sorted (hp.map _) s1 s2

theorem sorted_perm_eq (l1 l2 : List OverlapRange) (hp : l1.Perm l2)
    (h1 : l1.Pairwise (fun a b => a.curBegin ≤ b.curBegin))
    (h2 : l2.Pairwise (fun a b => a.curBegin ≤ b.curBegin))
    (hnd : (l2.map (fun o => o.curBegin)).Nodup) : l1 = l2 := by
  have hmap := sorted_perm_curBegin l1 l2 hp h1 h2
  have strict : ∀ l : List OverlapRange, l.Pairwise (fun a b => a.curBegin ≤ b.curBegin) →
      (l.map (fun o => o.curBegin)).Nodup →
      l.Pairwise (fun a b => a.curBegin < b.curBegin) := by
    intro l hs hn
    rw [List.Nodup, List.pairwise_map] at hn
    exact (hs.and hn).imp (fun h => lt_of_le_of_ne h.1 h.2)
  haveI : IsAntisymm OverlapRange (fun a b => a.curBegin < b.curBegin) :=
    ⟨fun a b hab hba => absurd hab (not_lt.mpr (le_of_lt hba))⟩
  exact List.eq_of_perm_of_sorted hp (strict l1 h1 (by rw [hmap]; exact hnd))
    (strict l2 h2 hnd)

theorem iterate_sorted (order : ClusterOrder) (l : List OverlapRange) :
    ∀ n : Nat, 0 < n →
      ((filterList order)^[n] l).Pairwise (fun a b => a.curBegin ≤ b.curBegin) := by
  intro n hn
  cases n with
  | zero => exact absurd hn (Nat.lt_irrefl 0)
  | succ k =>
    rw [Function.iterate_succ_apply']
    exact filterList_sorted order _

theorem filterOverlaps_twice_sorted (order1 order2 : ClusterOrder) (c : OverlapContainer)
    (x : Int) (hx : x ∈ c.seqIds) :
    (indexGet (filterOverlaps order1 c).overlapIndex x).Pairwise
      (fun a b => a.curBegin ≤ b.curBegin) ∧
    (indexGet (filterOverlaps order2 (filterOverlaps order1 c)).overlapIndex x).Pairwise
      (fun a b => a.curBegin ≤ b.curBegin) := by
  have hpos : 0 < c.seqIds.count x := List.count_pos_iff.mpr hx
  have hids : (filterOverlaps order1 c).seqIds = c.seqIds := rfl
  constructor
  · unfold indexGet
    rw [filterOverlaps_get order1 c x, if_pos hx]
    exact iterate_sorted order1 _ _ hpos
  · unfold indexGet
    rw [filterOverlaps_get order2 (filterOverlaps order1 c) x, hids, if_pos hx]
    exact iterate_sorted order2 _ _ hpos

theorem index_eq_of_indexGet (m1 m2 : Int → Option (List OverlapRange)) (x : Int)
    (h1 : (m1 x).isSome = true) (h2 : (m2 x).isSome = true)
    (h : indexGet m2 x = indexGet m1 x) : m2 x = m1 x := by
  unfold indexGet at h
  cases ha : m1 x with
  | none => rw [ha] at h1; simp at h1
  | some a =>
    cases hb : m2 x with
    | none => rw [hb] at h2; simp at h2
    | some b =>
      rw [ha, hb] at h
      simp only [Option.getD_some] at h
      rw [h]

theorem filterOverlaps_twice_untouched (order1 order2 : ClusterOrder) (c : OverlapContainer)
    (x : Int) (hx : x ∉ c.seqIds) :
    (filterOverlaps order2 (filterOverlaps order1 c)).overlapIndex x =
      (filterOverlaps order1 c).overlapIndex x := by
  have hids : (filterOverlaps order1 c).seqIds = c.seqIds := rfl
  rw [filterOverlaps_get order2 (filterOverlaps order1 c) x, hids, if_neg hx]

/-- Claim C9, counterexample.  Read 1 has two overlaps that begin at the same
position and are not clustered together.  When the hash map yields the cluster
inserted last first, one pass of `filterOverlaps` leaves the list
`[tiedOverlapB, tiedOverlapA]` and a second pass the list
`[tiedOverlapA, tiedOverlapB]`: the per-read lists after two passes and after
one pass differ. -/
theorem filterOverlaps_twice_reorders :
    clustersOf [tiedOverlapA, tiedOverlapB] = [[tiedOverlapA], [tiedOverlapB]] ∧
    indexGet (filterOverlaps reversedOrder tiedContainer).overlapIndex 1 =
      [tiedOverlapB, tiedOverlapA] ∧
    indexGet (filterOverlaps reversedOrder
      (filterOverlaps reversedOrder tiedContainer)).overlapIndex 1 =
      [tiedOverlapA, tiedOverlapB] := by
  decide

/-- Claim C9, amended.  `filterOverlaps` is idempotent up to the order of the
overlaps with equal `curBegin`.  For every overlap index and whatever the
iteration order of the clusters in either pass, the list of every read after
two passes is a rearrangement of its list after one pass with the same
`curBegin` at every position, the lists of a processed read are sorted by
`curBegin`, and the two lists are equal when no two overlaps of the list
share their `curBegin`; the list of a read that is not processed is the same.
This holds for every sorted arrangement that the sort may leave: if `out1` is
a sorted arrangement of the survivors of a pass over `overlaps` and `out2` a
sorted arrangement of the survivors of a pass over `out1`, then `out2` is a
rearrangement of `out1` with the same `curBegin` at every position, equal to
`out1` when no two of its overlaps share their `curBegin`.  No two survivors
of a pass are clustered together by another pass: every survivor is a cluster
of its own. -/
theorem filterOverlaps_idempotent_up_to_ties (c : OverlapContainer) :
    (∀ (order1 order2 : ClusterOrder) (x : Int),
      (indexGet (filterOverlaps order2 (filterOverlaps order1 c)).overlapIndex x).Perm
        (indexGet (filterOverlaps order1 c).overlapIndex x) ∧
      (indexGet (filterOverlaps order2 (filterOverlaps order1 c)).overlapIndex x).map
          (fun o => o.curBegin) =
        (indexGet (filterOverlaps order1 c).overlapIndex x).map (fun o => o.curBegin) ∧
      (((indexGet (filterOverlaps order1 c).overlapIndex x).map
          (fun o => o.curBegin)).Nodup →
        (filterOverlaps order2 (filterOverlaps order1 c)).overlapIndex x =
          (filterOverlaps order1 c).overlapIndex x) ∧
      (x ∈ c.seqIds →
        (indexGet (filterOverlaps order1 c).overlapIndex x).Pairwise
          (fun a b => a.curBegin ≤ b.curBegin) ∧
        (indexGet (filterOverlaps order2 (filterOverlaps order1 c)).overlapIndex x).Pairwise
          (fun a b => a.curBegin ≤ b.curBegin)) ∧
      (x ∉ c.seqIds →
        (filterOverlaps order2 (filterOverlaps order1 c)).overlapIndex x =
          (filterOverlaps order1 c).overlapIndex x)) ∧
    (∀ (order1 order2 : ClusterOrder) (overlaps out1 out2 : List OverlapRange),
      out1.Perm (filterList order1 overlaps) →
      out1.Pairwise (fun a b => a.curBegin ≤ b.curBegin) →
      out2.Perm (filterList order2 out1) →
      out2.Pairwise (fun a b => a.curBegin ≤ b.curBegin) →
      out2.Perm out1 ∧
      out2.map (fun o => o.curBegin) = out1.map (fun o => o.curBegin) ∧
      ((out1.map (fun o => o.curBegin)).Nodup → out2 = out1)) ∧
    (∀ (order1 : ClusterOrder) (overlaps : List OverlapRange),
      clustersOf (filterList order1 overlaps) =
        (filterList order1 overlaps).map (fun o => [o])) := by
  refine ⟨fun order1 order2 x => ?_, fun order1 order2 overlaps out1 out2 h1 hs1 h2 hs2 => ?_,
    fun order1 overlaps =>
      clustersOf_independent _ (filterList_independent order1 overlaps)⟩
  · have hperm := filterOverlaps_twice_perm order1 order2 c x
    by_cases hx : x ∈ c.seqIds
    · have hsorted := filterOverlaps_twice_sorted order1 order2 c x hx
      have hids : (filterOverlaps order1 c).seqIds = c.seqIds := rfl
      refine ⟨hperm, sorted_perm_curBegin _ _ hperm hsorted.2 hsorted.1, fun hnd => ?_,
        fun _ => hsorted, fun hnot => absurd hx hnot⟩
      apply index_eq_of_indexGet _ _ x
      · rw [filterOverlaps_get order1 c x, if_pos hx]
        rfl
      · rw [filterOverlaps_get order2 (filterOverlaps order1 c) x, hids, if_pos hx]
        rfl
      · exact sorted_perm_eq _ _ hperm hsorted.2 hsorted.1 hnd
    · have heq := filterOverlaps_twice_untouched order1 order2 c x hx
      refine ⟨hperm, by unfold indexGet; rw [heq], fun _ => heq, fun hin => absurd hin hx,
        fun _ => heq⟩
  · have hind : Independent out1 :=
      Independent_perm _ _ h1 (filterList_independent order1 overlaps)
    have hperm : out2.Perm out1 := h2.trans (filterList_independent_perm order2 out1 hind)
    exact ⟨hperm, sorted_perm_curBegin _ _ hperm hs2 hs1,
      fun hnd => sorted_perm_eq _ _ hperm hs2 hs1 hnd⟩

/-! ### The flag of `overlapTest` -/

/-- Counterexample to C20 as stated: `shortSelfOverlap` has `curId == rc(extId)`
and is shorter than `minOverlap`, and `overlapTest` leaves the flag `false`. -/
theorem overlapTest_flag_left_unset :
    shortSelfOverlap.curId = rc shortSelfOverlap.extId ∧
    overlapTest exampleDetector shortSelfOverlap false = (false, false) := by
  decide

/-- Claim C20, amended.  When `overlapTest` is applied to an overlap with
`curId == rc(extId)` that passes the range check and the divergence check, the
flag `outSuggestChimeric` is `true` afterwards, whatever the verdict of the
overhang check; when one of these two checks fails, the flag is left as it
was; and `overlapTest` never changes the flag from `true` to `false`. -/
theorem overlapTest_flag (d : OverlapDetector) (ovlp : OverlapRange) (flag : Bool) :
    (ovlp.curId = rc ovlp.extId → d.minOverlap ≤ ovlp.curRange →
      d.minOverlap ≤ ovlp.extRange →
      d.lengthDiverges |ovlp.curRange - ovlp.extRange| (ovlp.curRange + ovlp.extRange) = false →
      (overlapTest d ovlp flag).2 = true) ∧
    ((ovlp.curRange < d.minOverlap ∨ ovlp.extRange < d.minOverlap ∨
        d.lengthDiverges |ovlp.curRange - ovlp.extRange| (ovlp.curRange + ovlp.extRange) = true) →
      overlapTest d ovlp flag = (false, flag)) ∧
    (flag = true → (overlapTest d ovlp flag).2 = true) := by
  refine ⟨fun hrc h1 h2 h3 => ?_, fun h => ?_, fun hf => ?_⟩
  · unfold overlapTest
    have hn : ¬ (ovlp.curRange < d.minOverlap ∨ ovlp.extRange < d.minOverlap) := by
      push_neg; exact ⟨h1, h2⟩
    rw [if_neg hn, h3]
    simp only [hrc, if_true, Bool.false_eq_true, if_false]
    split_ifs <;> rfl
  · unfold overlapTest
    by_cases hn : ovlp.curRange < d.minOverlap ∨ ovlp.extRange < d.minOverlap
    · rw [if_pos hn]
    · rw [if_neg hn]
      rcases h with h | h | h
      · exact absurd (Or.inl h) hn
      · exact absurd (Or.inr h) hn
      · rw [h]; simp
  · subst hf
    unfold overlapTest
    simp only [ite_self]
    split_ifs <;> rfl

/-! ### What the detector emits -/

theorem overlapTest_verdict_flag (d : OverlapDetector) (o : OverlapRange) (f1 f2 : Bool) :
    (overlapTest d o f1).1 = (overlapTest d o f2).1 := by
  unfold overlapTest
  split_ifs <;> rfl

theorem backtrackLoop_fst (d : OverlapDetector) (recId curLen extLen : Int)
    (ms : List KmerMatch) (st : List Int) :
    ∀ (c : Nat) (bt : List Int) (f1 f2 : Bool) (acc : List OverlapRange),
      (backtrackLoop d recId curLen extLen ms st c bt f1 acc).map Prod.fst =
        (backtrackLoop d recId curLen extLen ms st c bt f2 acc).map Prod.fst := by
  intro c
  induction c with
  | zero => intro bt f1 f2 acc; rfl
  | succ n ih =>
    intro bt f1 f2 acc
    unfold backtrackLoop
    cases hw : walkChain d ms (n + 2) ((n + 1 : Nat) : Int)
        { firstMatch := matchAt ms (n + 1), shifts := [], kmerMatches := [],
          chainLength := 0, totalMatch := d.kmerSize, backtrackTable := bt } with
    | none => rfl
    | some w =>
      simp only []
      by_cases hm : d.matchAbove w.totalMatch
          (chainOverlap d recId curLen extLen ms st (n + 1) w).curRange = true
      · simp only [hm, if_true]
        rw [overlapTest_verdict_flag d _ f1 f2]
        split_ifs
        · exact ih _ _ _ _
        · exact ih _ _ _ _
      · simp only [hm]
        exact ih _ _ _ _

theorem targetChains_fst (d : OverlapDetector) (fastaRec : FastaRecord) (flag : Bool)
    (seqVec : Int × List KmerMatch) (r : List OverlapRange × Bool)
    (h : targetChains d fastaRec flag seqVec = some r) :
    r.1 = acceptedChains d fastaRec seqVec := by
  have h1 := backtrackLoop_fst d fastaRec.id fastaRec.seqLength (d.seqLen seqVec.1) seqVec.2
    (chainTables d seqVec.2).scoreTable (seqVec.2.length - 1)
    (chainTables d seqVec.2).backtrackTable flag false []
  unfold acceptedChains
  unfold targetChains at h ⊢
  simp only [] at h ⊢
  rw [h] at h1
  cases h2 : backtrackLoop d fastaRec.id fastaRec.seqLength (d.seqLen seqVec.1) seqVec.2
      (chainTables d seqVec.2).scoreTable (seqVec.2.length - 1)
      (chainTables d seqVec.2).backtrackTable false [] with
  | none => rw [h2] at h1; simp at h1
  | some r2 =>
    rw [h2] at h1
    simp only [Option.map_some', Option.some.injEq] at h1
    exact h1

theorem backtrackLoop_emitted (d : OverlapDetector) (recId curLen extLen : Int)
    (ms : List KmerMatch) (st : List Int) :
    ∀ (c : Nat) (bt : List Int) (flag : Bool) (acc : List OverlapRange)
      (res : List OverlapRange × Bool),
      backtrackLoop d recId curLen extLen ms st c bt flag acc = some res →
      ∀ o ∈ res.1, o ∈ acc ∨
        ∃ (chainStart : Nat) (w : ChainWalk) (f : Bool),
          1 ≤ chainStart ∧ chainStart ≤ c ∧
          o = chainOverlap d recId curLen extLen ms st chainStart w ∧
          d.matchAbove w.totalMatch o.curRange = true ∧ (overlapTest d o f).1 = true := by
  intro c
  induction c with
  | zero =>
    intro bt flag acc res h o ho
    unfold backtrackLoop at h
    simp only [Option.some.injEq] at h
    rw [← h] at ho
    exact Or.inl ho
  | succ n ih =>
    intro bt flag acc res h o ho
    unfold backtrackLoop at h
    cases hw : walkChain d ms (n + 2) ((n + 1 : Nat) : Int)
        { firstMatch := matchAt ms (n + 1), shifts := [], kmerMatches := [],
          chainLength := 0, totalMatch := d.kmerSize, backtrackTable := bt } with
    | none => rw [hw] at h; simp at h
    | some w =>
      rw [hw] at h
      simp only [] at h
      have hlift : ∀ acc2 : List OverlapRange, (o ∈ acc2 ∨
          ∃ (chainStart : Nat) (w : ChainWalk) (f : Bool),
            1 ≤ chainStart ∧ chainStart ≤ n ∧
            o = chainOverlap d recId curLen extLen ms st chainStart w ∧
            d.matchAbove w.totalMatch o.curRange = true ∧ (overlapTest d o f).1 = true) →
          (∀ x ∈ acc2, x ∈ acc ∨
            (x = chainOverlap d recId curLen extLen ms st (n + 1) w ∧
              d.matchAbove w.totalMatch x.curRange = true ∧
              (overlapTest d x flag).1 = true)) →
          o ∈ acc ∨
          ∃ (chainStart : Nat) (w : ChainWalk) (f : Bool),
            1 ≤ chainStart ∧ chainStart ≤ n + 1 ∧
            o = chainOverlap d recId curLen extLen ms st chainStart w ∧
            d.matchAbove w.totalMatch o.curRange = true ∧ (overlapTest d o f).1 = true := by
        intro acc2 h1 h2
        rcases h1 with h1 | ⟨cs, w1, f, hc1, hc2, h3⟩
        · rcases h2 o h1 with h4 | h4
          · exact Or.inl h4
          · exact Or.inr ⟨n + 1, w, flag, by omega, le_refl _, h4⟩
        · exact Or.inr ⟨cs, w1, f, hc1, by omega, h3⟩
      by_cases hm : d.matchAbove w.totalMatch
          (chainOverlap d recId curLen extLen ms st (n + 1) w).curRange = true
      · rw [if_pos hm] at h
        by_cases ht : (overlapTest d (chainOverlap d recId curLen extLen ms st (n + 1) w)
            flag).1 = true
        · rw [if_pos ht] at h
          apply hlift _ (ih _ _ _ _ h o ho)
          intro x hx
          rcases List.mem_append.mp hx with hx1 | hx1
          · exact Or.inl hx1
          · rw [List.mem_singleton] at hx1
            rw [hx1]
            exact Or.inr ⟨rfl, hm, ht⟩
        · rw [if_neg ht] at h
          exact hlift _ (ih _ _ _ _ h o ho) (fun x hx => Or.inl hx)
      · rw [if_neg hm] at h
        exact hlift _ (ih _ _ _ _ h o ho) (fun x hx => Or.inl hx)

theorem acceptedChains_emitted (d : OverlapDetector) (fastaRec : FastaRecord)
    (seqVec : Int × List KmerMatch) (o : OverlapRange)
    (ho : o ∈ acceptedChains d fastaRec seqVec) :
    ∃ (chainStart : Nat) (w : ChainWalk) (f : Bool),
      1 ≤ chainStart ∧ chainStart ≤ seqVec.2.length - 1 ∧
      o = chainOverlap d fastaRec.id fastaRec.seqLength (d.seqLen seqVec.1) seqVec.2
        (chainTables d seqVec.2).scoreTable chainStart w ∧
      d.matchAbove w.totalMatch o.curRange = true ∧ (overlapTest d o f).1 = true := by
  unfold acceptedChains at ho
  cases h : targetChains d fastaRec false seqVec with
  | none => rw [h] at ho; simp at ho
  | some r =>
    rw [h] at ho
    simp only [] at ho
    unfold targetChains at h
    rcases backtrackLoop_emitted d _ _ _ _ _ _ _ _ _ r h o ho with h1 | h1
    · simp at h1
    · exact h1

theorem targetLoop_emitted (d : OverlapDetector) (fastaRec : FastaRecord) (u : Bool) :
    ∀ (tbl : List (Int × List KmerMatch)) (acc : List OverlapRange) (flag : Bool)
      (res : List OverlapRange × Bool),
      targetLoop d fastaRec u tbl acc flag = some res →
      ∀ o ∈ res.1, o ∈ acc ∨
        ∃ seqVec ∈ tbl,
          preFilterRejects d fastaRec.seqLength (d.seqLen seqVec.1) seqVec.2 = false ∧
          o ∈ selectOverlaps d u (acceptedChains d fastaRec seqVec) := by
  intro tbl
  induction tbl with
  | nil =>
    intro acc flag res h o ho
    unfold targetLoop at h
    simp only [Option.some.injEq] at h
    rw [← h] at ho
    exact Or.inl ho
  | cons x xs ih =>
    intro acc flag res h o ho
    unfold targetLoop at h
    by_cases hp : preFilterRejects d fastaRec.seqLength (d.seqLen x.1) x.2 = true
    · rw [if_pos hp] at h
      rcases ih _ _ _ h o ho with h1 | ⟨kv, hkv, h2⟩
      · exact Or.inl h1
      · exact Or.inr ⟨kv, List.mem_cons_of_mem _ hkv, h2⟩
    · rw [if_neg hp] at h
      cases hc : targetChains d fastaRec flag x with
      | none => rw [hc] at h; simp at h
      | some r =>
        rw [hc] at h
        simp only [] at h
        rw [targetChains_fst d fastaRec flag x r hc] at h
        have hnew : o ∈ acc ++ selectOverlaps d u (acceptedChains d fastaRec x) →
            o ∈ acc ∨ ∃ seqVec ∈ x :: xs,
              preFilterRejects d fastaRec.seqLength (d.seqLen seqVec.1) seqVec.2 = false ∧
              o ∈ selectOverlaps d u (acceptedChains d fastaRec seqVec) := by
          intro hm
          rcases List.mem_append.mp hm with h1 | h1
          · exact Or.inl h1
          · exact Or.inr ⟨x, List.mem_cons_self _ _, by simpa using hp, h1⟩
        split_ifs at h with h3
        · simp only [Option.some.injEq] at h
          rw [← h] at ho
          exact hnew ho
        · rcases ih _ _ _ h o ho with h1 | ⟨kv, hkv, h2⟩
          · exact hnew h1
          · exact Or.inr ⟨kv, List.mem_cons_of_mem _ hkv, h2⟩

theorem getSeqOverlaps_eq (d : OverlapDetector) (fastaRec : FastaRecord) (u : Bool) :
    getSeqOverlaps d fastaRec u =
      targetLoop d fastaRec u (d.iterTable (seqMatchesOf d fastaRec)) [] false := rfl

theorem getSeqOverlaps_emitted (d : OverlapDetector) (fastaRec : FastaRecord) (u : Bool)
    (res : List OverlapRange × Bool) (h : getSeqOverlaps d fastaRec u = some res)
    (o : OverlapRange) (ho : o ∈ res.1) :
    ∃ seqVec ∈ seqMatchesOf d fastaRec,
      preFilterRejects d fastaRec.seqLength (d.seqLen seqVec.1) seqVec.2 = false ∧
      o ∈ selectOverlaps d u (acceptedChains d fastaRec seqVec) := by
  rw [getSeqOverlaps_eq] at h
  rcases targetLoop_emitted d fastaRec u _ _ _ res h o ho with h1 | ⟨kv, hkv, h2⟩
  · simp at h1
  · exact ⟨kv, (d.iterTable_perm _).mem_iff.mp hkv, h2⟩

theorem getSeqOverlaps_total (d : OverlapDetector) (fastaRec : FastaRecord) (u : Bool) :
    ∃ res, getSeqOverlaps d fastaRec u = some res := by
  obtain ⟨res, h, _⟩ := targetLoop_spec d fastaRec u
    (d.iterTable (seqMatchesOf d fastaRec)) [] false (by simp)
  exact ⟨res, h⟩

/-! ### The divergence bound -/

theorem overlapTest_not_diverges (d : OverlapDetector) (o : OverlapRange) (flag : Bool)
    (h : (overlapTest d o flag).1 = true) :
    d.lengthDiverges |o.curRange - o.extRange| (o.curRange + o.extRange) = false := by
  unfold overlapTest at h
  by_cases h1 : o.curRange < d.minOverlap ∨ o.extRange < d.minOverlap
  · simp [h1] at h
  · rw [if_neg h1] at h
    by_cases h2 : d.lengthDiverges |o.curRange - o.extRange| (o.curRange + o.extRange) = true
    · simp [h2] at h
    · simpa using h2

/-- Claim C14.  Divergence bound, the comparison of `overlapTest` read as
exact rational arithmetic with the ceiling `D` for `OVLP_DIVERGENCE`: every
overlap that `overlapTest` accepts, hence every overlap that `getSeqOverlaps`
returns, satisfies `|curRange − extRange| ≤ D × (curRange + extRange) / 2`. -/
theorem overlapTest_divergence_bound (d : OverlapDetector) (D : ℚ)
    (hdiv : ∀ a b : Int, d.lengthDiverges a b = decide ((a : ℚ) > (b : ℚ) / 2 * D)) :
    (∀ (o : OverlapRange) (flag : Bool), (overlapTest d o flag).1 = true →
      ((|o.curRange - o.extRange| : Int) : ℚ) ≤
        D * ((o.curRange + o.extRange : Int) : ℚ) / 2) ∧
    (∀ (fastaRec : FastaRecord) (u : Bool),
      ∃ res, getSeqOverlaps d fastaRec u = some res ∧
        ∀ o ∈ res.1, ((|o.curRange - o.extRange| : Int) : ℚ) ≤
          D * ((o.curRange + o.extRange : Int) : ℚ) / 2) := by
  have hacc : ∀ (o : OverlapRange) (flag : Bool), (overlapTest d o flag).1 = true →
      ((|o.curRange - o.extRange| : Int) : ℚ) ≤
        D * ((o.curRange + o.extRange : Int) : ℚ) / 2 := by
    intro o flag h
    have h1 := overlapTest_not_diverges d o flag h
    rw [hdiv] at h1
    have h2 := of_decide_eq_false h1
    have h3 := not_lt.mp h2
    calc ((|o.curRange - o.extRange| : Int) : ℚ)
        ≤ ((o.curRange + o.extRange : Int) : ℚ) / 2 * D := h3
      _ = D * ((o.curRange + o.extRange : Int) : ℚ) / 2 := by ring
  refine ⟨hacc, fun fastaRec u => ?_⟩
  obtain ⟨res, hres⟩ := getSeqOverlaps_total d fastaRec u
  refine ⟨res, hres, fun o ho => ?_⟩
  obtain ⟨kv, _, _, hsel⟩ := getSeqOverlaps_emitted d fastaRec u res hres o ho
  obtain ⟨_, _, f, _, _, _, _, hf⟩ :=
    acceptedChains_emitted d fastaRec kv o (selectOverlaps_subset d u _ o hsel)
  exact hacc o f hf

/-- Witness of C14: `exampleDetector` compares with the ceiling 1/4, and it
accepts `overlap12`, whose two ranges are equal. -/
theorem overlapTest_divergence_bound_witness :
    (∀ a b : Int, exampleDetector.lengthDiverges a b =
      decide ((a : ℚ) > (b : ℚ) / 2 * (1 / 4))) ∧
    (overlapTest exampleDetector overlap12 false).1 = true ∧
    ((|overlap12.curRange - overlap12.extRange| : Int) : ℚ) ≤
      (1 / 4 : ℚ) * ((overlap12.curRange + overlap12.extRange : Int) : ℚ) / 2 := by
  have hdiv : ∀ a b : Int, exampleDetector.lengthDiverges a b =
      decide ((a : ℚ) > (b : ℚ) / 2 * (1 / 4)) := by
    intro a b
    show decide (b < 8 * a) = decide ((a : ℚ) > (b : ℚ) / 2 * (1 / 4))
    rw [decide_eq_decide]
    constructor
    · intro h
      have h1 : (b : ℚ) < 8 * (a : ℚ) := by exact_mod_cast h
      linarith
    · intro h
      have h1 : (b : ℚ) < 8 * (a : ℚ) := by linarith
      exact_mod_cast h1
  exact ⟨hdiv, by decide,
    (overlapTest_divergence_bound exampleDetector (1 / 4) hdiv).1 overlap12 false (by decide)⟩

/-! ### `countRightExtensions` and the candidate set -/

theorem setInsert_nodup (x : Int) (s : List Int) (h : s.Nodup) : (setInsert x s).Nodup := by
  unfold setInsert
  split_ifs with hx
  · exact h
  · exact List.Nodup.append h (List.nodup_singleton x) (by simpa using hx)

theorem extension_fold_nodup (e : Extender) :
    ∀ (l : List OverlapRange) (s : List Int), s.Nodup →
      (l.foldl (fun s ovlp =>
        if isProperRightExtension e ovlp then setInsert ovlp.extId s else s) s).Nodup := by
  intro l
  induction l with
  | nil => intro s h; exact h
  | cons o rest ih =>
    intro s h
    rw [List.foldl_cons]
    apply ih
    split_ifs
    · exact setInsert_nodup _ _ h
    · exact h

theorem extensionSet_nodup (e : Extender) (readId : Int) : (extensionSet e readId).Nodup :=
  extension_fold_nodup e _ [] List.nodup_nil

theorem extensionSet_length (e : Extender) (readId : Int) :
    (extensionSet e readId).length =
      (((e.overlapsOf readId).filter (isProperRightExtension e)).map
        (fun o => o.extId)).toFinset.card := by
  rw [← List.toFinset_card_of_nodup (extensionSet_nodup e readId)]
  congr 1
  ext x
  simp only [List.mem_toFinset, mem_extensionSet, List.mem_map, List.mem_filter]
  constructor
  · rintro ⟨o, ho, hp, hx⟩
    exact ⟨o, ⟨ho, hp⟩, hx⟩
  · rintro ⟨o, ⟨ho, hp⟩, hx⟩
    exact ⟨o, ho, hp, hx⟩

/-- Counterexample to C17 as stated: read 1 of `twoChainsExtender` has two
overlaps that are proper right extensions, both to read 2;
`countRightExtensions` is 2 and the candidate set has one element. -/
theorem countRightExtensions_counts_overlaps :
    countRightExtensions twoChainsExtender 1 = 2 ∧
    extensionSet twoChainsExtender 1 = [2] := by
  decide

/-- Claim C17, amended.  `countRightExtensions(readId)` is the number of
overlaps of `readId` that are proper right extensions; the candidate set `E`
of `stepRight` holds the distinct `extId`s of these overlaps, so its size is
at most `countRightExtensions(readId)`, and equal to it when no two of these
overlaps share an `extId`. -/
theorem countRightExtensions_counts (e : Extender) (readId : Int) :
    countRightExtensions e readId =
      (((e.overlapsOf readId).filter (isProperRightExtension e)).length : Int) ∧
    (extensionSet e readId).length =
      (((e.overlapsOf readId).filter (isProperRightExtension e)).map
        (fun o => o.extId)).toFinset.card ∧
    ((extensionSet e readId).length : Int) ≤ countRightExtensions e readId ∧
    ((((e.overlapsOf readId).filter (isProperRightExtension e)).map
        (fun o => o.extId)).Nodup →
      ((extensionSet e readId).length : Int) = countRightExtensions e readId) := by
  refine ⟨rfl, extensionSet_length e readId, ?_, fun hnd => ?_⟩
  · rw [extensionSet_length]
    unfold countRightExtensions
    have := List.toFinset_card_le (((e.overlapsOf readId).filter
      (isProperRightExtension e)).map (fun o => o.extId))
    rw [List.length_map] at this
    exact_mod_cast this
  · rw [extensionSet_length, List.toFinset_card_of_nodup hnd, List.length_map]
    rfl

/-! ### The start reads of `assembleContigs` -/

theorem countRightExtensions_nonneg (e : Extender) (readId : Int) :
    0 ≤ countRightExtensions e readId := by
  unfold countRightExtensions
  exact Int.natCast_nonneg _

theorem chooseStart_max (e : Extender) (visited : List Int) :
    ∀ (l : List Int) (maxExtension startRead : Int),
      (chooseStart e visited l maxExtension startRead = startRead ∧
        ∀ r ∈ l, r ∉ visited → e.isChimeric r = false →
          countRightExtensions e r ≤ maxExtension) ∨
      (chooseStart e visited l maxExtension startRead ∈ l ∧
        maxExtension <
          countRightExtensions e (chooseStart e visited l maxExtension startRead) ∧
        ∀ r ∈ l, r ∉ visited → e.isChimeric r = false →
          countRightExtensions e r ≤
            countRightExtensions e (chooseStart e visited l maxExtension startRead)) := by
  intro l
  induction l with
  | nil => intro _ _; left; exact ⟨rfl, fun r hr => by simp at hr⟩
  | cons x rest ih =>
    intro maxExtension startRead
    unfold chooseStart
    by_cases h1 : x ∈ visited ∨ e.isChimeric x = true
    · rw [if_pos h1]
      have hx : ∀ r, r = x → r ∉ visited → e.isChimeric r = false → False := by
        intro r hr hv hc
        rw [hr] at hv hc
        rcases h1 with h1 | h1
        · exact hv h1
        · rw [hc] at h1; exact Bool.noConfusion h1
      rcases ih maxExtension startRead with h | h
      · left
        refine ⟨h.1, fun r hr hv hc => ?_⟩
        rcases List.mem_cons.mp hr with hr1 | hr1
        · exact absurd (hx r hr1 hv hc) id
        · exact h.2 r hr1 hv hc
      · right
        refine ⟨List.mem_cons_of_mem _ h.1, h.2.1, fun r hr hv hc => ?_⟩
        rcases List.mem_cons.mp hr with hr1 | hr1
        · exact absurd (hx r hr1 hv hc) id
        · exact h.2.2 r hr1 hv hc
    · rw [if_neg h1]
      by_cases h2 : countRightExtensions e x > maxExtension
      · rw [if_pos h2]
        right
        rcases ih (countRightExtensions e x) x with h | h
        · rw [h.1]
          refine ⟨List.mem_cons_self _ _, h2, fun r hr hv hc => ?_⟩
          rcases List.mem_cons.mp hr with hr1 | hr1
          · rw [hr1]
          · exact h.2 r hr1 hv hc
        · refine ⟨List.mem_cons_of_mem _ h.1, lt_trans h2 h.2.1, fun r hr hv hc => ?_⟩
          rcases List.mem_cons.mp hr with hr1 | hr1
          · rw [hr1]; exact le_of_lt h.2.1
          · exact h.2.2 r hr1 hv hc
      · rw [if_neg h2]
        rcases ih maxExtension startRead with h | h
        · left
          refine ⟨h.1, fun r hr hv hc => ?_⟩
          rcases List.mem_cons.mp hr with hr1 | hr1
          · rw [hr1]; exact not_lt.mp h2
          · exact h.2 r hr1 hv hc
        · right
          refine ⟨List.mem_cons_of_mem _ h.1, h.2.1, fun r hr hv hc => ?_⟩
          rcases List.mem_cons.mp hr with hr1 | hr1
          · rw [hr1]; exact le_trans (not_lt.mp h2) (le_of_lt h.2.1)
          · exact h.2.2 r hr1 hv hc

theorem assembleLoop_starts (e : Extender) (fuel : Nat) :
    ∀ (n : Nat) (visited : List Int) (rounds res : List Round),
      assembleLoop e fuel n visited rounds = some res →
      (∀ r ∈ rounds,
        r.startRead = chooseStart e r.visitedAtStart (e.seqIndex.map Prod.fst) 0 e.ID_NONE ∧
        r.startRead ≠ e.ID_NONE) →
      ∀ r ∈ res,
        r.startRead = chooseStart e r.visitedAtStart (e.seqIndex.map Prod.fst) 0 e.ID_NONE ∧
        r.startRead ≠ e.ID_NONE := by
  intro n
  induction n with
  | zero => intro _ _ _ h; simp [assembleLoop] at h
  | succ m ih =>
    intro visited rounds res h hinv
    unfold assembleLoop at h
    simp only [] at h
    by_cases hs : chooseStart e visited (e.seqIndex.map Prod.fst) 0 e.ID_NONE = e.ID_NONE
    · rw [if_pos hs] at h
      simp only [Option.some.injEq] at h
      rw [← h]
      exact hinv
    · rw [if_neg hs] at h
      cases hx : extendRead e fuel visited
          (chooseStart e visited (e.seqIndex.map Prod.fst) 0 e.ID_NONE) with
      | none => rw [hx] at h; simp at h
      | some r =>
        rw [hx] at h
        simp only [] at h
        apply ih _ _ _ h
        intro q hq
        rcases List.mem_append.mp hq with hq1 | hq1
        · exact hinv q hq1
        · rw [List.mem_singleton] at hq1
          rw [hq1]
          exact ⟨rfl, hs⟩

/-- Counterexample to C16 as stated: `loneReadExtender` has the read 1, which
is not chimeric and has no right extension; `assembleContigs` returns without
a round, so read 1 is left unvisited. -/
theorem lone_read_left_over :
    assembleContigs loneReadExtender loneReadExtender.enoughFuel = some [] ∧
    (1 : Int) ∈ loneReadExtender.seqIndex.map Prod.fst ∧
    loneReadExtender.isChimeric 1 = false :=
  ⟨rfl, by decide, rfl⟩

/-- Claim C16, amended.  For a read store that does not hold `ID_NONE`,
`assembleContigs` returns, and in each round the contig is started from a read
of the store that is unvisited, non-chimeric and has at least one right
extension, with the largest `countRightExtensions` among the unvisited
non-chimeric reads; the procedure stops only when no unvisited non-chimeric
read has a right extension: when it returns, every read of the store is
visited, chimeric or without a proper right extension
(`countRightExtensions = 0`). -/
theorem assembleContigs_starts_while_extendable (e : Extender) (n : Nat)
    (hnone : e.ID_NONE ∉ e.seqIndex.map Prod.fst) :
    ∃ rounds visited, assembleContigs e (e.enoughFuel + n) = some rounds ∧
      Linked [] rounds visited ∧
      (∀ r ∈ rounds,
        r.startRead ∈ e.seqIndex.map Prod.fst ∧ r.startRead ∉ r.visitedAtStart ∧
        e.isChimeric r.startRead = false ∧ 0 < countRightExtensions e r.startRead ∧
        ∀ x ∈ e.seqIndex.map Prod.fst, x ∉ r.visitedAtStart → e.isChimeric x = false →
          countRightExtensions e x ≤ countRightExtensions e r.startRead) ∧
      (∀ x ∈ e.seqIndex.map Prod.fst,
        x ∈ visited ∨ e.isChimeric x = true ∨ countRightExtensions e x = 0) := by
  obtain ⟨rounds, visited, hrun, hinv, hstop⟩ := assembleContigs_spec e n
  have hstarts := assembleLoop_starts e _ _ [] [] rounds hrun (fun r hr => by simp at hr)
  refine ⟨rounds, visited, hrun, hinv.linked, fun r hr => ?_, fun x hx => ?_⟩
  · have hok := hinv.rounds_ok r hr
    refine ⟨hok.start_in_store, hok.start_unvisited, hok.start_not_chimeric,
      hok.start_extends, ?_⟩
    have hq := hstarts r hr
    rcases chooseStart_max e r.visitedAtStart (e.seqIndex.map Prod.fst) 0 e.ID_NONE
      with h | h
    · exact absurd (hq.1.trans h.1) hq.2
    · rw [← hq.1] at h
      exact h.2.2
  · rcases chooseStart_max e visited (e.seqIndex.map Prod.fst) 0 e.ID_NONE with h | h
    · by_cases hv : x ∈ visited
      · exact Or.inl hv
      · by_cases hc : e.isChimeric x = true
        · exact Or.inr (Or.inl hc)
        · right; right
          have h1 := h.2 x hx hv (by simpa using hc)
          have h2 := countRightExtensions_nonneg e x
          omega
    · rw [hstop] at h
      exact absurd h.1 hnone

/-- Witness of C16, amended: the store of `exampleExtender` does not hold
`ID_NONE`. -/
theorem assembleContigs_starts_while_extendable_witness :
    exampleExtender.ID_NONE ∉ exampleExtender.seqIndex.map Prod.fst ∧
    ∃ rounds visited,
      assembleContigs exampleExtender (exampleExtender.enoughFuel + 0) = some rounds ∧
      Linked [] rounds visited ∧
      (∀ r ∈ rounds,
        r.startRead ∈ exampleExtender.seqIndex.map Prod.fst ∧
        r.startRead ∉ r.visitedAtStart ∧
        exampleExtender.isChimeric r.startRead = false ∧
        0 < countRightExtensions exampleExtender r.startRead ∧
        ∀ x ∈ exampleExtender.seqIndex.map Prod.fst, x ∉ r.visitedAtStart →
          exampleExtender.isChimeric x = false →
          countRightExtensions exampleExtender x ≤
            countRightExtensions exampleExtender r.startRead) ∧
      (∀ x ∈ exampleExtender.seqIndex.map Prod.fst,
        x ∈ visited ∨ exampleExtender.isChimeric x = true ∨
          countRightExtensions exampleExtender x = 0) :=
  ⟨by decide, assembleContigs_starts_while_extendable exampleExtender 0 (by decide)⟩

/-! ### A dead end after one step -/

theorem stepRight_empty (e : Extender) (visited : List Int) (readId start : Int)
    (h : extensionSet e readId = []) : stepRight e visited readId start = e.ID_NONE := by
  unfold stepRight
  simp only [h]
  have : e.iterSet [] = [] := List.Perm.eq_nil (e.iterSet_perm [])
  rw [this]
  rfl

theorem rightSupport_dead (e : Extender) (extensions : List Int) (c : Int)
    (h : extensionSet e c = []) : rightSupport e extensions c = 0 := by
  unfold rightSupport
  have : (e.overlapsOf c).filter (fun ovlp =>
      decide (ovlp.extId ∈ extensions) && isProperRightExtension e ovlp) = [] := by
    rw [List.filter_eq_nil_iff]
    intro o ho hp
    simp only [Bool.and_eq_true] at hp
    have : o.extId ∈ extensionSet e c := (mem_extensionSet e c _).mpr ⟨o, ho, hp.2, rfl⟩
    rw [h] at this
    simp at this
  rw [this]
  rfl

theorem supportIndex_dead (e : Extender) (extensions : List Int) (c : Int)
    (h : extensionSet e c = []) : supportIndex e extensions c = 0 := by
  unfold supportIndex
  rw [rightSupport_dead e extensions c h]
  apply min_eq_right
  unfold leftSupport
  exact Int.natCast_nonneg _

/-- Counterexample to C15 as stated: in `selfOverlapExtender` read 1 has one
right-extension candidate, its reverse complement −1, which is unvisited,
different from read 1 and without a right extension of its own; `extendRead(1)`
marks 1 and −1 visited before the first step and returns the path `[1]`. -/
theorem self_overlap_path_of_one :
    extensionSet selfOverlapExtender 1 = [-1] ∧
    extensionSet selfOverlapExtender (-1) = [] ∧
    extendRead selfOverlapExtender selfOverlapExtender.enoughFuel [] 1 =
      some (⟨[1], false⟩, [-1, 1]) := by
  decide

/-- Claim C15, amended.  Dead-end linear path: for every overlap index and
read `A` (a read, not `ID_NONE`) such that `A` has at least one proper right
extension, all of `A`'s right-extension candidates are reads that are
unvisited and different from `A` and from `rc(A)`, and none of those
candidates has a proper-right-extension overlap of its own, `extendRead(A)`
returns a path of exactly two reads `[A, B]` with `B` one of `A`'s
right-extension candidates and `circular = false`: the first `stepRight`
returns `B` although its support is 0, the second returns `ID_NONE`. -/
theorem extendRead_dead_end (e : Extender) (visitedReads : List Int) (A : Int) (n : Nat)
    (hA : A ≠ e.ID_NONE) (hne : extensionSet e A ≠ [])
    (hfresh : ∀ c ∈ extensionSet e A,
      c ∉ visitedReads ∧ c ≠ A ∧ c ≠ rc A ∧ c ≠ e.ID_NONE)
    (hdead : ∀ c ∈ extensionSet e A, extensionSet e c = []) :
    ∃ B, B ∈ extensionSet e A ∧
      extendRead e (e.enoughFuel + n) visitedReads A =
        some (⟨[A, B], false⟩, -B :: B :: -A :: A :: visitedReads) ∧
      stepRight e (-A :: A :: visitedReads) A A = B ∧
      supportIndex e (extensionSet e A) B = 0 ∧
      stepRight e (-B :: B :: -A :: A :: visitedReads) B A = e.ID_NONE := by
  obtain ⟨c0, hc0⟩ := List.exists_mem_of_ne_nil _ hne
  have hAE : A ∉ extensionSet e A := fun h => (hfresh A h).2.1 rfl
  have hunv : ∀ c ∈ extensionSet e A, c ∉ -A :: A :: visitedReads := by
    intro c hc hm
    have := hfresh c hc
    simp only [List.mem_cons] at hm
    rcases hm with hm | hm | hm
    · exact this.2.2.1 hm
    · exact this.2.1 hm
    · exact this.1 hm
  have hB : stepRight e (-A :: A :: visitedReads) A A ∈ extensionSet e A ∧
      stepRight e (-A :: A :: visitedReads) A A ∉ -A :: A :: visitedReads := by
    rcases stepRight_cases e (-A :: A :: visitedReads) A A hAE with h | h
    · exact absurd (h.2 c0 hc0) (hunv c0 hc0)
    · exact ⟨h.1, h.2.1⟩
  generalize hBdef : stepRight e (-A :: A :: visitedReads) A A = B at hB
  have hBfresh := hfresh B hB.1
  have hlen : 1 ≤ e.extIds.length :=
    List.length_pos_of_mem (extensionSet_subset_extIds e A B hB.1)
  obtain ⟨m, hm⟩ : ∃ m, e.enoughFuel + n = m + 2 :=
    ⟨e.enoughFuel + n - 2, by unfold Extender.enoughFuel; omega⟩
  have hsecond := stepRight_empty e (-B :: B :: -A :: A :: visitedReads) B A (hdead B hB.1)
  refine ⟨B, hB.1, ?_, rfl, supportIndex_dead e _ B (hdead B hB.1), hsecond⟩
  rw [hm]
  unfold extendRead
  unfold extendLoop
  simp only [hBdef, if_neg hBfresh.2.1, if_neg hB.2, if_neg hBfresh.2.2.2]
  unfold extendLoop
  simp only [hsecond, if_neg (Ne.symm hA), ite_self, if_true, List.singleton_append]

/-- Witness of C15, amended: `extendRead(1)` in `exampleExtender` gives the
path `[1, 2]`. -/
theorem extendRead_dead_end_witness :
    (1 : Int) ≠ exampleExtender.ID_NONE ∧ extensionSet exampleExtender 1 ≠ [] ∧
    (∀ c ∈ extensionSet exampleExtender 1,
      c ∉ ([] : List Int) ∧ c ≠ 1 ∧ c ≠ rc 1 ∧ c ≠ exampleExtender.ID_NONE) ∧
    (∀ c ∈ extensionSet exampleExtender 1, extensionSet exampleExtender c = []) ∧
    ∃ B, B ∈ extensionSet exampleExtender 1 ∧
      extendRead exampleExtender (exampleExtender.enoughFuel + 0) [] 1 =
        some (⟨[1, B], false⟩, -B :: B :: -1 :: 1 :: []) ∧
      stepRight exampleExtender (-1 :: 1 :: []) 1 1 = B ∧
      supportIndex exampleExtender (extensionSet exampleExtender 1) B = 0 ∧
      stepRight exampleExtender (-B :: B :: -1 :: 1 :: []) B 1 = exampleExtender.ID_NONE :=
  ⟨by decide, by decide, by decide, by decide,
   extendRead_dead_end exampleExtender [] 1 0 (by decide) (by decide) (by decide)
    (by decide)⟩

/-! ### Contained chains are dropped -/

theorem partitionOverlaps_cons (d : OverlapDetector) (o : OverlapRange)
    (rest : List OverlapRange) (prim : List (OverlapRange × Nat)) (sec : List OverlapRange) :
    partitionOverlaps d (o :: rest) prim sec =
      partitionOverlaps d rest (partitionStep d o prim sec).1 (partitionStep d o prim sec).2 := by
  unfold partitionStep
  rw [partitionOverlaps]
  by_cases h1 : (scanPrimaries d o prim 0 none).1 = true
  · simp only [h1, if_true]
  · simp only [h1]
    cases (scanPrimaries d o prim 0 none).2 with
    | none => rfl
    | some idx =>
      by_cases h3 : ((prim.getD idx (o, 0)).2) < MAX_SECONDARY_OVLPS
      · simp only [h3, if_true]
        rfl
      · simp only [h3, if_false]
        rfl

theorem partitionOverlaps_append (d : OverlapDetector) :
    ∀ (l1 l2 : List OverlapRange) (prim : List (OverlapRange × Nat))
      (sec : List OverlapRange),
      partitionOverlaps d (l1 ++ l2) prim sec =
        partitionOverlaps d l2 (partitionOverlaps d l1 prim sec).1
          (partitionOverlaps d l1 prim sec).2 := by
  intro l1
  induction l1 with
  | nil => intro l2 prim sec; rfl
  | cons x xs ih =>
    intro l2 prim sec
    rw [List.cons_append, partitionOverlaps_cons, partitionOverlaps_cons, ih]

theorem partitionOverlaps_snoc (d : OverlapDetector) (pre : List OverlapRange)
    (x : OverlapRange) :
    partitionOverlaps d (pre ++ [x]) [] [] =
      partitionStep d x (partitionOverlaps d pre [] []).1 (partitionOverlaps d pre [] []).2 := by
  rw [partitionOverlaps_append, partitionOverlaps_cons]
  rfl

theorem scanPrimaries_contained (d : OverlapDetector) (o : OverlapRange) :
    ∀ (prim : List (OverlapRange × Nat)) (idx : Nat) (a : Option Nat),
      (scanPrimaries d o prim idx a).1 = true ↔
        ∃ p ∈ prim, o.extRange - o.extIntersect p.1 < d.kmerSize := by
  intro prim
  induction prim with
  | nil => intro idx a; simp [scanPrimaries]
  | cons p rest ih =>
    intro idx a
    unfold scanPrimaries
    simp only [min_self]
    by_cases h1 : o.extRange - o.extIntersect p.1 < d.kmerSize
    · rw [if_pos h1]
      simp only [true_iff]
      exact ⟨p, List.mem_cons_self _ _, h1⟩
    · rw [if_neg h1]
      have hrest : (∃ q ∈ p :: rest, o.extRange - o.extIntersect q.1 < d.kmerSize) ↔
          ∃ q ∈ rest, o.extRange - o.extIntersect q.1 < d.kmerSize := by
        constructor
        · rintro ⟨q, hq, hlt⟩
          rcases List.mem_cons.mp hq with hq1 | hq1
          · rw [hq1] at hlt; exact absurd hlt h1
          · exact ⟨q, hq1, hlt⟩
        · rintro ⟨q, hq, hlt⟩
          exact ⟨q, List.mem_cons_of_mem _ hq, hlt⟩
      rw [hrest]
      split_ifs
      · exact ih _ _
      · exact ih _ _

theorem partitionStep_mem (d : OverlapDetector) (x o : OverlapRange)
    (prim : List (OverlapRange × Nat)) (sec : List OverlapRange)
    (h : o ∈ (partitionStep d x prim sec).1.map Prod.fst ∨ o ∈ (partitionStep d x prim sec).2) :
    (o ∈ prim.map Prod.fst ∨ o ∈ sec) ∨
      (o = x ∧ ∀ p ∈ prim, d.kmerSize ≤ x.extRange - x.extIntersect p.1) := by
  unfold partitionStep at h
  by_cases h1 : (scanPrimaries d x prim 0 none).1 = true
  · simp only [h1, if_true] at h
    exact Or.inl h
  · have hfree : ∀ p ∈ prim, d.kmerSize ≤ x.extRange - x.extIntersect p.1 := by
      intro p hp
      by_contra hlt
      exact h1 ((scanPrimaries_contained d x prim 0 none).mpr ⟨p, hp, not_le.mp hlt⟩)
    simp only [h1] at h
    cases h2 : (scanPrimaries d x prim 0 none).2 with
    | none =>
      rw [h2] at h
      simp only [Bool.false_eq_true, if_false, List.map_append, List.map_cons, List.map_nil,
        List.mem_append, List.mem_singleton] at h
      rcases h with (h | h) | h
      · exact Or.inl (Or.inl h)
      · exact Or.inr ⟨h, hfree⟩
      · exact Or.inl (Or.inr h)
    | some idx =>
      rw [h2] at h
      simp only [Bool.false_eq_true, if_false] at h
      split_ifs at h with h3
      · rcases h with h | h
        · obtain ⟨p, hp, hpo⟩ := List.mem_map.mp h
          obtain ⟨q, hq, hqp⟩ := bumpPrimary_mem prim idx p hp
          left; left
          rw [← hpo, ← hqp]
          exact List.mem_map.mpr ⟨q, hq, rfl⟩
        · rcases List.mem_append.mp h with h4 | h4
          · exact Or.inl (Or.inr h4)
          · rw [List.mem_singleton] at h4
            exact Or.inr ⟨h4, hfree⟩
      · exact Or.inl h

theorem partitionOverlaps_emitted (d : OverlapDetector) :
    ∀ (l pre0 : List OverlapRange) (o : OverlapRange),
      (o ∈ (partitionOverlaps d l (partitionOverlaps d pre0 [] []).1
          (partitionOverlaps d pre0 [] []).2).1.map Prod.fst ∨
        o ∈ (partitionOverlaps d l (partitionOverlaps d pre0 [] []).1
          (partitionOverlaps d pre0 [] []).2).2) →
      (o ∈ (partitionOverlaps d pre0 [] []).1.map Prod.fst ∨
        o ∈ (partitionOverlaps d pre0 [] []).2) ∨
      ∃ pre post, l = pre ++ o :: post ∧
        ∀ p ∈ (partitionOverlaps d (pre0 ++ pre) [] []).1,
          d.kmerSize ≤ o.extRange - o.extIntersect p.1 := by
  intro l
  induction l with
  | nil =>
    intro pre0 o h
    exact Or.inl h
  | cons x rest ih =>
    intro pre0 o h
    rw [partitionOverlaps_cons, ← partitionOverlaps_snoc] at h
    rcases ih (pre0 ++ [x]) o h with h1 | ⟨pre, post, hl, hfree⟩
    · rw [partitionOverlaps_snoc] at h1
      rcases partitionStep_mem d x o _ _ h1 with h2 | h2
      · exact Or.inl h2
      · right
        refine ⟨[], rest, by rw [h2.1]; rfl, ?_⟩
        rw [List.append_nil, h2.1]
        exact h2.2
    · right
      refine ⟨x :: pre, post, by rw [hl]; rfl, ?_⟩
      rw [List.append_assoc] at hfree
      exact hfree

theorem selectOverlaps_false (d : OverlapDetector) (extOverlaps : List OverlapRange) :
    selectOverlaps d false extOverlaps =
      (partitionOverlaps d (stdSort scoreGreater extOverlaps) [] []).1.map Prod.fst ++
        (partitionOverlaps d (stdSort scoreGreater extOverlaps) [] []).2 := rfl

/-- Claim C12.  Contained chains are dropped (`uniqueExtensions = false`): for
one target, a chain `o` is emitted only at a place of the descending-score
order where every primary `p` selected before it has
`o.extRange() − o.extIntersect(p) ≥ kmerSize`.  In particular, when a target
has exactly two accepted chains, `chain1` with the strictly higher score and
`chain2` with `chain2.extRange() − chain2.extIntersect(chain1) < kmerSize`,
the overlaps emitted for that target are exactly `[chain1]`. -/
theorem selectOverlaps_drops_contained (d : OverlapDetector) :
    (∀ (extOverlaps : List OverlapRange) (o : OverlapRange),
      o ∈ selectOverlaps d false extOverlaps →
      ∃ pre post, stdSort scoreGreater extOverlaps = pre ++ o :: post ∧
        ∀ p ∈ (partitionOverlaps d pre [] []).1,
          d.kmerSize ≤ o.extRange - o.extIntersect p.1) ∧
    (∀ (chain1 chain2 : OverlapRange) (extOverlaps : List OverlapRange),
      (extOverlaps = [chain1, chain2] ∨ extOverlaps = [chain2, chain1]) →
      chain2.score < chain1.score →
      chain2.extRange - chain2.extIntersect chain1 < d.kmerSize →
      selectOverlaps d false extOverlaps = [chain1]) := by
  constructor
  · intro extOverlaps o ho
    rw [selectOverlaps_false, List.mem_append] at ho
    rcases partitionOverlaps_emitted d (stdSort scoreGreater extOverlaps) [] o ho with h | h
    · simp [partitionOverlaps] at h
    · simpa using h
  · intro chain1 chain2 extOverlaps hext hscore hcont
    have hsort : stdSort scoreGreater extOverlaps = [chain1, chain2] := by
      have h21 : scoreGreater chain2 chain1 = false := by
        unfold scoreGreater
        simp only [decide_eq_false_iff_not, not_lt, gt_iff_lt]
        omega
      have h12 : scoreGreater chain1 chain2 = true := by
        unfold scoreGreater
        simpa using hscore
      rcases hext with h | h
      · rw [h]
        simp [stdSort, sortInsert, h21]
      · rw [h]
        simp [stdSort, sortInsert, h12]
    rw [selectOverlaps_false, hsort, partitionOverlaps_cons, partitionOverlaps_cons]
    have hstep1 : partitionStep d chain1 [] [] = ([(chain1, 0)], []) := by
      simp [partitionStep, scanPrimaries]
    rw [hstep1]
    have hstep2 : partitionStep d chain2 [(chain1, 0)] [] = ([(chain1, 0)], []) := by
      have : (scanPrimaries d chain2 [(chain1, 0)] 0 none).1 = true :=
        (scanPrimaries_contained d chain2 _ 0 none).mpr
          ⟨(chain1, 0), List.mem_cons_self _ _, hcont⟩
      simp [partitionStep, this]
    simp only [hstep2]
    rfl

/-! ### The cap on secondary overlaps -/

theorem scanPrimaries_idx (d : OverlapDetector) (o : OverlapRange) :
    ∀ (prim : List (OverlapRange × Nat)) (idx : Nat) (a : Option Nat) (i : Nat),
      (scanPrimaries d o prim idx a).2 = some i →
      a = some i ∨ (idx ≤ i ∧ i < idx + prim.length) := by
  intro prim
  induction prim with
  | nil => intro idx a i h; left; simpa [scanPrimaries] using h
  | cons p rest ih =>
    intro idx a i h
    unfold scanPrimaries at h
    simp only [] at h
    split_ifs at h with h1 h2
    · exact Or.inl h
    · rcases ih _ _ _ h with h3 | h3
      · right
        simp only [Option.some.injEq] at h3
        rw [List.length_cons]
        omega
      · right
        rw [List.length_cons]
        omega
    · rcases ih _ _ _ h with h3 | h3
      · exact Or.inl h3
      · right
        rw [List.length_cons]
        omega

theorem sum_set_bump :
    ∀ (l : List (OverlapRange × Nat)) (i : Nat) (p : OverlapRange × Nat),
      l.get? i = some p →
      ((l.set i (p.1, p.2 + 1)).map Prod.snd).sum = (l.map Prod.snd).sum + 1 := by
  intro l
  induction l with
  | nil => intro i p h; simp at h
  | cons x xs ih =>
    intro i p h
    cases i with
    | zero =>
      simp only [List.get?_cons_zero, Option.some.injEq] at h
      rw [h]
      simp only [List.set_cons_zero, List.map_cons, List.sum_cons]
      omega
    | succ j =>
      simp only [List.get?_cons_succ] at h
      simp only [List.set_cons_succ, List.map_cons, List.sum_cons, ih j p h]
      omega

/-- The bookkeeping of the partition loop: the counters of the primaries add
up to the number of secondaries, and none exceeds the cap. -/
theorem partitionStep_cap (d : OverlapDetector) (x : OverlapRange)
    (prim : List (OverlapRange × Nat)) (sec : List OverlapRange)
    (hsum : (prim.map Prod.snd).sum = sec.length)
    (hcap : ∀ p ∈ prim, p.2 ≤ MAX_SECONDARY_OVLPS) :
    ((partitionStep d x prim sec).1.map Prod.snd).sum = (partitionStep d x prim sec).2.length ∧
    ∀ p ∈ (partitionStep d x prim sec).1, p.2 ≤ MAX_SECONDARY_OVLPS := by
  unfold partitionStep
  by_cases h1 : (scanPrimaries d x prim 0 none).1 = true
  · simp only [h1, if_true]
    exact ⟨hsum, hcap⟩
  · simp only [h1]
    cases h2 : (scanPrimaries d x prim 0 none).2 with
    | none =>
      simp only [Bool.false_eq_true, if_false, List.map_append, List.map_cons, List.map_nil,
        List.sum_append, List.sum_cons, List.sum_nil, add_zero]
      refine ⟨hsum, fun p hp => ?_⟩
      rcases List.mem_append.mp hp with hp1 | hp1
      · exact hcap p hp1
      · rw [List.mem_singleton] at hp1
        rw [hp1]
        exact Nat.zero_le _
    | some idx =>
      simp only [Bool.false_eq_true, if_false]
      have hidx : idx < prim.length := by
        rcases scanPrimaries_idx d x prim 0 none idx h2 with h3 | h3
        · simp at h3
        · omega
      have hget : prim.get? idx = some (prim.getD idx (x, 0)) := by
        rw [List.getD_eq_getElem _ _ hidx, List.get?_eq_getElem?, List.getElem?_eq_getElem hidx]
      by_cases h3 : ((prim.getD idx (x, 0)).2) < MAX_SECONDARY_OVLPS
      · simp only [h3, if_true]
        unfold bumpPrimary
        rw [hget]
        simp only []
        refine ⟨?_, fun p hp => ?_⟩
        · rw [sum_set_bump prim idx _ hget, hsum, List.length_append]
          rfl
        · rcases List.mem_or_eq_of_mem_set hp with hp1 | hp1
          · exact hcap p hp1
          · rw [hp1]
            exact h3
      · simp only [h3, if_false]
        exact ⟨hsum, hcap⟩

theorem partitionOverlaps_cap (d : OverlapDetector) :
    ∀ (l : List OverlapRange) (prim : List (OverlapRange × Nat)) (sec : List OverlapRange),
      (prim.map Prod.snd).sum = sec.length → (∀ p ∈ prim, p.2 ≤ MAX_SECONDARY_OVLPS) →
      ((partitionOverlaps d l prim sec).1.map Prod.snd).sum =
        (partitionOverlaps d l prim sec).2.length ∧
      ∀ p ∈ (partitionOverlaps d l prim sec).1, p.2 ≤ MAX_SECONDARY_OVLPS := by
  intro l
  induction l with
  | nil => intro prim sec hsum hcap; exact ⟨hsum, hcap⟩
  | cons x xs ih =>
    intro prim sec hsum hcap
    rw [partitionOverlaps_cons]
    have := partitionStep_cap d x prim sec hsum hcap
    exact ih _ _ this.1 this.2

theorem partitionOverlaps_attach (d : OverlapDetector) (P : OverlapRange) :
    ∀ (l : List OverlapRange) (k : Nat) (sec : List OverlapRange), k ≤ 5 →
      (∀ q ∈ l, d.kmerSize ≤ q.extRange - q.extIntersect P ∧
        q.extIntersect P > Int.tdiv q.extRange 2) →
      partitionOverlaps d l [(P, k)] sec =
        ([(P, min (k + l.length) 5)], sec ++ l.take (5 - k)) := by
  intro l
  induction l with
  | nil =>
    intro k sec hk _
    simp [partitionOverlaps, hk]
  | cons q rest ih =>
    intro k sec hk hall
    have hq := hall q (List.mem_cons_self _ _)
    have hrest : ∀ r ∈ rest, d.kmerSize ≤ r.extRange - r.extIntersect P ∧
        r.extIntersect P > Int.tdiv r.extRange 2 :=
      fun r hr => hall r (List.mem_cons_of_mem _ hr)
    have hscan : scanPrimaries d q [(P, k)] 0 none = (false, some 0) := by
      unfold scanPrimaries
      simp only [min_self]
      rw [if_neg (not_lt.mpr hq.1), if_pos hq.2]
      rfl
    rw [partitionOverlaps_cons]
    unfold partitionStep
    rw [hscan]
    simp only [Bool.false_eq_true, if_false, List.getD_cons_zero, MAX_SECONDARY_OVLPS]
    by_cases hk5 : k < 5
    · rw [if_pos hk5]
      have hb : bumpPrimary [(P, k)] 0 = [(P, k + 1)] := rfl
      simp only [hb]
      rw [ih (k + 1) (sec ++ [q]) (by omega) hrest]
      have h5 : 5 - k = (5 - (k + 1)) + 1 := by omega
      rw [h5, List.take_succ_cons, List.length_cons, List.append_assoc]
      congr 3
      omega
    · rw [if_neg hk5]
      have hk' : k = 5 := by omega
      subst hk'
      simp only []
      rw [ih 5 sec (le_refl _) hrest]
      simp

theorem stdSort_head_max (P : OverlapRange) (others ext : List OverlapRange)
    (hperm : ext.Perm (P :: others)) (hmax : ∀ q ∈ others, q.score < P.score) :
    ∃ t, stdSort scoreGreater ext = P :: t ∧ t.Perm others ∧
      t.Pairwise (fun a b => b.score ≤ a.score) := by
  have hlt : ∀ a b : OverlapRange, scoreGreater a b =
      decide ((fun o : OverlapRange => -o.score) a < (fun o : OverlapRange => -o.score) b) := by
    intro a b
    show decide (a.score > b.score) = decide (-a.score < -b.score)
    rw [decide_eq_decide]
    constructor <;> intro h <;> omega
  have hsorted := stdSort_sorted scoreGreater (fun o : OverlapRange => -o.score) hlt ext
  have hp : (stdSort scoreGreater ext).Perm (P :: others) :=
    (stdSort_perm scoreGreater ext).trans hperm
  cases hs : stdSort scoreGreater ext with
  | nil => rw [hs] at hp; exact absurd hp.symm (List.cons_ne_nil _ _ ∘ List.Perm.eq_nil)
  | cons h t =>
    rw [hs] at hp hsorted
    rw [List.pairwise_cons] at hsorted
    have hh : h = P := by
      have hmem : h ∈ P :: others := hp.mem_iff.mp (List.mem_cons_self _ _)
      rcases List.mem_cons.mp hmem with h1 | h1
      · exact h1
      · exfalso
        have h2 := hmax h h1
        have hP : P ∈ h :: t := hp.mem_iff.mpr (List.mem_cons_self _ _)
        rcases List.mem_cons.mp hP with h3 | h3
        · rw [h3] at h2; exact lt_irrefl _ h2
        · have := hsorted.1 P h3
          simp only [neg_le_neg_iff] at this
          omega
    subst hh
    refine ⟨t, rfl, List.Perm.cons_inv hp, ?_⟩
    exact hsorted.2.imp (fun hab => by simpa using hab)

/-- Claim C13.  Secondary cap (`uniqueExtensions = false`): for every target,
the loop assigns each primary at most `MAX_SECONDARY_OVLPS = 5` secondaries
(its counter), the counters add up to the number of secondaries, so the
secondaries emitted are at most 5 times the primaries; and when 8 accepted
chains to one target consist of a chain `P` with the strictly highest score
and 7 others that each intersect its ext interval by more than half of their
own (non-negative) `extRange` without being contained, exactly 6 overlaps are
emitted, `P` first, then the 5 first of the others in descending-score order,
and the last 2 are dropped. -/
theorem selectOverlaps_secondary_cap (d : OverlapDetector) :
    (∀ extOverlaps : List OverlapRange,
      selectOverlaps d false extOverlaps =
        (partitionOverlaps d (stdSort scoreGreater extOverlaps) [] []).1.map Prod.fst ++
          (partitionOverlaps d (stdSort scoreGreater extOverlaps) [] []).2 ∧
      (∀ p ∈ (partitionOverlaps d (stdSort scoreGreater extOverlaps) [] []).1,
        p.2 ≤ MAX_SECONDARY_OVLPS) ∧
      (partitionOverlaps d (stdSort scoreGreater extOverlaps) [] []).2.length =
        ((partitionOverlaps d (stdSort scoreGreater extOverlaps) [] []).1.map Prod.snd).sum ∧
      (partitionOverlaps d (stdSort scoreGreater extOverlaps) [] []).2.length ≤
        MAX_SECONDARY_OVLPS *
          (partitionOverlaps d (stdSort scoreGreater extOverlaps) [] []).1.length) ∧
    (∀ (P : OverlapRange) (others extOverlaps : List OverlapRange),
      extOverlaps.Perm (P :: others) → others.length = 7 →
      (∀ q ∈ others, q.score < P.score ∧ 0 ≤ q.extRange ∧
        q.extRange < 2 * q.extIntersect P ∧
        d.kmerSize ≤ q.extRange - q.extIntersect P) →
      ∃ kept dropped,
        selectOverlaps d false extOverlaps = P :: kept ∧
        kept.length = 5 ∧ dropped.length = 2 ∧
        stdSort scoreGreater extOverlaps = P :: (kept ++ dropped) ∧
        (kept ++ dropped).Perm others ∧
        (kept ++ dropped).Pairwise (fun a b => b.score ≤ a.score)) := by
  constructor
  · intro extOverlaps
    have hcap := partitionOverlaps_cap d (stdSort scoreGreater extOverlaps) [] [] rfl
      (fun p hp => by simp at hp)
    refine ⟨rfl, hcap.2, hcap.1.symm, ?_⟩
    rw [← hcap.1]
    have := List.sum_le_card_nsmul
      ((partitionOverlaps d (stdSort scoreGreater extOverlaps) [] []).1.map Prod.snd)
      MAX_SECONDARY_OVLPS (fun x hx => by
        obtain ⟨p, hp, hpx⟩ := List.mem_map.mp hx
        rw [← hpx]
        exact hcap.2 p hp)
    rw [List.length_map, smul_eq_mul, Nat.mul_comm] at this
    exact this
  · intro P others extOverlaps hperm hlen hall
    obtain ⟨t, hsort, htperm, htsorted⟩ :=
      stdSort_head_max P others extOverlaps hperm (fun q hq => (hall q hq).1)
    have htlen : t.length = 7 := by rw [htperm.length_eq, hlen]
    have hattach : ∀ q ∈ t, d.kmerSize ≤ q.extRange - q.extIntersect P ∧
        q.extIntersect P > Int.tdiv q.extRange 2 := by
      intro q hq
      have h := hall q (htperm.mem_iff.mp hq)
      refine ⟨h.2.2.2, ?_⟩
      rw [Int.tdiv_eq_ediv h.2.1 (by norm_num)]
      omega
    refine ⟨t.take 5, t.drop 5, ?_, ?_, ?_, ?_, ?_, ?_⟩
    · rw [selectOverlaps_false, hsort, partitionOverlaps_cons]
      have hstep1 : partitionStep d P [] [] = ([(P, 0)], []) := by
        simp [partitionStep, scanPrimaries]
      rw [hstep1]
      simp only []
      rw [partitionOverlaps_attach d P t 0 [] (by norm_num) hattach]
      simp
    · rw [List.length_take, htlen]; rfl
    · rw [List.length_drop, htlen]
    · rw [List.take_append_drop]; exact hsort
    · rw [List.take_append_drop]; exact htperm
    · rw [List.take_append_drop]; exact htsorted

/-! ### One overlap per target with `uniqueExtensions` -/

theorem upsert_keys (m : KmerMatch) :
    ∀ (tbl : List (Int × List KmerMatch)) (x : Int),
      x ∈ (upsert m tbl).map Prod.fst → x ∈ tbl.map Prod.fst ∨ x = m.extId := by
  intro tbl
  induction tbl with
  | nil => intro x hx; right; simpa [upsert] using hx
  | cons kv rest ih =>
    intro x hx
    obtain ⟨k, v⟩ := kv
    unfold upsert at hx
    split_ifs at hx with hk
    · left; simpa using hx
    · simp only [List.map_cons, List.mem_cons] at hx ⊢
      rcases hx with hx | hx
      · exact Or.inl (Or.inl hx)
      · rcases ih x hx with h | h
        · exact Or.inl (Or.inr h)
        · exact Or.inr h

theorem upsert_ok (m : KmerMatch) :
    ∀ tbl : List (Int × List KmerMatch), BucketsOK tbl → BucketsOK (upsert m tbl) := by
  intro tbl
  induction tbl with
  | nil =>
    intro _
    refine ⟨by simp [upsert], fun kv hkv => ?_⟩
    simp only [upsert, List.mem_singleton] at hkv
    rw [hkv]
    refine ⟨by simp, fun x hx => ?_⟩
    have hx1 : x = m := by simpa using hx
    rw [hx1]
  | cons kv rest ih =>
    intro h
    obtain ⟨k, v⟩ := kv
    have hnd := h.1
    simp only [List.map_cons, List.nodup_cons] at hnd
    have hrest : BucketsOK rest :=
      ⟨hnd.2, fun q hq => h.2 q (List.mem_cons_of_mem _ hq)⟩
    have hkv := h.2 (k, v) (List.mem_cons_self _ _)
    unfold upsert
    split_ifs with hk
    · refine ⟨by simpa using hnd, fun q hq => ?_⟩
      rcases List.mem_cons.mp hq with hq1 | hq1
      · rw [hq1]
        refine ⟨by simp, fun x hx => ?_⟩
        rcases List.mem_append.mp hx with hx1 | hx1
        · exact hkv.2 x hx1
        · rw [List.mem_singleton] at hx1
          rw [hx1]; exact hk.symm
      · exact h.2 q (List.mem_cons_of_mem _ hq1)
    · have ih1 := ih hrest
      refine ⟨?_, fun q hq => ?_⟩
      · simp only [List.map_cons, List.nodup_cons]
        refine ⟨fun hm => ?_, ih1.1⟩
        rcases upsert_keys m rest k hm with h1 | h1
        · exact hnd.1 h1
        · exact hk h1
      · rcases List.mem_cons.mp hq with hq1 | hq1
        · rw [hq1]; exact hkv
        · exact ih1.2 q hq1

theorem groupMatches_ok (d : OverlapDetector) (seqHitCount : Nat → Nat) :
    ∀ (ms : List KmerMatch) (tbl : List (Int × List KmerMatch)),
      BucketsOK tbl → BucketsOK (groupMatches d seqHitCount ms tbl) := by
  intro ms
  induction ms with
  | nil => intro tbl h; exact h
  | cons m rest ih =>
    intro tbl h
    unfold groupMatches
    split_ifs
    · exact ih tbl h
    · exact ih _ (upsert_ok m tbl h)

theorem seqMatchesOf_ok (d : OverlapDetector) (fastaRec : FastaRecord) :
    BucketsOK (seqMatchesOf d fastaRec) :=
  groupMatches_ok d _ _ [] ⟨List.nodup_nil, fun kv hkv => by simp at hkv⟩

theorem BucketsOK_perm (t1 t2 : List (Int × List KmerMatch)) (hp : t1.Perm t2)
    (h : BucketsOK t2) : BucketsOK t1 :=
  ⟨(hp.map Prod.fst).nodup_iff.mpr h.1, fun kv hkv => h.2 kv (hp.mem_iff.mp hkv)⟩

theorem matchAt_zero_extId (kv : Int × List KmerMatch)
    (h : kv.2 ≠ [] ∧ ∀ m ∈ kv.2, m.extId = kv.1) : (matchAt kv.2 0).extId = kv.1 := by
  obtain ⟨k, v⟩ := kv
  cases v with
  | nil => exact absurd rfl h.1
  | cons x xs => exact h.2 x (List.mem_cons_self _ _)

theorem acceptedChains_extId (d : OverlapDetector) (fastaRec : FastaRecord)
    (kv : Int × List KmerMatch) (o : OverlapRange)
    (ho : o ∈ acceptedChains d fastaRec kv) : o.extId = (matchAt kv.2 0).extId := by
  obtain ⟨_, _, _, _, _, h, _⟩ := acceptedChains_emitted d fastaRec kv o ho
  rw [h]
  rfl

theorem selectOverlaps_true (d : OverlapDetector) (l : List OverlapRange) :
    selectOverlaps d true l = [] ∨
      ∃ m, selectOverlaps d true l = [m] ∧ m ∈ l ∧ ∀ c ∈ l, c.score ≤ m.score := by
  unfold selectOverlaps
  simp only [if_true]
  cases h : maxScoreOverlap l none with
  | none => left; rfl
  | some m =>
    right
    refine ⟨m, rfl, ?_, (maxScoreOverlap_max l none m h).1⟩
    rcases maxScoreOverlap_mem l none m h with h1 | h1
    · exact h1
    · simp at h1

theorem targetLoop_unique (d : OverlapDetector) (fastaRec : FastaRecord) :
    ∀ (tbl : List (Int × List KmerMatch)) (acc : List OverlapRange) (flag : Bool)
      (res : List OverlapRange × Bool),
      targetLoop d fastaRec true tbl acc flag = some res → BucketsOK tbl →
      acc.Pairwise (fun a b => a.extId ≠ b.extId) →
      (∀ o ∈ acc, o.extId ∉ tbl.map Prod.fst) →
      res.1.Pairwise (fun a b => a.extId ≠ b.extId) := by
  intro tbl
  induction tbl with
  | nil =>
    intro acc flag res h _ hacc _
    unfold targetLoop at h
    simp only [Option.some.injEq] at h
    rw [← h]
    exact hacc
  | cons x xs ih =>
    intro acc flag res h hok hacc hkeys
    have hnd := hok.1
    simp only [List.map_cons, List.nodup_cons] at hnd
    have hxs : BucketsOK xs := ⟨hnd.2, fun q hq => hok.2 q (List.mem_cons_of_mem _ hq)⟩
    have hkeys2 : ∀ o ∈ acc, o.extId ∉ xs.map Prod.fst :=
      fun o ho hm => hkeys o ho (List.mem_cons_of_mem _ hm)
    unfold targetLoop at h
    by_cases hp : preFilterRejects d fastaRec.seqLength (d.seqLen x.1) x.2 = true
    · rw [if_pos hp] at h
      exact ih _ _ _ h hxs hacc hkeys2
    · rw [if_neg hp] at h
      cases hc : targetChains d fastaRec flag x with
      | none => rw [hc] at h; simp at h
      | some r =>
        rw [hc] at h
        simp only [] at h
        rw [targetChains_fst d fastaRec flag x r hc] at h
        have hnew : (acc ++ selectOverlaps d true (acceptedChains d fastaRec x)).Pairwise
              (fun a b => a.extId ≠ b.extId) ∧
            ∀ o ∈ acc ++ selectOverlaps d true (acceptedChains d fastaRec x),
              o.extId ∉ xs.map Prod.fst := by
          rcases selectOverlaps_true d (acceptedChains d fastaRec x) with hs | ⟨m, hs, hm, _⟩
          · rw [hs, List.append_nil]
            exact ⟨hacc, hkeys2⟩
          · rw [hs]
            have hmx : m.extId = x.1 := by
              rw [acceptedChains_extId d fastaRec x m hm]
              exact matchAt_zero_extId x (hok.2 x (List.mem_cons_self _ _))
            constructor
            · rw [List.pairwise_append]
              refine ⟨hacc, List.pairwise_singleton _ _, fun a ha b hb => ?_⟩
              rw [List.mem_singleton] at hb
              rw [hb, hmx]
              intro hax
              exact hkeys a ha (by rw [hax]; exact List.mem_cons_self _ _)
            · intro o ho
              rcases List.mem_append.mp ho with ho1 | ho1
              · exact hkeys2 o ho1
              · rw [List.mem_singleton] at ho1
                rw [ho1, hmx]
                exact hnd.1
        split_ifs at h with h3
        · simp only [Option.some.injEq] at h
          rw [← h]
          exact hnew.1
        · exact ih _ _ _ h hxs hnew.1 hnew.2

/-- Claim C11.  With `uniqueExtensions = true`, `getSeqOverlaps` returns a list
with at most one overlap per target `extId`, and the score of that overlap is
greater than or equal to the score of every chain to the same target that
passed the acceptance test. -/
theorem getSeqOverlaps_unique_extensions (d : OverlapDetector) (fastaRec : FastaRecord) :
    ∃ res, getSeqOverlaps d fastaRec true = some res ∧
      res.1.Pairwise (fun a b => a.extId ≠ b.extId) ∧
      ∀ o ∈ res.1, ∀ seqVec ∈ seqMatchesOf d fastaRec, seqVec.1 = o.extId →
        ∀ c ∈ acceptedChains d fastaRec seqVec, c.score ≤ o.score := by
  obtain ⟨res, hres⟩ := getSeqOverlaps_total d fastaRec true
  have hok := seqMatchesOf_ok d fastaRec
  refine ⟨res, hres, ?_, fun o ho seqVec hsv hkey c hc => ?_⟩
  · rw [getSeqOverlaps_eq] at hres
    exact targetLoop_unique d fastaRec _ [] false res hres
      (BucketsOK_perm _ _ (d.iterTable_perm _) hok) List.Pairwise.nil
      (fun o ho => by simp at ho)
  · obtain ⟨kv, hkv, _, hsel⟩ := getSeqOverlaps_emitted d fastaRec true res hres o ho
    rcases selectOverlaps_true d (acceptedChains d fastaRec kv) with hs | ⟨m, hs, hm, hmax⟩
    · rw [hs] at hsel; simp at hsel
    · rw [hs, List.mem_singleton] at hsel
      have hmx : m.extId = kv.1 := by
        rw [acceptedChains_extId d fastaRec kv m hm]
        exact matchAt_zero_extId kv (hok.2 kv hkv)
      have heq : seqVec = kv := by
        apply List.inj_on_of_nodup_map hok.1 hsv hkv
        rw [hkey, hsel, hmx]
      rw [heq] at hc
      rw [hsel]
      exact hmax c hc

/-! ### The chains of the backtracking loop -/

theorem walkIndices_head :
    ∀ (fuel : Nat) (pos : Int) (bt : List Int) (r : List Nat × List Int),
      walkIndices fuel pos bt = some r → pos ≠ -1 → r.1.head? = some pos.toNat := by
  intro fuel pos bt r h hp
  cases fuel with
  | zero => simp [walkIndices, hp] at h
  | succ n =>
    unfold walkIndices at h
    rw [if_neg hp] at h
    cases hw : walkIndices n (bt.getD pos.toNat (-1)) (bt.set pos.toNat (-1)) with
    | none => rw [hw] at h; simp at h
    | some r1 =>
      rw [hw] at h
      simp only [Option.some.injEq] at h
      rw [← h]
      rfl

theorem walkChain_indices (d : OverlapDetector) (ms : List KmerMatch) :
    ∀ (fuel : Nat) (pos : Int) (w w1 : ChainWalk),
      walkChain d ms fuel pos w = some w1 →
      ∃ p, walkIndices fuel pos w.backtrackTable = some (p, w1.backtrackTable) ∧
        w1.chainLength = w.chainLength + p.length ∧
        w1.shifts = w.shifts ++ p.map (fun i => (matchAt ms i).curPos - (matchAt ms i).extPos) ∧
        w1.firstMatch = (p.getLast?.map (matchAt ms)).getD w.firstMatch := by
  intro fuel
  induction fuel with
  | zero =>
    intro pos w w1 h
    unfold walkChain at h
    by_cases hp : pos = -1
    · rw [if_pos hp] at h
      simp only [Option.some.injEq] at h
      rw [← h]
      exact ⟨[], by simp [walkIndices, hp], by simp, by simp, by simp⟩
    · rw [if_neg hp] at h; simp at h
  | succ n ih =>
    intro pos w w1 h
    unfold walkChain at h
    by_cases hp : pos = -1
    · rw [if_pos hp] at h
      simp only [Option.some.injEq] at h
      rw [← h]
      exact ⟨[], by simp [walkIndices, hp], by simp, by simp, by simp⟩
    · rw [if_neg hp] at h
      simp only [] at h
      obtain ⟨p, hp1, hp2, hp3, hp4⟩ := ih _ _ _ h
      simp only [] at hp1 hp2 hp3 hp4
      refine ⟨pos.toNat :: p, ?_, ?_, ?_, ?_⟩
      · unfold walkIndices
        rw [if_neg hp, hp1]
      · rw [hp2, List.length_cons]; omega
      · rw [hp3, List.map_cons, List.append_assoc]; rfl
      · rw [hp4]
        cases p with
        | nil => rfl
        | cons y ys =>
          rw [List.getLast?_cons_cons]
          cases hl : (y :: ys).getLast? with
          | none => simp at hl
          | some z => rfl

theorem getD_of_le (l : List Int) (i : Nat) (h : l.length ≤ i) : l.getD i (-1) = -1 := by
  simp [List.getD_eq_getElem?_getD, List.getElem?_eq_none h]

theorem walkIndices_spec :
    ∀ (fuel : Nat) (pos : Int) (bt : List Int), BackOK bt →
      (pos = -1 ∨ (0 ≤ pos ∧ pos < fuel)) →
      ∃ p bt1, walkIndices fuel pos bt = some (p, bt1) ∧ BackOK bt1 ∧
        (∀ x ∈ p, (x : Int) ≤ pos) ∧
        (∀ i, bt1.getD i (-1) = if i ∈ p then -1 else bt.getD i (-1)) ∧
        (∀ x ∈ p, bt.getD x (-1) ≠ -1 ∨ p.getLast? = some x) ∧
        (pos = -1 → p = []) ∧
        (0 ≤ pos → p.head? = some pos.toNat) ∧
        (0 ≤ pos → bt.getD pos.toNat (-1) = -1 → p = [pos.toNat]) := by
  intro fuel
  induction fuel with
  | zero =>
    intro pos bt h hp
    rcases hp with hp | hp
    · refine ⟨[], bt, by simp [walkIndices, hp], h, by simp, by simp, by simp, by simp, ?_, ?_⟩
      · intro h0; omega
      · intro h0; omega
    · exfalso; have := hp.2; simp at this; omega
  | succ n ih =>
    intro pos bt h hp
    by_cases hneg : pos = -1
    · refine ⟨[], bt, by simp [walkIndices, hneg], h, by simp, by simp, by simp, by simp, ?_, ?_⟩
      · intro h0; omega
      · intro h0; omega
    · have hpos : 0 ≤ pos ∧ pos < (n + 1 : Nat) := by
        rcases hp with hp | hp
        · exact absurd hp hneg
        · exact hp
      have hcast : (pos.toNat : Int) = pos := Int.toNat_of_nonneg hpos.1
      have hprev : bt.getD pos.toNat (-1) = -1 ∨
          (0 ≤ bt.getD pos.toNat (-1) ∧ bt.getD pos.toNat (-1) < n) := by
        rcases h pos.toNat with hb | hb
        · left; exact hb
        · right
          refine ⟨hb.1, ?_⟩
          have h1 := hb.2
          have h2 := hpos.2
          push_cast at h2
          omega
      obtain ⟨p, bt1, hw, hok, hle, htab, hlast, hnil, _, _⟩ :=
        ih (bt.getD pos.toNat (-1)) (bt.set pos.toNat (-1))
          (BackOK_set _ _ _ h (Or.inl rfl)) hprev
      have hset : ∀ i, (bt.set pos.toNat (-1)).getD i (-1) =
          if pos.toNat = i then -1 else bt.getD i (-1) := by
        intro i
        rw [getD_set_eq]
        by_cases hi : pos.toNat = i
        · by_cases hl : i < bt.length
          · simp [hi, hl]
          · rw [if_neg (fun hh => hl hh.2), if_pos hi]
            exact getD_of_le bt i (not_lt.mp hl)
        · simp [hi]
      have hbelow : ∀ x ∈ p, x ≠ pos.toNat := by
        intro x hx hxe
        have h1 := hle x hx
        rcases h pos.toNat with hb | hb
        · rw [hb] at h1; omega
        · have h2 := hb.2
          rw [hxe] at h1
          omega
      refine ⟨pos.toNat :: p, bt1, ?_, hok, ?_, ?_, ?_, ?_, ?_, ?_⟩
      · unfold walkIndices
        rw [if_neg hneg, hw]
      · intro x hx
        rcases List.mem_cons.mp hx with hx1 | hx1
        · rw [hx1, hcast]
        · have h1 := hle x hx1
          rcases h pos.toNat with hb | hb
          · rw [hb] at h1; omega
          · have h2 := hb.2
            omega
      · intro i
        rw [htab i, hset i]
        by_cases hip : i ∈ p
        · simp [hip]
        · by_cases hi : pos.toNat = i
          · simp [hi]
          · have hi2 : ¬ i = pos.toNat := fun hh => hi hh.symm
            simp [hip, hi, hi2]
      · intro x hx
        rcases List.mem_cons.mp hx with hx1 | hx1
        · by_cases hb : bt.getD pos.toNat (-1) = -1
          · right
            rw [hnil hb, hx1]
            rfl
          · left; rw [hx1]; exact hb
        · rcases hlast x hx1 with h1 | h1
          · left
            rw [hset x, if_neg (fun hh => hbelow x hx1 hh.symm)] at h1
            exact h1
          · right
            cases p with
            | nil => simp at hx1
            | cons y ys => rw [List.getLast?_cons_cons]; exact h1
      · intro hh; exact absurd hh hneg
      · intro _; rfl
      · intro _ hb
        rw [hnil hb]

theorem constructedChains_spec :
    ∀ (c : Nat) (bt : List Int), BackOK bt →
      ∃ chains, constructedChains c bt = some chains ∧
        chains.map List.head? = (List.iota c).map some ∧
        (∀ q ∈ chains, ∀ x ∈ q, bt.getD x (-1) ≠ -1 ∨ q.getLast? = some x) ∧
        (∀ q ∈ chains, ∀ x, q.head? = some x → bt.getD x (-1) = -1 → q = [x]) ∧
        chains.Pairwise (fun p q => ∀ x ∈ p,
          (q.head? = some x → q = [x]) ∧ (x ∈ q → q.getLast? = some x)) := by
  intro c
  induction c with
  | zero =>
    intro bt _
    exact ⟨[], rfl, rfl, by simp, by simp, List.Pairwise.nil⟩
  | succ n ih =>
    intro bt h
    obtain ⟨p, bt1, hw, hok, _, htab, hlast, _, hhead, hone⟩ :=
      walkIndices_spec (n + 2) ((n + 1 : Nat) : Int) bt h
        (Or.inr ⟨by positivity, by push_cast; omega⟩)
    obtain ⟨chains, hc, hheads, hc2, hc3, hpw⟩ := ih bt1 hok
    have hnat : (((n + 1 : Nat) : Int)).toNat = n + 1 := Int.toNat_natCast _
    rw [hnat] at hhead hone
    refine ⟨p :: chains, ?_, ?_, ?_, ?_, ?_⟩
    · unfold constructedChains
      rw [hw]
      simp only []
      rw [hc]
    · rw [List.map_cons, hhead (by positivity), hheads]
      rfl
    · intro q hq x hx
      rcases List.mem_cons.mp hq with hq1 | hq1
      · rw [hq1] at hx ⊢
        exact hlast x hx
      · rcases hc2 q hq1 x hx with h1 | h1
        · left
          rw [htab x] at h1
          by_cases hxp : x ∈ p
          · rw [if_pos hxp] at h1; exact absurd rfl h1
          · rw [if_neg hxp] at h1; exact h1
        · right; exact h1
    · intro q hq x hx hb
      rcases List.mem_cons.mp hq with hq1 | hq1
      · rw [hq1] at hx ⊢
        rw [hhead (by positivity)] at hx
        simp only [Option.some.injEq] at hx
        rw [← hx] at hb ⊢
        exact hone (by positivity) hb
      · apply hc3 q hq1 x hx
        rw [htab x, hb]
        simp
    · rw [List.pairwise_cons]
      refine ⟨fun q hq x hx => ?_, hpw⟩
      have hx1 : bt1.getD x (-1) = -1 := by rw [htab x, if_pos hx]
      refine ⟨fun hqh => hc3 q hq x hqh hx1, fun hxq => ?_⟩
      rcases hc2 q hq x hxq with h1 | h1
      · exact absurd hx1 h1
      · exact h1

theorem backtrackLoop_chains (d : OverlapDetector) (recId curLen extLen : Int)
    (ms : List KmerMatch) (st : List Int) :
    ∀ (c : Nat) (bt : List Int) (flag : Bool) (acc : List OverlapRange)
      (res : List OverlapRange × Bool),
      backtrackLoop d recId curLen extLen ms st c bt flag acc = some res →
      ∃ chains, constructedChains c bt = some chains ∧
        ∀ o ∈ res.1, o ∈ acc ∨ ∃ p ∈ chains, ∃ (chainStart : Nat) (w : ChainWalk),
          p.head? = some chainStart ∧
          o = chainOverlap d recId curLen extLen ms st chainStart w ∧
          w.chainLength = p.length ∧
          w.shifts = p.map (fun i => (matchAt ms i).curPos - (matchAt ms i).extPos) ∧
          w.firstMatch = (p.getLast?.map (matchAt ms)).getD (matchAt ms chainStart) := by
  intro c
  induction c with
  | zero =>
    intro bt flag acc res h
    unfold backtrackLoop at h
    simp only [Option.some.injEq] at h
    rw [← h]
    exact ⟨[], rfl, fun o ho => Or.inl ho⟩
  | succ n ih =>
    intro bt flag acc res h
    unfold backtrackLoop at h
    cases hw : walkChain d ms (n + 2) ((n + 1 : Nat) : Int)
        { firstMatch := matchAt ms (n + 1), shifts := [], kmerMatches := [],
          chainLength := 0, totalMatch := d.kmerSize, backtrackTable := bt } with
    | none => rw [hw] at h; simp at h
    | some w =>
      rw [hw] at h
      simp only [] at h
      obtain ⟨p, hp1, hp2, hp3, hp4⟩ := walkChain_indices d ms _ _ _ _ hw
      simp only [List.nil_append, Nat.zero_add] at hp1 hp2 hp3 hp4
      have hhead := walkIndices_head _ _ _ _ hp1 (by omega)
      have hnat : (((n + 1 : Nat) : Int)).toNat = n + 1 := Int.toNat_natCast _
      rw [hnat] at hhead
      simp only [] at hhead
      have hrest : ∀ (flag1 : Bool) (acc1 : List OverlapRange),
          backtrackLoop d recId curLen extLen ms st n w.backtrackTable flag1 acc1 = some res →
          (∀ o ∈ acc1, o ∈ acc ∨
            o = chainOverlap d recId curLen extLen ms st (n + 1) w) →
          ∃ chains, constructedChains (n + 1) bt = some chains ∧
            ∀ o ∈ res.1, o ∈ acc ∨ ∃ p ∈ chains, ∃ (chainStart : Nat) (w : ChainWalk),
              p.head? = some chainStart ∧
              o = chainOverlap d recId curLen extLen ms st chainStart w ∧
              w.chainLength = p.length ∧
              w.shifts = p.map (fun i => (matchAt ms i).curPos - (matchAt ms i).extPos) ∧
              w.firstMatch = (p.getLast?.map (matchAt ms)).getD (matchAt ms chainStart) := by
        intro flag1 acc1 h1 hacc1
        obtain ⟨chains, hc, hall⟩ := ih _ _ _ _ h1
        refine ⟨p :: chains, ?_, fun o ho => ?_⟩
        · unfold constructedChains
          rw [hp1]
          simp only []
          rw [hc]
        · rcases hall o ho with h2 | ⟨q, hq, s, w2, h2⟩
          · rcases hacc1 o h2 with h3 | h3
            · exact Or.inl h3
            · exact Or.inr ⟨p, List.mem_cons_self _ _, n + 1, w, hhead, h3, hp2, hp3, hp4⟩
          · exact Or.inr ⟨q, List.mem_cons_of_mem _ hq, s, w2, h2⟩
      split_ifs at h with h1 h2
      · apply hrest _ _ h
        intro o ho
        rcases List.mem_append.mp ho with ho1 | ho1
        · exact Or.inl ho1
        · rw [List.mem_singleton] at ho1
          exact Or.inr ho1
      · exact hrest _ _ h (fun o ho => Or.inl ho)
      · exact hrest _ _ h (fun o ho => Or.inl ho)

/-- Claim C18, counterexample.  Four anchors on one diagonal pass the
pre-filter, and the chain walked from index 3 consumes the backtrack pointers
of the indices 3, 2, 1 and 0; the indices 2 and 1 are nevertheless used as
chain starts afterwards, so each of them belongs to two constructed chains. -/
theorem consumed_index_walked_again :
    preFilterRejects exampleDetector 1000 1000 fourAnchors = false ∧
    (chainTables exampleDetector fourAnchors).backtrackTable = [-1, 0, 1, 2] ∧
    constructedChains 3 (chainTables exampleDetector fourAnchors).backtrackTable =
      some [[3, 2, 1, 0], [2], [1]] := by
  decide

/-- Claim C18, amended.  The backtracking phase walks a chain from every
anchor index from the highest down to 1, skipping none.  For a chain `q`
walked after a chain `p` and an anchor `x` of `p`: if `x` is the start of `q`
then `q` consists of `x` alone, and if `x` belongs to `q` then `x` is the last
anchor that the walk of `q` visits.  So a consumed index is still a chain
start, of a chain of one anchor, and two chains share at most the lowest
anchor of the later one. -/
theorem constructedChains_sharing (d : OverlapDetector) (matchesList : List KmerMatch) :
    ∃ chains,
      constructedChains (matchesList.length - 1) (chainTables d matchesList).backtrackTable =
        some chains ∧
      chains.map List.head? = (List.iota (matchesList.length - 1)).map some ∧
      chains.Pairwise (fun p q => ∀ x ∈ p,
        (q.head? = some x → q = [x]) ∧ (x ∈ q → q.getLast? = some x)) := by
  obtain ⟨chains, h1, h2, _, _, h5⟩ :=
    constructedChains_spec (matchesList.length - 1) _ (chainTables_BackOK d matchesList)
  exact ⟨chains, h1, h2, h5⟩

/-! ### The scores of the chaining loop -/

theorem getD_set_zero (l : List Int) (i p : Nat) (v : Int) :
    (l.set i v).getD p 0 = if i = p ∧ p < l.length then v else l.getD p 0 := by
  simp only [List.getD_eq_getElem?_getD, List.getElem?_set]
  by_cases hip : i = p
  · subst hip
    by_cases hl : i < l.length
    · simp [hl]
    · simp [hl, List.getElem?_eq_none (not_lt.mp hl)]
  · simp [hip]

theorem chainStep_scoreTable (d : OverlapDetector) (ms : List KmerMatch) (i : Nat)
    (t : ChainTables) :
    (chainStep d ms i t).scoreTable =
      t.scoreTable.set i (max (lookBack d ms t.scoreTable (matchAt ms i).curPos
        (matchAt ms i).extPos ((chainStep d ms i t).skipCurId + 1) 0 0 0).1 d.kmerSize) :=
  rfl

theorem chainStep_backtrackTable (d : OverlapDetector) (ms : List KmerMatch) (i : Nat)
    (t : ChainTables) :
    (chainStep d ms i t).backtrackTable =
      if (lookBack d ms t.scoreTable (matchAt ms i).curPos
        (matchAt ms i).extPos ((chainStep d ms i t).skipCurId + 1) 0 0 0).1 > 0 then
        t.backtrackTable.set i (lookBack d ms t.scoreTable (matchAt ms i).curPos
          (matchAt ms i).extPos ((chainStep d ms i t).skipCurId + 1) 0 0 0).2
      else t.backtrackTable :=
  rfl

theorem chainStep_skip (d : OverlapDetector) (ms : List KmerMatch) (i : Nat)
    (t : ChainTables) (hi : 1 ≤ i) (hs : t.skipCurId < i) :
    (chainStep d ms i t).skipCurId < i := by
  unfold chainStep
  simp only []
  split_ifs <;> omega

theorem chainStep_length (d : OverlapDetector) (ms : List KmerMatch) (i : Nat)
    (t : ChainTables) :
    (chainStep d ms i t).scoreTable.length = t.scoreTable.length ∧
    (chainStep d ms i t).backtrackTable.length = t.backtrackTable.length := by
  rw [chainStep_scoreTable, chainStep_backtrackTable]
  constructor
  · simp
  · split_ifs <;> simp

theorem chainStep_other (d : OverlapDetector) (ms : List KmerMatch) (i : Nat)
    (t : ChainTables) (j : Nat) (hj : j ≠ i) :
    (chainStep d ms i t).scoreTable.getD j 0 = t.scoreTable.getD j 0 ∧
    (chainStep d ms i t).backtrackTable.getD j (-1) = t.backtrackTable.getD j (-1) := by
  rw [chainStep_scoreTable, chainStep_backtrackTable]
  constructor
  · rw [getD_set_zero, if_neg (fun h => hj h.1.symm)]
  · split_ifs
    · rw [getD_set_eq, if_neg (fun h => hj h.1.symm)]
    · rfl

theorem chainLoop_below (d : OverlapDetector) (ms : List KmerMatch) :
    ∀ (steps i : Nat) (t : ChainTables) (j : Nat), j < i →
      (chainLoop d ms steps i t).scoreTable.getD j 0 = t.scoreTable.getD j 0 ∧
      (chainLoop d ms steps i t).backtrackTable.getD j (-1) =
        t.backtrackTable.getD j (-1) := by
  intro steps
  induction steps with
  | zero => intro i t j _; exact ⟨rfl, rfl⟩
  | succ n ih =>
    intro i t j hj
    unfold chainLoop
    have h1 := ih (i + 1) (chainStep d ms i t) j (by omega)
    have h2 := chainStep_other d ms i t j (by omega)
    exact ⟨h1.1.trans h2.1, h1.2.trans h2.2⟩

theorem chainLoop_length (d : OverlapDetector) (ms : List KmerMatch) :
    ∀ (steps i : Nat) (t : ChainTables),
      (chainLoop d ms steps i t).scoreTable.length = t.scoreTable.length ∧
      (chainLoop d ms steps i t).backtrackTable.length = t.backtrackTable.length := by
  intro steps
  induction steps with
  | zero => intro i t; exact ⟨rfl, rfl⟩
  | succ n ih =>
    intro i t
    unfold chainLoop
    have h1 := ih (i + 1) (chainStep d ms i t)
    have h2 := chainStep_length d ms i t
    exact ⟨h1.1.trans h2.1, h1.2.trans h2.2⟩

theorem chainLoop_skip (d : OverlapDetector) (ms : List KmerMatch) :
    ∀ (steps i : Nat) (t : ChainTables), 1 ≤ i → t.skipCurId < i →
      (chainLoop d ms steps i t).skipCurId < i + steps := by
  intro steps
  induction steps with
  | zero => intro i t _ h; exact h
  | succ n ih =>
    intro i t hi hs
    unfold chainLoop
    have h1 := ih (i + 1) (chainStep d ms i t) (by omega)
      (by have := chainStep_skip d ms i t hi hs; omega)
    omega

theorem chainLoop_add (d : OverlapDetector) (ms : List KmerMatch) :
    ∀ (a b i : Nat) (t : ChainTables),
      chainLoop d ms (a + b) i t = chainLoop d ms b (i + a) (chainLoop d ms a i t) := by
  intro a
  induction a with
  | zero => intro b i t; simp [chainLoop]
  | succ n ih =>
    intro b i t
    have h1 : n + 1 + b = (n + b) + 1 := by omega
    have h2 : i + 1 + n = i + (n + 1) := by omega
    have e1 : chainLoop d ms (n + b + 1) i t =
        chainLoop d ms (n + b) (i + 1) (chainStep d ms i t) := rfl
    have e2 : chainLoop d ms (n + 1) i t =
        chainLoop d ms n (i + 1) (chainStep d ms i t) := rfl
    rw [h1, e1, e2, ih b (i + 1) (chainStep d ms i t), h2]

theorem chainTables_split (d : OverlapDetector) (ms : List KmerMatch) (i : Nat)
    (h1 : 1 ≤ i) (h2 : i < ms.length) :
    chainTables d ms =
      chainLoop d ms (ms.length - 1 - i) (i + 1) (chainStep d ms i (tablesBefore d ms i)) := by
  have hi : 1 + (i - 1) = i := by omega
  have key : ∀ (m : Nat) (t : ChainTables), chainLoop d ms ((i - 1) + (m + 1)) 1 t =
      chainLoop d ms m (i + 1) (chainStep d ms i (chainLoop d ms (i - 1) 1 t)) := by
    intro m t
    rw [chainLoop_add, hi]
    rfl
  have hn : (i - 1) + ((ms.length - 1 - i) + 1) = ms.length - 1 := by omega
  have h3 := key (ms.length - 1 - i)
    { scoreTable := List.replicate ms.length 0
      backtrackTable := List.replicate ms.length (-1)
      skipCurPos := 0
      skipCurId := 0 }
  rw [hn] at h3
  exact h3

theorem candScore_congr (d : OverlapDetector) (ms : List KmerMatch) (s1 s2 : List Int)
    (curNext extNext : Int) (j : Nat) (h : s1.getD j 0 = s2.getD j 0) :
    candScore d ms s1 curNext extNext j = candScore d ms s2 curNext extNext j := by
  unfold candScore
  simp only []
  rw [h]

theorem lookBack_congr (d : OverlapDetector) (ms : List KmerMatch) (s1 s2 : List Int)
    (curNext extNext : Int) :
    ∀ (k : Nat), (∀ j, j < k → s1.getD j 0 = s2.getD j 0) →
      ∀ (maxScore maxId noImp : Int),
        lookBack d ms s1 curNext extNext k maxScore maxId noImp =
          lookBack d ms s2 curNext extNext k maxScore maxId noImp := by
  intro k
  induction k with
  | zero => intro _ a b c; simp [lookBack]
  | succ j ih =>
    intro h maxScore maxId noImp
    have hc := candScore_congr d ms s1 s2 curNext extNext j (h j (by omega))
    have ih1 := ih (fun x hx => h x (by omega))
    unfold lookBack
    simp only [hc, ih1]

theorem lookBackExamined_congr (d : OverlapDetector) (ms : List KmerMatch)
    (s1 s2 : List Int) (curNext extNext : Int) :
    ∀ (k : Nat), (∀ j, j < k → s1.getD j 0 = s2.getD j 0) →
      ∀ (maxScore noImp : Int),
        lookBackExamined d ms s1 curNext extNext k maxScore noImp =
          lookBackExamined d ms s2 curNext extNext k maxScore noImp := by
  intro k
  induction k with
  | zero => intro _ a c; simp [lookBackExamined]
  | succ j ih =>
    intro h maxScore noImp
    have hc := candScore_congr d ms s1 s2 curNext extNext j (h j (by omega))
    have ih1 := ih (fun x hx => h x (by omega))
    unfold lookBackExamined
    simp only [hc, ih1]

theorem lookBackExamined_lt (d : OverlapDetector) (ms : List KmerMatch) (st : List Int)
    (curNext extNext : Int) :
    ∀ (k : Nat) (maxScore noImp : Int),
      ∀ j ∈ lookBackExamined d ms st curNext extNext k maxScore noImp, j < k := by
  intro k
  induction k with
  | zero => intro a c j hj; simp [lookBackExamined] at hj
  | succ n ih =>
    intro maxScore noImp j hj
    unfold lookBackExamined at hj
    simp only [] at hj
    split_ifs at hj
    all_goals first
      | (simp only [List.mem_singleton] at hj; omega)
      | (simp only [List.not_mem_nil] at hj)
      | (rcases List.mem_cons.mp hj with h | h
         · omega
         · exact Nat.lt_succ_of_lt (ih _ _ j h))
      | exact Nat.lt_succ_of_lt (ih _ _ j hj)

theorem lookBack_max (d : OverlapDetector) (ms : List KmerMatch) (st : List Int)
    (curNext extNext : Int) :
    ∀ (k : Nat) (maxScore maxId noImp : Int),
      (lookBack d ms st curNext extNext k maxScore maxId noImp).1 =
        ((lookBackExamined d ms st curNext extNext k maxScore noImp).map
          (candScore d ms st curNext extNext)).foldl max maxScore := by
  intro k
  induction k with
  | zero => intro a b c; simp [lookBack, lookBackExamined]
  | succ j ih =>
    intro maxScore maxId noImp
    unfold lookBack lookBackExamined
    simp only []
    split_ifs with h1 h2 h3 h4 h5 h6
    · simp only [List.map_cons, List.map_nil, List.foldl_cons, List.foldl_nil]
      exact (max_eq_right (le_of_lt h2)).symm
    · simp only [List.map_cons, List.foldl_cons]
      rw [max_eq_right (le_of_lt h2)]
      exact ih _ _ _
    · simp only [List.map_cons, List.map_nil, List.foldl_cons, List.foldl_nil]
      exact (max_eq_left (not_lt.mp h2)).symm
    · simp only [List.map_cons, List.map_nil, List.foldl_cons, List.foldl_nil]
      exact (max_eq_left (not_lt.mp h2)).symm
    · simp only [List.map_cons, List.foldl_cons]
      rw [max_eq_left (not_lt.mp h2)]
      exact ih _ _ _
    · simp
    · exact ih _ _ _

theorem chainTables_entry (d : OverlapDetector) (ms : List KmerMatch) (i : Nat)
    (h1 : 1 ≤ i) (h2 : i < ms.length) :
    (chainStep d ms i (tablesBefore d ms i)).skipCurId < i ∧
    (chainTables d ms).scoreTable.getD i 0 =
      max (lookBack d ms (chainTables d ms).scoreTable (matchAt ms i).curPos
        (matchAt ms i).extPos ((chainStep d ms i (tablesBefore d ms i)).skipCurId + 1)
        0 0 0).1 d.kmerSize ∧
    ((chainTables d ms).backtrackTable.getD i (-1) = -1 →
      (lookBack d ms (chainTables d ms).scoreTable (matchAt ms i).curPos
        (matchAt ms i).extPos ((chainStep d ms i (tablesBefore d ms i)).skipCurId + 1)
        0 0 0).1 = 0) ∧
    examinedAt d ms i =
      lookBackExamined d ms (chainTables d ms).scoreTable (matchAt ms i).curPos
        (matchAt ms i).extPos ((chainStep d ms i (tablesBefore d ms i)).skipCurId + 1)
        0 0 := by
  have hsplit := chainTables_split d ms i h1 h2
  have hpre : (tablesBefore d ms i).skipCurId < i := by
    have := chainLoop_skip d ms (i - 1) 1
      { scoreTable := List.replicate ms.length 0
        backtrackTable := List.replicate ms.length (-1)
        skipCurPos := 0
        skipCurId := 0 } (le_refl 1) (by simp)
    unfold tablesBefore
    omega
  have hskip := chainStep_skip d ms i (tablesBefore d ms i) h1 hpre
  have hlen : (tablesBefore d ms i).scoreTable.length = ms.length ∧
      (tablesBefore d ms i).backtrackTable.length = ms.length := by
    unfold tablesBefore
    have := chainLoop_length d ms (i - 1) 1
      { scoreTable := List.replicate ms.length 0
        backtrackTable := List.replicate ms.length (-1)
        skipCurPos := 0
        skipCurId := 0 }
    simpa using this
  have hagree : ∀ j, j < i →
      (tablesBefore d ms i).scoreTable.getD j 0 = (chainTables d ms).scoreTable.getD j 0 := by
    intro j hj
    rw [hsplit, (chainLoop_below d ms _ (i + 1) _ j (by omega)).1,
      (chainStep_other d ms i _ j (by omega)).1]
  have hlook := lookBack_congr d ms (tablesBefore d ms i).scoreTable
    (chainTables d ms).scoreTable (matchAt ms i).curPos (matchAt ms i).extPos
    ((chainStep d ms i (tablesBefore d ms i)).skipCurId + 1)
    (fun j hj => hagree j (by omega)) 0 0 0
  have hex := lookBackExamined_congr d ms (tablesBefore d ms i).scoreTable
    (chainTables d ms).scoreTable (matchAt ms i).curPos (matchAt ms i).extPos
    ((chainStep d ms i (tablesBefore d ms i)).skipCurId + 1)
    (fun j hj => hagree j (by omega)) 0 0
  have hs : (chainTables d ms).scoreTable.getD i 0 =
      (chainStep d ms i (tablesBefore d ms i)).scoreTable.getD i 0 := by
    rw [hsplit]
    exact (chainLoop_below d ms _ (i + 1) _ i (by omega)).1
  have hb : (chainTables d ms).backtrackTable.getD i (-1) =
      (chainStep d ms i (tablesBefore d ms i)).backtrackTable.getD i (-1) := by
    rw [hsplit]
    exact (chainLoop_below d ms _ (i + 1) _ i (by omega)).2
  refine ⟨hskip, ?_, ?_, hex⟩
  · rw [hs, chainStep_scoreTable, getD_set_zero, if_pos ⟨rfl, by omega⟩, hlook]
  · intro hneg
    rw [hb, chainStep_backtrackTable, hlook] at hneg
    rcases lookBack_spec d ms (chainTables d ms).scoreTable (matchAt ms i).curPos
      (matchAt ms i).extPos ((chainStep d ms i (tablesBefore d ms i)).skipCurId + 1)
      0 0 0 with hl | hl
    · exact hl.1
    · rw [if_pos hl.1, getD_set_eq, if_pos ⟨rfl, by omega⟩] at hneg
      have := hl.2.1
      omega

/-- Claim C19, counterexample.  For four anchors on one diagonal that pass the
pre-filter, with `kmerSize = 15`, the entry `scoreTable[0]` is 0, and the
chain walked from index 2 after the walk from index 3 has one anchor and the
score 30. -/
theorem one_anchor_chain_scores_more :
    preFilterRejects exampleDetector 1000 1000 fourAnchors = false ∧
    exampleDetector.kmerSize = 15 ∧
    (chainTables exampleDetector fourAnchors).scoreTable = [0, 15, 30, 45] ∧
    (walkChain exampleDetector fourAnchors 5 3
        { firstMatch := matchAt fourAnchors 3, shifts := [], kmerMatches := [],
          chainLength := 0, totalMatch := exampleDetector.kmerSize,
          backtrackTable := (chainTables exampleDetector fourAnchors).backtrackTable }).bind
      (fun w3 =>
        (walkChain exampleDetector fourAnchors 4 2
          { firstMatch := matchAt fourAnchors 2, shifts := [], kmerMatches := [],
            chainLength := 0, totalMatch := exampleDetector.kmerSize,
            backtrackTable := w3.backtrackTable }).map
          (fun w2 => (w3.chainLength, w2.chainLength,
            (chainOverlap exampleDetector 1 1000 1000 fourAnchors
              (chainTables exampleDetector fourAnchors).scoreTable 2 w2).score))) =
      some (4, 1, 30) := by
  decide

theorem crossedAnchors_scores :
    (chainTables exampleDetector crossedAnchors).scoreTable = [0, 15] ∧
    (chainTables exampleDetector crossedAnchors).backtrackTable = [-1, -1] ∧
    examinedAt exampleDetector crossedAnchors 1 = [] := by
  decide

/-- Claim C19, amended.  After the chaining loop `scoreTable[0]` is 0, and for
every anchor index `i` from 1 on `scoreTable[i]` is the maximum of `kmerSize`,
of 0 and of the candidate scores of the predecessors examined for `i`, which
all lie below `i`.  A chain start whose backtrack pointer is `-1` after the
chaining loop gives a chain of exactly one anchor, and its overlap has score
exactly `kmerSize`, for a non-negative `kmerSize`. -/
theorem chainTables_scores (d : OverlapDetector) (matchesList : List KmerMatch) :
    (chainTables d matchesList).scoreTable.getD 0 0 = 0 ∧
    ∀ i, 1 ≤ i → i < matchesList.length →
      (∀ j ∈ examinedAt d matchesList i, j < i) ∧
      (chainTables d matchesList).scoreTable.getD i 0 =
        max d.kmerSize (((examinedAt d matchesList i).map
          (candScore d matchesList (chainTables d matchesList).scoreTable
            (matchAt matchesList i).curPos (matchAt matchesList i).extPos)).foldl max 0) ∧
      ((chainTables d matchesList).backtrackTable.getD i (-1) = -1 →
        (∃ chains,
          constructedChains (matchesList.length - 1)
            (chainTables d matchesList).backtrackTable = some chains ∧
          [i] ∈ chains ∧ ∀ q ∈ chains, q.head? = some i → q = [i]) ∧
        (0 ≤ d.kmerSize → ∀ (recId curLen extLen : Int) (w : ChainWalk),
          (chainOverlap d recId curLen extLen matchesList
            (chainTables d matchesList).scoreTable i w).score = d.kmerSize)) := by
  constructor
  · have h := (chainLoop_below d matchesList (matchesList.length - 1) 1
      { scoreTable := List.replicate matchesList.length 0
        backtrackTable := List.replicate matchesList.length (-1)
        skipCurPos := 0
        skipCurId := 0 } 0 (by omega)).1
    unfold chainTables
    rw [h]
    simp only [List.getD_eq_getElem?_getD, List.getElem?_replicate]
    split_ifs <;> rfl
  · intro i h1 h2
    obtain ⟨hskip, hscore, hback, hex⟩ := chainTables_entry d matchesList i h1 h2
    have hmax := lookBack_max d matchesList (chainTables d matchesList).scoreTable
      (matchAt matchesList i).curPos (matchAt matchesList i).extPos
      ((chainStep d matchesList i (tablesBefore d matchesList i)).skipCurId + 1) 0 0 0
    refine ⟨fun j hj => ?_, ?_, fun hneg => ⟨?_, fun hk recId curLen extLen w => ?_⟩⟩
    · rw [hex] at hj
      have := lookBackExamined_lt d matchesList _ _ _ _ _ _ j hj
      omega
    · rw [hscore, hmax, hex, max_comm]
    · obtain ⟨chains, hc, hheads, _, hone, _⟩ :=
        constructedChains_spec (matchesList.length - 1) _ (chainTables_BackOK d matchesList)
      have hi : some i ∈ chains.map List.head? := by
        rw [hheads]
        apply List.mem_map_of_mem
        rw [List.mem_iota]
        omega
      obtain ⟨q, hq, hqi⟩ := List.mem_map.mp hi
      have hq1 := hone q hq i hqi hneg
      rw [hq1] at hq
      exact ⟨chains, hc, hq, fun q2 hq2 hh => hone q2 hq2 i hh hneg⟩
    · show (chainTables d matchesList).scoreTable.getD i 0 = d.kmerSize
      rw [hscore, hback hneg]
      exact max_eq_right hk

/-! ### Instances of the per-target reduction -/

theorem selectOverlaps_drops_contained_witness :
    selectOverlaps exampleDetector false [containedChain, primaryChain] = [primaryChain] :=
  (selectOverlaps_drops_contained exampleDetector).2 primaryChain containedChain
    [containedChain, primaryChain] (Or.inr rfl) (by decide) (by decide)

theorem selectOverlaps_secondary_cap_witness :
    ∃ kept dropped,
      selectOverlaps exampleDetector false (primaryChain :: sevenChains) =
        primaryChain :: kept ∧
      kept.length = 5 ∧ dropped.length = 2 ∧
      stdSort scoreGreater (primaryChain :: sevenChains) = primaryChain :: (kept ++ dropped) ∧
      (kept ++ dropped).Perm sevenChains ∧
      (kept ++ dropped).Pairwise (fun a b => b.score ≤ a.score) :=
  (selectOverlaps_secondary_cap exampleDetector).2 primaryChain sevenChains
    (primaryChain :: sevenChains) (List.Perm.refl _) rfl (by decide)

theorem sevenChains_selected :
    selectOverlaps exampleDetector false (primaryChain :: sevenChains) =
      [primaryChain, shiftedChain 1, shiftedChain 2, shiftedChain 3, shiftedChain 4,
        shiftedChain 5] := by
  decide

/-! ### Termination of `extendRead` and `assembleContigs` -/

theorem extendRead_path (e : Extender) (visitedReads : List Int) (startRead : Int) (n : Nat) :
    ∃ added visited2 circular,
      extendRead e (e.enoughFuel + n) visitedReads startRead =
        some (⟨startRead :: added, circular⟩, visited2) ∧
      ExtendResult e startRead startRead (-startRead :: startRead :: visitedReads)
        added visited2 circular :=
  extendLoop_spec e startRead (e.enoughFuel + n) startRead [startRead]
    (-startRead :: startRead :: visitedReads)
    (lt_of_le_of_lt (unvisitedCount_le _ _) (by unfold Extender.enoughFuel; omega))

theorem chain_mem_extIds (e : Extender) :
    ∀ (added : List Int) (curRead : Int),
      List.Chain (fun a b => b ∈ extensionSet e a) curRead added →
      ∀ x ∈ added, x ∈ e.extIds := by
  intro added
  induction added with
  | nil => intro _ _ x hx; simp at hx
  | cons a rest ih =>
    intro curRead hc x hx
    rw [List.chain_cons] at hc
    rcases List.mem_cons.mp hx with h | h
    · rw [h]; exact extensionSet_subset_extIds e curRead a hc.1
    · exact ih a hc.2 x h

theorem length_le_card_of_nodup (l ids : List Int) (hnd : l.Nodup)
    (hsub : ∀ x ∈ l, x ∈ ids) : l.length ≤ ids.toFinset.card := by
  rw [← List.toFinset_card_of_nodup hnd]
  apply Finset.card_le_card
  intro x hx
  rw [List.mem_toFinset] at hx ⊢
  exact hsub x hx

theorem extendLoop_step (e : Extender) (startRead : Int) (fuel : Nat) (curRead : Int)
    (reads visitedReads : List Int) :
    (∃ circular, extendLoop e startRead (fuel + 1) curRead reads visitedReads =
        some (⟨reads, circular⟩, visitedReads)) ∨
    (stepRight e visitedReads curRead startRead ∉ visitedReads ∧
      stepRight e visitedReads curRead startRead ∈ e.extIds ∧
      extendLoop e startRead (fuel + 1) curRead reads visitedReads =
        extendLoop e startRead fuel (stepRight e visitedReads curRead startRead)
          (reads ++ [stepRight e visitedReads curRead startRead])
          (-stepRight e visitedReads curRead startRead ::
            stepRight e visitedReads curRead startRead :: visitedReads) ∧
      unvisitedCount e.extIds
          (-stepRight e visitedReads curRead startRead ::
            stepRight e visitedReads curRead startRead :: visitedReads) <
        unvisitedCount e.extIds visitedReads) := by
  by_cases h1 : stepRight e visitedReads curRead startRead = startRead
  · left
    exact ⟨true, by unfold extendLoop; simp only [h1, if_true]⟩
  · by_cases h2 : stepRight e visitedReads curRead startRead ∈ visitedReads
    · left
      exact ⟨false, by unfold extendLoop; simp only [h1, h2, if_true, if_false]⟩
    · by_cases h3 : stepRight e visitedReads curRead startRead = e.ID_NONE
      · left
        exact ⟨false, by unfold extendLoop; simp only []; rw [if_neg h1, if_neg h2, if_pos h3]⟩
      · right
        have hE : startRead ∉ extensionSet e curRead :=
          fun hm => h1 (stepRight_start e visitedReads curRead startRead hm)
        have hmem : stepRight e visitedReads curRead startRead ∈ e.extIds := by
          rcases stepRight_cases e visitedReads curRead startRead hE with h | h
          · exact absurd h.1 h3
          · exact extensionSet_subset_extIds e curRead _ h.1
        refine ⟨h2, hmem, ?_, ?_⟩
        · conv_lhs => unfold extendLoop
          simp only []
          rw [if_neg h1, if_neg h2, if_neg h3]
        · exact unvisitedCount_lt e.extIds visitedReads _ _ hmem h2 (by simp)
            (fun y hy => by simp [hy])

/-- Claim C21.  Termination.  With enough fuel `extendRead` returns; the path
has no read twice, each of its reads is the start read or an id of the overlap
index, and when the start read and every id of the overlap index are reads of
the store the length of the path is at most the number of stranded read ids of
the store.  An iteration of the loop of `extendRead` either returns or inserts
a read that was not visited before, which lowers the number of unvisited ids.
With enough fuel `assembleContigs` returns; each round starts from a read of
the store that is unvisited at the start of the round and visited at its end,
the visited set only grows, and there are at most as many rounds as stranded
read ids. -/
theorem extender_terminates (e : Extender) (n : Nat) :
    (∀ (visitedReads : List Int) (startRead : Int),
      ∃ path visited2,
        extendRead e (e.enoughFuel + n) visitedReads startRead = some (path, visited2) ∧
        path.reads.Nodup ∧
        (∀ x ∈ path.reads, x = startRead ∨ x ∈ e.extIds) ∧
        (startRead ∈ e.seqIndex.map Prod.fst →
          (∀ x ∈ e.extIds, x ∈ e.seqIndex.map Prod.fst) →
          path.reads.length ≤ (e.seqIndex.map Prod.fst).toFinset.card)) ∧
    (∀ (startRead : Int) (fuel : Nat) (curRead : Int) (reads visitedReads : List Int),
      (∃ circular, extendLoop e startRead (fuel + 1) curRead reads visitedReads =
          some (⟨reads, circular⟩, visitedReads)) ∨
      (∃ extRead, extRead ∉ visitedReads ∧
        extendLoop e startRead (fuel + 1) curRead reads visitedReads =
          extendLoop e startRead fuel extRead (reads ++ [extRead])
            (-extRead :: extRead :: visitedReads) ∧
        unvisitedCount e.extIds (-extRead :: extRead :: visitedReads) <
          unvisitedCount e.extIds visitedReads)) ∧
    (∃ rounds visited,
      assembleContigs e (e.enoughFuel + n) = some rounds ∧
      Linked [] rounds visited ∧
      (∀ r ∈ rounds,
        r.startRead ∈ e.seqIndex.map Prod.fst ∧ r.startRead ∉ r.visitedAtStart ∧
        r.startRead ∈ r.visitedAtEnd ∧ ∀ x ∈ r.visitedAtStart, x ∈ r.visitedAtEnd) ∧
      rounds.length ≤ (e.seqIndex.map Prod.fst).toFinset.card) := by
  refine ⟨fun visitedReads startRead => ?_, fun startRead fuel curRead reads visitedReads => ?_,
    ?_⟩
  · obtain ⟨added, v2, circ, hrun, hres⟩ := extendRead_path e visitedReads startRead n
    have hext := chain_mem_extIds e added startRead hres.steps
    have hnd : (startRead :: added).Nodup := by
      rw [List.nodup_cons]
      exact ⟨fun h => (hres.fresh _ h).2.1 rfl, hres.distinct.imp (fun h => h.1)⟩
    refine ⟨⟨startRead :: added, circ⟩, v2, hrun, hnd, fun x hx => ?_, fun hs hsub => ?_⟩
    · rcases List.mem_cons.mp hx with h | h
      · exact Or.inl h
      · exact Or.inr (hext x h)
    · apply length_le_card_of_nodup _ _ hnd
      intro x hx
      rcases List.mem_cons.mp hx with h | h
      · rw [h]; exact hs
      · exact hsub x (hext x h)
  · rcases extendLoop_step e startRead fuel curRead reads visitedReads with h | h
    · exact Or.inl h
    · exact Or.inr ⟨_, h.1, h.2.2.1, h.2.2.2⟩
  · obtain ⟨rounds, visited, hrun, htrace, _⟩ := assembleContigs_spec e n
    have hstart : ∀ r ∈ rounds, r.startRead ∈ r.visitedAtEnd := by
      intro r hr
      obtain ⟨added, _, hreads, _, _⟩ := (htrace.rounds_ok r hr).extended
      exact (htrace.rounds_ok r hr).reads_visited _ (by rw [hreads]; simp)
    refine ⟨rounds, visited, hrun, htrace.linked, fun r hr => ?_, ?_⟩
    · exact ⟨(htrace.rounds_ok r hr).start_in_store, (htrace.rounds_ok r hr).start_unvisited,
        hstart r hr, (htrace.rounds_ok r hr).grows⟩
    · have hnd : (rounds.map (fun r => r.startRead)).Nodup := by
        rw [List.Nodup, List.pairwise_map]
        apply htrace.starts.imp_of_mem
        intro r1 r2 hr1 _ h heq
        exact (h _ (hstart r1 hr1)).1 heq.symm
      have := length_le_card_of_nodup _ (e.seqIndex.map Prod.fst) hnd (fun x hx => by
        obtain ⟨r, hr, hrx⟩ := List.mem_map.mp hx
        rw [← hrx]
        exact (htrace.rounds_ok r hr).start_in_store)
      rw [List.length_map] at this
      exact this

theorem extender_terminates_witness :
    ∃ path visited2,
      extendRead exampleExtender (exampleExtender.enoughFuel + 0) [] 1 = some (path, visited2) ∧
      path.reads.length ≤ (exampleExtender.seqIndex.map Prod.fst).toFinset.card := by
  obtain ⟨path, v2, h1, _, _, h4⟩ := (extender_terminates exampleExtender 0).1 [] 1
  exact ⟨path, v2, h1, h4 (by decide) (by decide)⟩

/-! ### Chains are colinear -/

theorem constructedOverlaps_test :
    (constructedOverlaps exampleDetector 1 1000 1000 fourAnchors
      (chainTables exampleDetector fourAnchors).scoreTable 3
      (chainTables exampleDetector fourAnchors).backtrackTable).map
        (fun l => l.map (fun o => (o.curBegin, o.curEnd, o.extBegin, o.extEnd, o.score))) =
      some [(0, 614, 0, 614, 45), (400, 414, 400, 414, 30), (200, 214, 200, 214, 15)] := by
  decide

theorem lookBack_jump (d : OverlapDetector) (ms : List KmerMatch) (st : List Int)
    (curNext extNext : Int) :
    ∀ (k : Nat) (maxScore maxId noImp : Int),
      lookBack d ms st curNext extNext k maxScore maxId noImp = (maxScore, maxId) ∨
      (maxScore < (lookBack d ms st curNext extNext k maxScore maxId noImp).1 ∧
        ∃ j : Nat, (lookBack d ms st curNext extNext k maxScore maxId noImp).2 = (j : Int) ∧
          j < k ∧
          0 < curNext - (matchAt ms j).curPos ∧ curNext - (matchAt ms j).curPos < d.maxJump ∧
          0 < extNext - (matchAt ms j).extPos ∧ extNext - (matchAt ms j).extPos < d.maxJump) := by
  intro k
  induction k with
  | zero => intro a b c; left; simp [lookBack]
  | succ j ih =>
    intro maxScore maxId noImp
    unfold lookBack
    simp only []
    generalize candScore d ms st curNext extNext j = ns
    split_ifs with h1 h2 h3 h4 h5 h6
    · exact Or.inr ⟨h2, j, rfl, Nat.lt_succ_self j, h1⟩
    · right
      rcases ih ns j 0 with h | h
      · rw [h]
        exact ⟨h2, j, rfl, Nat.lt_succ_self j, h1⟩
      · obtain ⟨hlt, j2, hj2, hj2k, hjump⟩ := h
        exact ⟨lt_trans h2 hlt, j2, hj2, Nat.lt_succ_of_lt hj2k, hjump⟩
    · exact Or.inl rfl
    · exact Or.inl rfl
    · rcases ih maxScore maxId (noImp + 1) with h | h
      · exact Or.inl h
      · obtain ⟨hlt, j2, hj2, hj2k, hjump⟩ := h
        exact Or.inr ⟨hlt, j2, hj2, Nat.lt_succ_of_lt hj2k, hjump⟩
    · exact Or.inl rfl
    · rcases ih maxScore maxId noImp with h | h
      · exact Or.inl h
      · obtain ⟨hlt, j2, hj2, hj2k, hjump⟩ := h
        exact Or.inr ⟨hlt, j2, hj2, Nat.lt_succ_of_lt hj2k, hjump⟩

theorem Colinear_BackOK (d : OverlapDetector) (ms : List KmerMatch) (bt : List Int)
    (h : Colinear d ms bt) : BackOK bt := by
  intro p
  rcases h p with hp | hp
  · exact Or.inl hp
  · exact Or.inr ⟨hp.1, hp.2.1⟩

theorem Colinear_replicate (d : OverlapDetector) (ms : List KmerMatch) (n : Nat) :
    Colinear d ms (List.replicate n (-1)) := by
  intro p
  left
  simp only [List.getD_eq_getElem?_getD, List.getElem?_replicate]
  split_ifs <;> rfl

theorem Colinear_set (d : OverlapDetector) (ms : List KmerMatch) (bt : List Int) (i : Nat)
    (v : Int) (h : Colinear d ms bt)
    (hv : v = -1 ∨ (0 ≤ v ∧ v < i ∧ jumpOK d ms i v.toNat)) :
    Colinear d ms (bt.set i v) := by
  intro p
  rw [getD_set_eq]
  by_cases hc : i = p ∧ p < bt.length
  · rw [if_pos hc]
    rcases hc with ⟨rfl, _⟩
    exact hv
  · rw [if_neg hc]
    exact h p

theorem chainStep_Colinear (d : OverlapDetector) (ms : List KmerMatch) (i : Nat)
    (t : ChainTables) (hi : 1 ≤ i) (hs : t.skipCurId < i)
    (h : Colinear d ms t.backtrackTable) :
    Colinear d ms (chainStep d ms i t).backtrackTable := by
  rw [chainStep_backtrackTable]
  have hskip := chainStep_skip d ms i t hi hs
  rcases lookBack_jump d ms t.scoreTable (matchAt ms i).curPos (matchAt ms i).extPos
    ((chainStep d ms i t).skipCurId + 1) 0 0 0 with hl | hl
  · rw [hl]
    simp only [gt_iff_lt, lt_self_iff_false, if_false]
    exact h
  · obtain ⟨hlt, j, hj, hjk, hjump⟩ := hl
    rw [if_pos hlt, hj]
    apply Colinear_set d ms _ _ _ h
    right
    refine ⟨by positivity, by omega, ?_⟩
    rw [Int.toNat_natCast]
    exact hjump

theorem chainLoop_Colinear (d : OverlapDetector) (ms : List KmerMatch) :
    ∀ (steps i : Nat) (t : ChainTables), 1 ≤ i → t.skipCurId < i →
      Colinear d ms t.backtrackTable →
      Colinear d ms (chainLoop d ms steps i t).backtrackTable := by
  intro steps
  induction steps with
  | zero => intro i t _ _ h; exact h
  | succ n ih =>
    intro i t hi hs h
    unfold chainLoop
    exact ih (i + 1) _ (by omega)
      (Nat.lt_succ_of_lt (chainStep_skip d ms i t hi hs)) (chainStep_Colinear d ms i t hi hs h)

theorem chainTables_Colinear (d : OverlapDetector) (ms : List KmerMatch) :
    Colinear d ms (chainTables d ms).backtrackTable := by
  unfold chainTables
  exact chainLoop_Colinear d ms _ 1 _ (le_refl 1) (by simp) (Colinear_replicate d ms _)

theorem walkIndices_neg (fuel : Nat) (bt : List Int) :
    walkIndices fuel (-1) bt = some ([], bt) := by
  cases fuel <;> simp [walkIndices]

theorem walkIndices_colinear (d : OverlapDetector) (ms : List KmerMatch) :
    ∀ (fuel : Nat) (pos : Int) (bt : List Int) (r : List Nat × List Int),
      Colinear d ms bt → walkIndices fuel pos bt = some r →
      Colinear d ms r.2 ∧ List.Chain' (jumpOK d ms) r.1 := by
  intro fuel
  induction fuel with
  | zero =>
    intro pos bt r h hw
    unfold walkIndices at hw
    by_cases hp : pos = -1
    · rw [if_pos hp] at hw
      simp only [Option.some.injEq] at hw
      rw [← hw]
      exact ⟨h, List.chain'_nil⟩
    · rw [if_neg hp] at hw; simp at hw
  | succ n ih =>
    intro pos bt r h hw
    unfold walkIndices at hw
    by_cases hp : pos = -1
    · rw [if_pos hp] at hw
      simp only [Option.some.injEq] at hw
      rw [← hw]
      exact ⟨h, List.chain'_nil⟩
    · rw [if_neg hp] at hw
      cases hrec : walkIndices n (bt.getD pos.toNat (-1)) (bt.set pos.toNat (-1)) with
      | none => rw [hrec] at hw; simp at hw
      | some r1 =>
        rw [hrec] at hw
        simp only [Option.some.injEq] at hw
        rw [← hw]
        obtain ⟨hc1, hch1⟩ := ih _ _ r1 (Colinear_set d ms bt pos.toNat (-1) h (Or.inl rfl)) hrec
        refine ⟨hc1, ?_⟩
        rw [List.chain'_cons']
        refine ⟨fun y hy => ?_, hch1⟩
        by_cases hnext : bt.getD pos.toNat (-1) = -1
        · rw [hnext, walkIndices_neg] at hrec
          simp only [Option.some.injEq] at hrec
          rw [← hrec] at hy
          simp at hy
        · have hhead := walkIndices_head _ _ _ _ hrec hnext
          rw [hhead] at hy
          simp only [Option.mem_def, Option.some.injEq] at hy
          rw [← hy]
          rcases h pos.toNat with hb | hb
          · exact absurd hb hnext
          · exact hb.2.2

theorem constructedChains_colinear (d : OverlapDetector) (ms : List KmerMatch) :
    ∀ (c : Nat) (bt : List Int) (chains : List (List Nat)),
      Colinear d ms bt → constructedChains c bt = some chains →
      ∀ p ∈ chains, List.Chain' (jumpOK d ms) p := by
  intro c
  induction c with
  | zero =>
    intro bt chains _ hc p hp
    unfold constructedChains at hc
    simp only [Option.some.injEq] at hc
    rw [← hc] at hp
    simp at hp
  | succ n ih =>
    intro bt chains h hc p hp
    unfold constructedChains at hc
    cases hw : walkIndices (n + 2) ((n + 1 : Nat) : Int) bt with
    | none => rw [hw] at hc; simp at hc
    | some r =>
      rw [hw] at hc
      simp only [] at hc
      cases hrest : constructedChains n r.2 with
      | none => rw [hrest] at hc; simp at hc
      | some rest =>
        rw [hrest] at hc
        simp only [Option.some.injEq] at hc
        obtain ⟨hcol, hch⟩ := walkIndices_colinear d ms _ _ _ r h hw
        rw [← hc] at hp
        rcases List.mem_cons.mp hp with h1 | h1
        · rw [h1]; exact hch
        · exact ih r.2 rest hcol hrest p h1

theorem chain_pairwise (d : OverlapDetector) (ms : List KmerMatch) (p : List Nat)
    (h : List.Chain' (jumpOK d ms) p) :
    p.Pairwise (fun x y => (matchAt ms y).curPos < (matchAt ms x).curPos ∧
      (matchAt ms y).extPos < (matchAt ms x).extPos) := by
  haveI : IsTrans Nat (fun x y => (matchAt ms y).curPos < (matchAt ms x).curPos ∧
      (matchAt ms y).extPos < (matchAt ms x).extPos) :=
    ⟨fun a b c h1 h2 => ⟨lt_trans h2.1 h1.1, lt_trans h2.2 h1.2⟩⟩
  rw [← List.chain'_iff_pairwise]
  apply h.imp
  intro x y hxy
  unfold jumpOK at hxy
  constructor <;> omega

theorem walk_first_le (d : OverlapDetector) (ms : List KmerMatch) (p : List Nat) (a : Nat)
    (h : List.Chain' (jumpOK d ms) p) (hhead : p.head? = some a) :
    ((p.getLast?.map (matchAt ms)).getD (matchAt ms a)).curPos ≤ (matchAt ms a).curPos ∧
    ((p.getLast?.map (matchAt ms)).getD (matchAt ms a)).extPos ≤ (matchAt ms a).extPos := by
  have hpw := chain_pairwise d ms p h
  cases hl : p.getLast? with
  | none => exact ⟨le_refl _, le_refl _⟩
  | some l =>
    simp only [Option.map_some', Option.getD_some]
    have hmem : l ∈ p := List.mem_of_mem_getLast? hl
    cases p with
    | nil => simp at hmem
    | cons x t =>
      simp only [List.head?_cons, Option.some.injEq] at hhead
      rw [hhead] at hpw hmem
      rcases List.mem_cons.mp hmem with h1 | h1
      · rw [h1]; exact ⟨le_refl _, le_refl _⟩
      · have := (List.pairwise_cons.mp hpw).1 l h1
        exact ⟨le_of_lt this.1, le_of_lt this.2⟩

theorem constructedOverlaps_spec (d : OverlapDetector) (recId curLen extLen : Int)
    (ms : List KmerMatch) (st : List Int) :
    ∀ (c : Nat) (bt : List Int), Colinear d ms bt →
      ∃ ovlps, constructedOverlaps d recId curLen extLen ms st c bt = some ovlps ∧
        ovlps.length = c ∧
        ∀ o ∈ ovlps, o.curBegin ≤ o.curEnd - (d.kmerSize - 1) ∧
          o.extBegin ≤ o.extEnd - (d.kmerSize - 1) := by
  intro c
  induction c with
  | zero => intro bt _; exact ⟨[], rfl, rfl, by simp⟩
  | succ n ih =>
    intro bt h
    obtain ⟨w, hw, _⟩ := walkChain_some d ms (n + 2) ((n + 1 : Nat) : Int)
      { firstMatch := matchAt ms (n + 1), shifts := [], kmerMatches := [],
        chainLength := 0, totalMatch := d.kmerSize, backtrackTable := bt }
      (Colinear_BackOK d ms bt h) (Or.inr ⟨by positivity, by push_cast; omega⟩)
    obtain ⟨p, hp1, _, _, hp4⟩ := walkChain_indices d ms _ _ _ _ hw
    simp only [] at hp1 hp4
    obtain ⟨hcol, hch⟩ := walkIndices_colinear d ms _ _ _ _ h hp1
    simp only [] at hcol hch
    have hhead := walkIndices_head _ _ _ _ hp1 (by omega)
    rw [Int.toNat_natCast] at hhead
    simp only [] at hhead
    have hle := walk_first_le d ms p (n + 1) hch hhead
    rw [← hp4] at hle
    obtain ⟨ovlps, hrest, hlen, hall⟩ := ih w.backtrackTable hcol
    refine ⟨chainOverlap d recId curLen extLen ms st (n + 1) w :: ovlps, ?_, ?_, ?_⟩
    · unfold constructedOverlaps
      rw [hw]
      simp only []
      rw [hrest]
    · rw [List.length_cons, hlen]
    · intro o ho
      rcases List.mem_cons.mp ho with h1 | h1
      · rw [h1]
        constructor
        · show w.firstMatch.curPos ≤
            (matchAt ms (n + 1)).curPos + d.kmerSize - 1 - (d.kmerSize - 1)
          have := hle.1
          omega
        · show w.firstMatch.extPos ≤
            (matchAt ms (n + 1)).extPos + d.kmerSize - 1 - (d.kmerSize - 1)
          have := hle.2
          omega
      · exact hall o h1

theorem backtrackLoop_constructed (d : OverlapDetector) (recId curLen extLen : Int)
    (ms : List KmerMatch) (st : List Int) :
    ∀ (c : Nat) (bt : List Int) (flag : Bool) (acc : List OverlapRange)
      (res : List OverlapRange × Bool) (ovlps : List OverlapRange),
      backtrackLoop d recId curLen extLen ms st c bt flag acc = some res →
      constructedOverlaps d recId curLen extLen ms st c bt = some ovlps →
      ∀ o ∈ res.1, o ∈ acc ∨ o ∈ ovlps := by
  intro c
  induction c with
  | zero =>
    intro bt flag acc res ovlps h _ o ho
    unfold backtrackLoop at h
    simp only [Option.some.injEq] at h
    rw [← h] at ho
    exact Or.inl ho
  | succ n ih =>
    intro bt flag acc res ovlps h hc o ho
    unfold backtrackLoop at h
    unfold constructedOverlaps at hc
    cases hw : walkChain d ms (n + 2) ((n + 1 : Nat) : Int)
        { firstMatch := matchAt ms (n + 1), shifts := [], kmerMatches := [],
          chainLength := 0, totalMatch := d.kmerSize, backtrackTable := bt } with
    | none => rw [hw] at h; simp at h
    | some w =>
      rw [hw] at h hc
      simp only [] at h hc
      cases hrest : constructedOverlaps d recId curLen extLen ms st n w.backtrackTable with
      | none => rw [hrest] at hc; simp at hc
      | some rest =>
        rw [hrest] at hc
        simp only [Option.some.injEq] at hc
        rw [← hc]
        have key : ∀ (flag1 : Bool) (acc1 : List OverlapRange),
            backtrackLoop d recId curLen extLen ms st n w.backtrackTable flag1 acc1 =
              some res →
            (∀ x ∈ acc1, x ∈ acc ∨ x = chainOverlap d recId curLen extLen ms st (n + 1) w) →
            o ∈ acc ∨ o ∈ chainOverlap d recId curLen extLen ms st (n + 1) w :: rest := by
          intro flag1 acc1 h1 hacc1
          rcases ih _ _ _ _ _ h1 hrest o ho with h2 | h2
          · rcases hacc1 o h2 with h3 | h3
            · exact Or.inl h3
            · exact Or.inr (by rw [h3]; exact List.mem_cons_self _ _)
          · exact Or.inr (List.mem_cons_of_mem _ h2)
        split_ifs at h with h1 h2
        · apply key _ _ h
          intro x hx
          rcases List.mem_append.mp hx with hx1 | hx1
          · exact Or.inl hx1
          · rw [List.mem_singleton] at hx1
            exact Or.inr hx1
        · exact key _ _ h (fun x hx => Or.inl hx)
        · exact key _ _ h (fun x hx => Or.inl hx)

theorem acceptedChains_constructed (d : OverlapDetector) (fastaRec : FastaRecord)
    (seqVec : Int × List KmerMatch) (o : OverlapRange)
    (ho : o ∈ acceptedChains d fastaRec seqVec) :
    o.curBegin ≤ o.curEnd - (d.kmerSize - 1) ∧ o.extBegin ≤ o.extEnd - (d.kmerSize - 1) := by
  unfold acceptedChains at ho
  cases ht : targetChains d fastaRec false seqVec with
  | none => rw [ht] at ho; simp at ho
  | some r =>
    rw [ht] at ho
    simp only [] at ho
    unfold targetChains at ht
    simp only [] at ht
    obtain ⟨ovlps, hc, _, hall⟩ := constructedOverlaps_spec d fastaRec.id fastaRec.seqLength
      (d.seqLen seqVec.1) seqVec.2 (chainTables d seqVec.2).scoreTable
      (seqVec.2.length - 1) _ (chainTables_Colinear d seqVec.2)
    rcases backtrackLoop_constructed d _ _ _ _ _ _ _ _ _ _ _ ht hc o ho with h | h
    · simp at h
    · exact hall o h

/-- Claim C22.  Chains are colinear.  After the chaining loop every anchor
index `i` with `backtrackTable[i] = j != -1` has `0 <= j < i`,
`0 < curPos[i] - curPos[j] < maxJump` and `0 < extPos[i] - extPos[j] < maxJump`.
Hence every walk of the backtracking loop ends, every chain it walks has
strictly smaller `curPos` and `extPos` at each later anchor of the walk (the
chain is strictly increasing in both from its first anchor to its start),
every overlap the loop builds, and so every overlap `getSeqOverlaps` returns,
has `curBegin <= curEnd - (kmerSize - 1)` and
`extBegin <= extEnd - (kmerSize - 1)`. -/
theorem chains_colinear (d : OverlapDetector) (matchesList : List KmerMatch) :
    (∀ i : Nat, (chainTables d matchesList).backtrackTable.getD i (-1) ≠ -1 →
      0 ≤ (chainTables d matchesList).backtrackTable.getD i (-1) ∧
      (chainTables d matchesList).backtrackTable.getD i (-1) < i ∧
      0 < (matchAt matchesList i).curPos -
        (matchAt matchesList
          ((chainTables d matchesList).backtrackTable.getD i (-1)).toNat).curPos ∧
      (matchAt matchesList i).curPos -
        (matchAt matchesList
          ((chainTables d matchesList).backtrackTable.getD i (-1)).toNat).curPos < d.maxJump ∧
      0 < (matchAt matchesList i).extPos -
        (matchAt matchesList
          ((chainTables d matchesList).backtrackTable.getD i (-1)).toNat).extPos ∧
      (matchAt matchesList i).extPos -
        (matchAt matchesList
          ((chainTables d matchesList).backtrackTable.getD i (-1)).toNat).extPos < d.maxJump) ∧
    (∃ chains,
      constructedChains (matchesList.length - 1) (chainTables d matchesList).backtrackTable =
        some chains ∧
      chains.length = matchesList.length - 1 ∧
      ∀ p ∈ chains, p.Pairwise (fun x y =>
        (matchAt matchesList y).curPos < (matchAt matchesList x).curPos ∧
        (matchAt matchesList y).extPos < (matchAt matchesList x).extPos)) ∧
    (∀ recId curLen extLen : Int, ∃ ovlps,
      constructedOverlaps d recId curLen extLen matchesList
        (chainTables d matchesList).scoreTable (matchesList.length - 1)
        (chainTables d matchesList).backtrackTable = some ovlps ∧
      ovlps.length = matchesList.length - 1 ∧
      ∀ o ∈ ovlps, o.curBegin ≤ o.curEnd - (d.kmerSize - 1) ∧
        o.extBegin ≤ o.extEnd - (d.kmerSize - 1)) ∧
    (∀ (fastaRec : FastaRecord) (u : Bool), ∃ res,
      getSeqOverlaps d fastaRec u = some res ∧
      ∀ o ∈ res.1, o.curBegin ≤ o.curEnd - (d.kmerSize - 1) ∧
        o.extBegin ≤ o.extEnd - (d.kmerSize - 1)) := by
  have hcol := chainTables_Colinear d matchesList
  refine ⟨fun i hi => ?_, ?_, fun recId curLen extLen => ?_, fun fastaRec u => ?_⟩
  · rcases hcol i with h | h
    · exact absurd h hi
    · exact ⟨h.1, h.2.1, h.2.2⟩
  · obtain ⟨chains, hc, hheads, _⟩ := constructedChains_spec (matchesList.length - 1) _
      (Colinear_BackOK d matchesList _ hcol)
    refine ⟨chains, hc, ?_, fun p hp => ?_⟩
    · have := congrArg List.length hheads
      simpa using this
    · exact chain_pairwise d matchesList p
        (constructedChains_colinear d matchesList _ _ _ hcol hc p hp)
  · exact constructedOverlaps_spec d recId curLen extLen matchesList _ _ _ hcol
  · obtain ⟨res, hres⟩ := getSeqOverlaps_total d fastaRec u
    refine ⟨res, hres, fun o ho => ?_⟩
    obtain ⟨kv, _, _, hsel⟩ := getSeqOverlaps_emitted d fastaRec u res hres o ho
    exact acceptedChains_constructed d fastaRec kv o (selectOverlaps_subset d u _ o hsel)

/-! ### The two prunings of the look-back -/

theorem matchAt_mono (ms : List KmerMatch)
    (hmono : ms.Pairwise (fun a b => a.curPos ≤ b.curPos)) (a b : Nat)
    (hab : a ≤ b) (hb : b < ms.length) :
    (matchAt ms a).curPos ≤ (matchAt ms b).curPos := by
  have ha : a < ms.length := lt_of_le_of_lt hab hb
  have e1 : matchAt ms a = ms[a] := by
    unfold matchAt
    rw [List.getD_eq_getElem?_getD, List.getElem?_eq_getElem ha]
    rfl
  have e2 : matchAt ms b = ms[b] := by
    unfold matchAt
    rw [List.getD_eq_getElem?_getD, List.getElem?_eq_getElem hb]
    rfl
  rw [e1, e2]
  rcases Nat.lt_or_eq_of_le hab with h | h
  · exact (List.pairwise_iff_getElem.mp hmono) a b ha hb h
  · subst h
    exact le_refl _

theorem lookBackFull_none (d : OverlapDetector) (ms : List KmerMatch) (st : List Int)
    (curNext extNext : Int) :
    ∀ (k : Nat), (∀ j, j < k → ¬ (0 < curNext - (matchAt ms j).curPos ∧
        curNext - (matchAt ms j).curPos < d.maxJump)) →
      ∀ (maxScore maxId noImp : Int),
        lookBackFull d ms st curNext extNext k maxScore maxId noImp = (maxScore, maxId) := by
  intro k
  induction k with
  | zero => intro _ a b c; simp [lookBackFull]
  | succ j ih =>
    intro h maxScore maxId noImp
    unfold lookBackFull
    simp only []
    have hj := h j (Nat.lt_succ_self j)
    rw [if_neg (fun hc => hj ⟨hc.1, hc.2.1⟩)]
    exact ih (fun x hx => h x (Nat.lt_succ_of_lt hx)) _ _ _

theorem lookBackFull_skip (d : OverlapDetector) (ms : List KmerMatch) (st : List Int)
    (curNext extNext : Int) (s : Nat) :
    ∀ (k : Nat), s ≤ k →
      (∀ j, s ≤ j → j < k → (matchAt ms j).curPos = curNext) →
      ∀ (maxScore maxId noImp : Int),
        lookBackFull d ms st curNext extNext k maxScore maxId noImp =
          lookBackFull d ms st curNext extNext s maxScore maxId noImp := by
  intro k
  induction k with
  | zero =>
    intro hs _ a b c
    have : s = 0 := Nat.le_zero.mp hs
    rw [this]
  | succ j ih =>
    intro hs h maxScore maxId noImp
    rcases Nat.lt_or_eq_of_le hs with hlt | heq
    · have hj := h j (Nat.lt_succ_iff.mp hlt) (Nat.lt_succ_self j)
      conv_lhs => unfold lookBackFull
      simp only []
      rw [if_neg (fun hc => by have := hc.1; omega)]
      exact ih (Nat.lt_succ_iff.mp hlt) (fun x hx1 hx2 => h x hx1 (Nat.lt_succ_of_lt hx2)) _ _ _
    · rw [heq]

theorem lookBack_eq_full (d : OverlapDetector) (ms : List KmerMatch) (st : List Int)
    (curNext extNext : Int) :
    ∀ (k : Nat),
      (∀ a b, a ≤ b → b < k → (matchAt ms a).curPos ≤ (matchAt ms b).curPos) →
      ∀ (maxScore maxId noImp : Int),
        lookBack d ms st curNext extNext k maxScore maxId noImp =
          lookBackFull d ms st curNext extNext k maxScore maxId noImp := by
  intro k
  induction k with
  | zero => intro _ a b c; simp [lookBack, lookBackFull]
  | succ j ih =>
    intro hmono maxScore maxId noImp
    have ih1 := ih (fun a b hab hb => hmono a b hab (Nat.lt_succ_of_lt hb))
    unfold lookBack lookBackFull
    simp only []
    by_cases h1 : 0 < curNext - (matchAt ms j).curPos ∧
        curNext - (matchAt ms j).curPos < d.maxJump ∧
        0 < extNext - (matchAt ms j).extPos ∧ extNext - (matchAt ms j).extPos < d.maxJump
    · have hgap : ¬ (curNext - (matchAt ms j).curPos > d.maxJump) := by
        have := h1.2.1
        omega
      rw [if_pos h1, if_pos h1, if_neg hgap]
      by_cases h2 : candScore d ms st curNext extNext j > maxScore
      · rw [if_pos h2, if_pos h2]
        exact ih1 _ _ _
      · rw [if_neg h2, if_neg h2]
        by_cases h3 : noImp + 1 > MAX_LOOK_BACK
        · rw [if_pos h3, if_pos h3]
        · rw [if_neg h3, if_neg h3, if_neg hgap]
          exact ih1 _ _ _
    · rw [if_neg h1, if_neg h1]
      by_cases hgap : curNext - (matchAt ms j).curPos > d.maxJump
      · rw [if_pos hgap]
        symm
        apply lookBackFull_none
        intro x hx hc
        have := hmono x j (Nat.le_of_lt hx) (Nat.lt_succ_self j)
        have := hc.2
        omega
      · rw [if_neg hgap]
        exact ih1 _ _ _

theorem chainStep_skipCurId (d : OverlapDetector) (ms : List KmerMatch) (i : Nat)
    (t : ChainTables) :
    (chainStep d ms i t).skipCurId =
        (if (matchAt ms i).curPos ≠ t.skipCurPos then i - 1 else t.skipCurId) ∧
    (chainStep d ms i t).skipCurPos =
        (if (matchAt ms i).curPos ≠ t.skipCurPos then (matchAt ms i).curPos
          else t.skipCurPos) :=
  ⟨rfl, rfl⟩

theorem chainStep_SkipOK (d : OverlapDetector) (ms : List KmerMatch) (i : Nat)
    (t : ChainTables) (hi : 1 ≤ i) (h : SkipOK ms t i) :
    SkipOK ms (chainStep d ms i t) (i + 1) ∧
    ∀ j, (chainStep d ms i t).skipCurId + 1 ≤ j → j < i →
      (matchAt ms j).curPos = (matchAt ms i).curPos := by
  obtain ⟨e1, e2⟩ := chainStep_skipCurId d ms i t
  by_cases hc : (matchAt ms i).curPos ≠ t.skipCurPos
  · rw [if_pos hc] at e1 e2
    refine ⟨⟨by omega, fun j hj1 hj2 => ?_⟩, fun j hj1 hj2 => by omega⟩
    have : j = i := by omega
    rw [this, e2]
  · rw [if_neg hc] at e1 e2
    have heq : (matchAt ms i).curPos = t.skipCurPos := not_not.mp hc
    refine ⟨⟨by have := h.1; omega, fun j hj1 hj2 => ?_⟩, fun j hj1 hj2 => ?_⟩
    · rw [e2]
      rw [e1] at hj1
      by_cases hji : j = i
      · rw [hji]; exact heq
      · exact h.2 j hj1 (by omega)
    · rw [heq]
      exact h.2 j (by omega) hj2

theorem chainStep_eq_full (d : OverlapDetector) (ms : List KmerMatch)
    (hmono : ms.Pairwise (fun a b => a.curPos ≤ b.curPos)) (i : Nat) (t : ChainTables)
    (hi : 1 ≤ i) (hlen : i ≤ ms.length) (h : SkipOK ms t i) :
    (chainStep d ms i t).scoreTable =
      (chainStepFull d ms i (t.scoreTable, t.backtrackTable)).1 ∧
    (chainStep d ms i t).backtrackTable =
      (chainStepFull d ms i (t.scoreTable, t.backtrackTable)).2 := by
  have hskip := chainStep_SkipOK d ms i t hi h
  have hlt : (chainStep d ms i t).skipCurId + 1 ≤ i := by
    have := chainStep_skip d ms i t hi h.1
    omega
  have hlook : lookBack d ms t.scoreTable (matchAt ms i).curPos (matchAt ms i).extPos
      ((chainStep d ms i t).skipCurId + 1) 0 0 0 =
      lookBackFull d ms t.scoreTable (matchAt ms i).curPos (matchAt ms i).extPos i 0 0 0 := by
    rw [lookBackFull_skip d ms t.scoreTable _ _ ((chainStep d ms i t).skipCurId + 1) i hlt
      hskip.2]
    apply lookBack_eq_full
    intro a b hab hb
    exact matchAt_mono ms hmono a b hab (by omega)
  rw [chainStep_scoreTable, chainStep_backtrackTable, hlook]
  exact ⟨rfl, rfl⟩

theorem chainLoop_eq_full (d : OverlapDetector) (ms : List KmerMatch)
    (hmono : ms.Pairwise (fun a b => a.curPos ≤ b.curPos)) :
    ∀ (steps i : Nat) (t : ChainTables), 1 ≤ i → i + steps ≤ ms.length + 1 →
      SkipOK ms t i →
      (chainLoop d ms steps i t).scoreTable =
        (chainLoopFull d ms steps i (t.scoreTable, t.backtrackTable)).1 ∧
      (chainLoop d ms steps i t).backtrackTable =
        (chainLoopFull d ms steps i (t.scoreTable, t.backtrackTable)).2 := by
  intro steps
  induction steps with
  | zero => intro i t _ _ _; exact ⟨rfl, rfl⟩
  | succ n ih =>
    intro i t hi hlen h
    unfold chainLoop chainLoopFull
    have hstep := chainStep_eq_full d ms hmono i t hi (by omega) h
    have hnext := ih (i + 1) (chainStep d ms i t) (by omega) (by omega)
      (chainStep_SkipOK d ms i t hi h).1
    rw [hstep.1, hstep.2] at hnext
    exact hnext

theorem chainTables_eq_full (d : OverlapDetector) (ms : List KmerMatch)
    (hmono : ms.Pairwise (fun a b => a.curPos ≤ b.curPos)) :
    (chainTables d ms).scoreTable = (chainTablesFull d ms).1 ∧
    (chainTables d ms).backtrackTable = (chainTablesFull d ms).2 := by
  unfold chainTables chainTablesFull
  apply chainLoop_eq_full d ms hmono _ 1 _ (le_refl 1) (by omega)
  exact ⟨by simp, fun j hj1 hj2 => by simp at hj1; omega⟩

/-- Claim C23.  The two prunings of the chaining loop are lossless: for every
list of anchors whose `curPos` values are non-negative and non-decreasing, the
`scoreTable` and the `backtrackTable` of the code, whose look-back starts at
`skipCurId` and breaks once `curNext - curPrev > maxJump`, are equal to those
of the same loop that scans every `j` from `i - 1` down to 0 without the break
on the `curPos` gap and keeps only the `MAX_LOOK_BACK` budget. -/
theorem chainTables_pruning_lossless (d : OverlapDetector) (matchesList : List KmerMatch)
    (hnonneg : ∀ m ∈ matchesList, 0 ≤ m.curPos)
    (hmono : matchesList.Pairwise (fun a b => a.curPos ≤ b.curPos)) :
    (chainTables d matchesList).scoreTable = (chainTablesFull d matchesList).1 ∧
    (chainTables d matchesList).backtrackTable = (chainTablesFull d matchesList).2 :=
  have _ := hnonneg
  chainTables_eq_full d matchesList hmono

theorem chainTables_pruning_lossless_witness :
    (∀ m ∈ gappedAnchors, 0 ≤ m.curPos) ∧
    gappedAnchors.Pairwise (fun a b => a.curPos ≤ b.curPos) ∧
    (chainTables exampleDetector gappedAnchors).scoreTable =
      (chainTablesFull exampleDetector gappedAnchors).1 ∧
    (chainTables exampleDetector gappedAnchors).backtrackTable =
      (chainTablesFull exampleDetector gappedAnchors).2 :=
  ⟨by decide, by decide,
    chainTables_pruning_lossless exampleDetector gappedAnchors (by decide) (by decide)⟩

theorem gappedAnchors_tables :
    (chainTables exampleDetector gappedAnchors).scoreTable = [0, 15, 15, 30, 20, 15, 15] ∧
    (chainTables exampleDetector gappedAnchors).backtrackTable = [-1, -1, 0, 1, 1, -1, -1] ∧
    chainTablesFull exampleDetector gappedAnchors =
      ([0, 15, 15, 30, 20, 15, 15], [-1, -1, 0, 1, 1, -1, -1]) := by
  decide

end Flye
